import Mathlib

/-!
Verification of the catamari sparse direct solver specification.

This file gives a shallow embedding, in Lean 4, of the parts of the
catamari library needed to settle the frozen claims: the coordinate-format
sparse matrix (`include/catamari/coordinate_matrix-impl.hpp`), the dense
factorization kernels (`include/catamari/dense_factorizations/...`), the
scalar symbolic analysis (`ldl/scalar_ldl/scalar_utils-impl.hpp`), the
supernode relaxation utilities, the supernodal triangular solve, and the
DPP log-likelihood.

Conventions.  C++ `Int` is embedded as Lean `Int`; list/array indexing by
an `Int` index converts through `Int.toNat` and out-of-range reads are
totalized with a default value (the C++ behavior at such reads is
undefined, and the theorems below only evaluate the embeddings inside the
ranges the library asserts).  The template parameter `Ring` of
`CoordinateMatrix` is embedded as a type parameter carrying exactly the
algebraic structure the code uses.  Numeric field computations use `ℚ`.
-/

set_option maxHeartbeats 1000000

namespace Catamari

/-! ## Coordinate-format sparse matrix -/

/-- Embeds `quotient::MatrixEntry<Ring>`: a row index, a column index and a
value. -/
structure MatrixEntry (R : Type) where
  row : Int
  column : Int
  value : R
deriving DecidableEq, Repr

/-- Embeds `quotient::GraphEdge`: a (row, column) pair queued for removal. -/
structure GraphEdge where
  row : Int
  column : Int
deriving DecidableEq, Repr

/-- The (row, column) key of an entry. -/
def entryKey {R : Type} (e : MatrixEntry R) : Int × Int := (e.row, e.column)

/-- Strict lexicographic order on (row, column) keys. -/
def keyLT (a b : Int × Int) : Prop := a.1 < b.1 ∨ (a.1 = b.1 ∧ a.2 < b.2)

instance (a b : Int × Int) : Decidable (keyLT a b) := by
  unfold keyLT; infer_instance

/-- The non-strict lexicographic order induced by `keyLT`. -/
def keyLE (a b : Int × Int) : Prop := ¬ keyLT b a

instance (a b : Int × Int) : Decidable (keyLE a b) := by
  unfold keyLE; infer_instance

/-- Modelled from the spec: the comparison operator of
`quotient::MatrixEntry` lives in the external quotient dependency, not
under `src/`; the spec states the entry sequence is ordered
lexicographically by `(row, column)`. -/
def entryLTb {R : Type} (a b : MatrixEntry R) : Bool :=
  decide (keyLT (entryKey a) (entryKey b))

/-- The non-strict entry comparison; `std::sort` with `operator<` produces
some sequence sorted with respect to this relation, and the embedding
determinizes the unspecified order of equal-key entries with an insertion
sort (the theorems below show the flushed result does not depend on this
choice). -/
def entryLE {R : Type} (a b : MatrixEntry R) : Prop :=
  keyLE (entryKey a) (entryKey b)

instance {R : Type} (a b : MatrixEntry R) : Decidable (entryLE a b) := by
  unfold entryLE; infer_instance

/-- Modelled from the spec: comparison of `quotient::GraphEdge` (external
dependency), lexicographic by (row, column). -/
def edgeLTb (a b : GraphEdge) : Bool :=
  decide (keyLT (a.row, a.column) (b.row, b.column))

/-- Non-strict comparison on graph edges. -/
def edgeLE (a b : GraphEdge) : Prop := keyLE (a.row, a.column) (b.row, b.column)

instance (a b : GraphEdge) : Decidable (edgeLE a b) := by
  unfold edgeLE; infer_instance

/-- Embeds `std::lower_bound` over a list: the number of leading elements
that compare strictly below the target, which for a sorted list is the
index of the first element not below the target. -/
def lowerBoundCount {α : Type} (lt : α → α → Bool) : List α → α → Nat
  | [], _ => 0
  | x :: xs, target => if lt x target then lowerBoundCount lt xs target + 1 else 0

/-- Adds `v` to the value of the last packed entry; this embeds the
`(*entries)[num_packed - 1].value += entry.value` statement of
`CoordinateMatrix::CombineSortedEntries`.  (If nothing has been packed the
C++ read is out of bounds; the embedding drops the value, and the theorems
below only exercise the in-bounds regime of nonnegative keys.) -/
def updateLast {R : Type} [Add R] : List (MatrixEntry R) → R → List (MatrixEntry R)
  | [], _ => []
  | [e], v => [{ e with value := e.value + v }]
  | e :: f :: rest, v => e :: updateLast (f :: rest) v

/-- The loop of `CoordinateMatrix::CombineSortedEntries`, carrying the
`(last_row, last_column)` pair and the packed output. -/
def combineLoop {R : Type} [Add R] :
    Int × Int → List (MatrixEntry R) → List (MatrixEntry R) → List (MatrixEntry R)
  | _, packed, [] => packed
  | last, packed, e :: rest =>
      if entryKey e = last then
        combineLoop last (updateLast packed e.value) rest
      else
        combineLoop (entryKey e) (packed ++ [e]) rest

/-- Embeds `CoordinateMatrix::CombineSortedEntries`: packs a sorted entry
list, summing runs of entries that share a (row, column) key; the
`last_row`/`last_column` trackers start at `-1`. -/
def CombineSortedEntries {R : Type} [Add R] (entries : List (MatrixEntry R)) :
    List (MatrixEntry R) :=
  combineLoop (-1, -1) [] entries

/-- Fuel-indexed recursion realizing the `std::merge` call of
`FlushEntryAdditionQueue`; the fuel only serves to make the recursion
structural, and `mergeEntries` always supplies enough of it. -/
def mergeEntriesFuel {R : Type} :
    Nat → List (MatrixEntry R) → List (MatrixEntry R) → List (MatrixEntry R)
  | 0, xs, ys => xs ++ ys
  | _ + 1, [], ys => ys
  | _ + 1, x :: xs, [] => x :: xs
  | fuel + 1, x :: xs, y :: ys =>
      if entryLTb y x then y :: mergeEntriesFuel fuel (x :: xs) ys
      else x :: mergeEntriesFuel fuel xs (y :: ys)

/-- Embeds the `std::merge` call of `FlushEntryAdditionQueue`: merges the
existing entries (first range) with the combined additions (second range);
`std::merge` takes from the second range exactly when its head compares
strictly below the head of the first. -/
def mergeEntries {R : Type} (xs ys : List (MatrixEntry R)) : List (MatrixEntry R) :=
  mergeEntriesFuel (xs.length + ys.length) xs ys

/-- Embeds `catamari::CoordinateMatrix<Ring>`: sizes, the sorted entry
list, the row-offset array, and the two pending queues. -/
structure CoordinateMatrix (R : Type) where
  num_rows : Int
  num_columns : Int
  entries : List (MatrixEntry R)
  row_entry_offsets : List Int
  entries_to_add : List (MatrixEntry R)
  entries_to_remove : List GraphEdge
deriving DecidableEq, Repr

namespace CoordinateMatrix

variable {R : Type}

/-- Embeds `CoordinateMatrix::Resize`. -/
def Resize (m : CoordinateMatrix R) (num_rows num_columns : Int) : CoordinateMatrix R :=
  if num_rows = m.num_rows ∧ num_columns = m.num_columns then m
  else
    { num_rows := num_rows
      num_columns := num_columns
      entries := []
      row_entry_offsets := List.replicate (num_rows + 1).toNat 0
      entries_to_add := []
      entries_to_remove := [] }

/-- An empty `num_rows × num_columns` coordinate matrix, as produced by
default construction followed by `Resize`. -/
def empty (num_rows num_columns : Int) : CoordinateMatrix R :=
  Resize { num_rows := 0, num_columns := 0, entries := [],
           row_entry_offsets := [0], entries_to_add := [],
           entries_to_remove := [] } num_rows num_columns

/-- Embeds `CoordinateMatrix::QueueEntryAddition`. -/
def QueueEntryAddition (m : CoordinateMatrix R) (row column : Int) (value : R) :
    CoordinateMatrix R :=
  { m with entries_to_add := m.entries_to_add ++ [⟨row, column, value⟩] }

/-- Embeds `CoordinateMatrix::QueueEntryAdditions` (list form). -/
def QueueEntryAdditions (m : CoordinateMatrix R) (adds : List (MatrixEntry R)) :
    CoordinateMatrix R :=
  { m with entries_to_add := m.entries_to_add ++ adds }

/-- Embeds `CoordinateMatrix::QueueEntryRemoval`. -/
def QueueEntryRemoval (m : CoordinateMatrix R) (row column : Int) : CoordinateMatrix R :=
  { m with entries_to_remove := m.entries_to_remove ++ [⟨row, column⟩] }

/-- The filling loop of `CoordinateMatrix::UpdateRowEntryOffsets`: walks
the (index, entry) pairs keeping `prev_row`, writing the entry index into
the offsets being built once for each row between `prev_row + 1` and the
entry's row. -/
def rowOffsetsScan {R : Type} : List (Nat × MatrixEntry R) → Int → List Int
  | [], _ => []
  | (idx, e) :: rest, prev_row =>
      List.replicate (e.row - prev_row).toNat (idx : Int) ++
        rowOffsetsScan rest (max prev_row e.row)

/-- Embeds `CoordinateMatrix::UpdateRowEntryOffsets`: recomputes the
row-offset array from the entry list in a single pass, padding the tail of
the buffer with the entry count. -/
def UpdateRowEntryOffsets (m : CoordinateMatrix R) : CoordinateMatrix R :=
  let num_entries : Int := m.entries.length
  let filled := rowOffsetsScan m.entries.enum (-1)
  let target := (m.num_rows + 1).toNat
  { m with row_entry_offsets :=
      (filled ++ List.replicate (target - filled.length) num_entries).take target }

/-- Embeds `CoordinateMatrix::FlushEntryAdditionQueue`. -/
def FlushEntryAdditionQueue [Add R] (m : CoordinateMatrix R)
    (update_row_entry_offsets : Bool) : CoordinateMatrix R :=
  let m' :=
    if m.entries_to_add.isEmpty then m
    else
      let sorted_adds := m.entries_to_add.insertionSort entryLE
      let combined_adds := CombineSortedEntries sorted_adds
      let merged := mergeEntries m.entries combined_adds
      { m with entries := CombineSortedEntries merged, entries_to_add := [] }
  if update_row_entry_offsets then m'.UpdateRowEntryOffsets else m'

/-- Modelled from the spec: `quotient::EraseDuplicatesInSortedVector`
(external dependency) removes adjacent duplicates from a sorted vector. -/
def eraseAdjacentDuplicates : List GraphEdge → List GraphEdge
  | [] => []
  | [e] => [e]
  | e :: f :: rest =>
      if e = f then eraseAdjacentDuplicates (f :: rest)
      else e :: eraseAdjacentDuplicates (f :: rest)

/-- The keep test of `FlushEntryRemovalQueue`: an entry survives when the
`std::lower_bound` search of the sorted removal list does not find its
(row, column) pair. -/
def removalKeeps (removes : List GraphEdge) (edge : GraphEdge) : Bool :=
  match removes.drop (lowerBoundCount edgeLTb removes edge) with
  | [] => true
  | e :: _ => decide (e ≠ edge)

/-- Embeds `CoordinateMatrix::FlushEntryRemovalQueue`: sorts and
deduplicates the removal queue, then packs (keeps) exactly the entries
whose keys are not scheduled for removal. -/
def FlushEntryRemovalQueue (m : CoordinateMatrix R)
    (update_row_entry_offsets : Bool) : CoordinateMatrix R :=
  let m' :=
    if m.entries_to_remove.isEmpty then m
    else
      let removes := eraseAdjacentDuplicates (m.entries_to_remove.insertionSort edgeLE)
      { m with
          entries := m.entries.filter (fun e => removalKeeps removes ⟨e.row, e.column⟩)
          entries_to_remove := [] }
  if update_row_entry_offsets then m'.UpdateRowEntryOffsets else m'

/-- Embeds `CoordinateMatrix::FlushEntryQueues`: a no-op when both queues
are empty, and otherwise the removal flush (without offset update)
followed by the addition flush (with offset update). -/
def FlushEntryQueues [Add R] (m : CoordinateMatrix R) : CoordinateMatrix R :=
  if m.entries_to_add.isEmpty ∧ m.entries_to_remove.isEmpty then m
  else (m.FlushEntryRemovalQueue false).FlushEntryAdditionQueue true

/-- Embeds `CoordinateMatrix::RowEntryOffset`. -/
def RowEntryOffset (m : CoordinateMatrix R) (row : Int) : Int :=
  m.row_entry_offsets.getD row.toNat 0

/-- Embeds `CoordinateMatrix::EntryOffset`: a binary search for the
position at which the (row, column) key would be inserted, over the slice
of the entry list delimited by the row's offsets. -/
def EntryOffset [Zero R] (m : CoordinateMatrix R) (row column : Int) : Int :=
  let row_entry_offset := (m.RowEntryOffset row).toNat
  let next_row_entry_offset := (m.RowEntryOffset (row + 1)).toNat
  let slice := (m.entries.drop row_entry_offset).take
      (next_row_entry_offset - row_entry_offset)
  (row_entry_offset + lowerBoundCount entryLTb slice ⟨row, column, 0⟩ : Nat)

/-- Embeds `CoordinateMatrix::Entry`. -/
def Entry [Zero R] (m : CoordinateMatrix R) (entry_index : Int) : MatrixEntry R :=
  m.entries.getD entry_index.toNat ⟨0, 0, 0⟩

/-- Embeds `CoordinateMatrix::EntryExists`. -/
def EntryExists [Zero R] (m : CoordinateMatrix R) (row column : Int) : Bool :=
  let index := m.EntryOffset row column
  if (m.entries.length : Int) ≤ index then false
  else
    let entry := m.Entry index
    decide (entry.row = row ∧ entry.column = column)

/-- Embeds `CoordinateMatrix::Value`: the stored value of the entry at the
given position, or zero when the binary search lands past the final entry
of the list or between two entries. -/
def Value [Zero R] (m : CoordinateMatrix R) (row column : Int) : R :=
  let index := m.EntryOffset row column
  if (m.entries.length : Int) ≤ index then 0
  else
    let entry := m.Entry index
    if entry.row = row ∧ entry.column = column then entry.value else 0

end CoordinateMatrix

/-! ### Specification-side canonical descriptions of the flushed state -/

/-- The entry sequence is strictly increasing in the lexicographic
(row, column) order; in particular each key appears at most once. -/
def EntriesStrictlySorted {R : Type} (l : List (MatrixEntry R)) : Prop :=
  l.Pairwise (fun a b => keyLT (entryKey a) (entryKey b))

/-- The entry sequence is sorted with respect to the non-strict key
order (the possible outcomes of the `std::sort` call). -/
def EntriesSorted {R : Type} (l : List (MatrixEntry R)) : Prop :=
  l.Pairwise entryLE

/-- The list of keys carried by an entry list. -/
def entryKeys {R : Type} (l : List (MatrixEntry R)) : List (Int × Int) :=
  l.map entryKey

/-- Helper recursion for `canonRuns`: folds the pending entry `e` through
the remaining list, absorbing values of entries that share its key and
emitting it when the key changes. -/
def canonGo {R : Type} [Add R] (e : MatrixEntry R) :
    List (MatrixEntry R) → List (MatrixEntry R)
  | [] => [e]
  | f :: rest =>
      if entryKey f = entryKey e then
        canonGo { e with value := e.value + f.value } rest
      else e :: canonGo f rest

/-- Groups a key-sorted entry list into key runs, summing the values of
each run; `CombineSortedEntries` is proved below to agree with this
description whenever the sentinel key `(-1, -1)` does not occur. -/
def canonRuns {R : Type} [Add R] : List (MatrixEntry R) → List (MatrixEntry R)
  | [] => []
  | e :: rest => canonGo e rest

/-- The sum of the values of all entries of `l` carrying the key `k`. -/
def keySum {R : Type} [AddCommMonoid R] (l : List (MatrixEntry R)) (k : Int × Int) : R :=
  ((l.filter (fun e => decide (entryKey e = k))).map MatrixEntry.value).sum

/-- All entries of the list have nonnegative row and column indices and
fit inside an `r × c` shape. -/
def EntriesInShape {R : Type} (l : List (MatrixEntry R)) (r c : Int) : Prop :=
  ∀ e ∈ l, 0 ≤ e.row ∧ e.row < r ∧ 0 ≤ e.column ∧ e.column < c

/-- The row-offset array correctly delimits the row slices: it has length
`num_rows + 1` and its `r`-th element counts the entries in rows before
`r`. -/
def RowOffsetsConsistent {R : Type} (m : CoordinateMatrix R) : Prop :=
  m.row_entry_offsets.length = (m.num_rows + 1).toNat ∧
    ∀ r : Nat, r < m.row_entry_offsets.length →
      m.row_entry_offsets.getD r 0 =
        (m.entries.filter (fun e => decide (e.row < (r : Int)))).length

instance {R : Type} (l : List (MatrixEntry R)) : Decidable (EntriesStrictlySorted l) := by
  unfold EntriesStrictlySorted; infer_instance

instance {R : Type} (l : List (MatrixEntry R)) (r c : Int) :
    Decidable (EntriesInShape l r c) := by
  unfold EntriesInShape; infer_instance

instance {R : Type} (m : CoordinateMatrix R) : Decidable (RowOffsetsConsistent m) := by
  unfold RowOffsetsConsistent; infer_instance

instance {R : Type} : IsTotal (MatrixEntry R) entryLE :=
  ⟨fun a b => by
    unfold entryLE keyLE keyLT
    rcases entryKey a with ⟨x1, x2⟩; rcases entryKey b with ⟨y1, y2⟩
    simp only []
    omega⟩

instance {R : Type} : IsTrans (MatrixEntry R) entryLE :=
  ⟨fun a b c => by
    unfold entryLE keyLE keyLT
    rcases entryKey a with ⟨x1, x2⟩; rcases entryKey b with ⟨y1, y2⟩
    rcases entryKey c with ⟨z1, z2⟩
    simp only []
    omega⟩

instance : IsTotal GraphEdge edgeLE :=
  ⟨fun a b => by unfold edgeLE keyLE keyLT; simp only []; omega⟩

instance : IsTrans GraphEdge edgeLE :=
  ⟨fun a b c => by unfold edgeLE keyLE keyLT; simp only []; omega⟩

end Catamari

namespace Catamari

/-- The graph edge carrying a key. -/
def edgeOfKey (k : Int × Int) : GraphEdge := ⟨k.1, k.2⟩

end Catamari

namespace Catamari

/-- The removal predicate of a batch, as a function of the key. -/
def removalKeyPred (removes : List GraphEdge) (k : Int × Int) : Bool :=
  decide (edgeOfKey k ∉ removes)

end Catamari

namespace Catamari

open CoordinateMatrix

/-- Witness fixture: a flushed 2-by-2 integer matrix carrying a batch of
queued additions (with a duplicate key) and one queued removal. -/
def exampleMatrixC1 : CoordinateMatrix Int :=
  { num_rows := 2, num_columns := 2,
    entries := [⟨0, 0, 1⟩, ⟨1, 1, 2⟩],
    row_entry_offsets := [0, 1, 2],
    entries_to_add := [⟨0, 1, 5⟩, ⟨1, 1, 1⟩, ⟨0, 1, 2⟩],
    entries_to_remove := [⟨0, 0⟩] }

/-- Witness fixture: the same addition batch queued in a different order. -/
def exampleAddsC1 : List (MatrixEntry Int) := [⟨0, 1, 2⟩, ⟨0, 1, 5⟩, ⟨1, 1, 1⟩]

/-- Counterexample fixture: a single batch queueing both an addition with
key (0, 0) and a removal of key (0, 0) into an empty 1-by-1 matrix. -/
def exampleMatrixC2 : CoordinateMatrix Int :=
  (((empty 1 1).QueueEntryAddition 0 0 5).QueueEntryRemoval 0 0)

/-- Witness fixture: a well-formed flushed 2-by-2 integer matrix with
entries (0, 1) ↦ 7 and (1, 0) ↦ 3 and no pending queues. -/
def exampleMatrixC10 : CoordinateMatrix Int :=
  { num_rows := 2, num_columns := 2,
    entries := [⟨0, 1, 7⟩, ⟨1, 0, 3⟩],
    row_entry_offsets := [0, 1, 2],
    entries_to_add := [],
    entries_to_remove := [] }

end Catamari

namespace Catamari

/-- One supernode's dense diagonal block, of the given height, with
entry lookup `(i, j) ↦ entry i j` (mirrors `ConstBlasMatrixView`). -/
structure DiagonalBlock (F : Type) where
  height : Nat
  entry : Nat → Nat → F

/-- `SupernodalHermitianDPP::LogLikelihood`: fold over every supernode's
diagonal block, and inside it over every diagonal position `j`, adding
`logAbs` of the `(j, j)` entry (the shallow embedding keeps the scalar
`log (abs x)` abstract as a function `logAbs`). -/
def LogLikelihood {F R : Type} [AddCommMonoid R] (logAbs : F → R)
    (blocks : List (DiagonalBlock F)) : R :=
  blocks.foldl
    (fun acc b =>
      (List.range b.height).foldl (fun a j => a + logAbs (b.entry j j)) acc)
    0

end Catamari

namespace Catamari

section DenseKernels

variable {F : Type} [LinearOrderedField F]

/-- Point update of a column-major dense matrix view, modelled as a
function on (row, column) index pairs. -/
def updEntry (A : Nat → Nat → F) (r c : Nat) (v : F) : Nat → Nat → F :=
  fun p q => if p = r then (if q = c then v else A p q) else A p q

/-- The loop of `UnblockedLowerCholeskyFactorization`: at column `i`,
read the diagonal pivot `delta`, stop returning `i` when `delta ≤ 0`,
otherwise overwrite the diagonal with its square root, scale the strictly
lower part of column `i`, apply the rank-one update to the trailing lower
triangle, and continue.  The real-arithmetic instantiation is modelled
(`RealPart`/`Conjugate` are identities) and the square root is the
abstract parameter `sqrtF`; `fuel` counts the remaining columns. -/
def choleskyLoop (sqrtF : F → F) (height : Nat) :
    Nat → (Nat → Nat → F) → Nat → Nat × (Nat → Nat → F)
  | 0, A, i => (i, A)
  | fuel + 1, A, i =>
    let delta := A i i
    if delta ≤ 0 then (i, A)
    else
      let delta_sqrt := sqrtF delta
      let A1 := updEntry A i i delta_sqrt
      let A2 := (List.range' (i + 1) (height - (i + 1))).foldl
        (fun B k => updEntry B k i (B k i / delta_sqrt)) A1
      let A3 := (List.range' (i + 1) (height - (i + 1))).foldl
        (fun B j =>
          let eta := B j i
          (List.range' j (height - j)).foldl
            (fun C k => updEntry C k j (C k j - C k i * eta)) B) A2
      choleskyLoop sqrtF height fuel A3 (i + 1)

/-- `UnblockedLowerCholeskyFactorization`: run the column loop over all
`height` columns, returning the number of successful pivots and the
overwritten matrix. -/
def UnblockedLowerCholeskyFactorization (sqrtF : F → F) (height : Nat)
    (A : Nat → Nat → F) : Nat × (Nat → Nat → F) :=
  choleskyLoop sqrtF height height A 0

/-- The loop of `LowerUnblockedLDLAdjointFactorization`: at column `i`
the (real part of the) pivot is written back to the diagonal, the loop
stops returning `i` when the pivot is zero, otherwise column `i` is
divided by the pivot and the trailing lower triangle receives the
rank-one update with `eta = delta * L(j, i)`. -/
def ldlAdjointLoop (height : Nat) :
    Nat → (Nat → Nat → F) → Nat → Nat × (Nat → Nat → F)
  | 0, A, i => (i, A)
  | fuel + 1, A, i =>
    let delta := A i i
    let A0 := updEntry A i i delta
    if delta = 0 then (i, A0)
    else
      let A1 := (List.range' (i + 1) (height - (i + 1))).foldl
        (fun B k => updEntry B k i (B k i / delta)) A0
      let A2 := (List.range' (i + 1) (height - (i + 1))).foldl
        (fun B j =>
          let eta := delta * B j i
          (List.range' j (height - j)).foldl
            (fun C k => updEntry C k j (C k j - C k i * eta)) B) A1
      ldlAdjointLoop height fuel A2 (i + 1)

/-- `LowerUnblockedLDLAdjointFactorization` over all columns. -/
def LowerUnblockedLDLAdjointFactorization (height : Nat)
    (A : Nat → Nat → F) : Nat × (Nat → Nat → F) :=
  ldlAdjointLoop height height A 0

/-- A submatrix view anchored at `(ro, co)` of a dense matrix (shared
storage, as `BlasMatrixView::Submatrix`). -/
def subView (A : Nat → Nat → F) (ro co : Nat) : Nat → Nat → F :=
  fun r c => A (ro + r) (co + c)

/-- Writing an `h × w` block back into the enclosing view at `(ro, co)`
(the in-place effect of mutating a shared-storage submatrix view). -/
def writeBack (A : Nat → Nat → F) (ro co h w : Nat) (D : Nat → Nat → F) :
    Nat → Nat → F :=
  fun r c => if ro ≤ r ∧ r < ro + h ∧ co ≤ c ∧ c < co + w
    then D (r - ro) (c - co) else A r c

/-- Modelled from the spec: `RightLowerAdjointTriangularSolves` from
`dense_basic_linear_algebra.hpp` (absent from the sources) overwrites the
panel `X` (of height `pheight` and width `bsize`) with `X · L^{-H}` by
forward substitution against the lower-triangular `bsize × bsize` block
`L`, in the real-arithmetic instantiation. -/
def RightLowerAdjointTriangularSolves (L : Nat → Nat → F) (bsize pheight : Nat)
    (X : Nat → Nat → F) : Nat → Nat → F :=
  (List.range bsize).foldl
    (fun B c =>
      (List.range pheight).foldl
        (fun C r =>
          updEntry C r c
            ((C r c - ((List.range c).map (fun k => C r k * L c k)).sum) / L c c))
        B)
    X

/-- Modelled from the spec: `LowerNormalHermitianOuterProduct` from
`dense_basic_linear_algebra.hpp` (absent from the sources) updates only
the lower triangle of the `theight × theight` matrix `C` with
`beta * C + alpha * X * X^H`, in the real-arithmetic instantiation. -/
def LowerNormalHermitianOuterProduct (alpha : F) (X : Nat → Nat → F)
    (bsize theight : Nat) (beta : F) (C : Nat → Nat → F) : Nat → Nat → F :=
  (List.range theight).foldl
    (fun B c =>
      (List.range' c (theight - c)).foldl
        (fun D r =>
          updEntry D r c
            (beta * D r c +
              alpha * ((List.range bsize).map (fun k => X r k * X c k)).sum))
        B)
    C

/-- The current block size at block column `i`:
`bsize = min(height - i, block_size)`. -/
def cholBsize (block_size height i : Nat) : Nat := min (height - i) block_size

/-- The in-place unblocked factorization of the current diagonal block
(viewed at `(i, i)` with shared storage). -/
def cholSub (sqrtF : F → F) (block_size height i : Nat)
    (A : Nat → Nat → F) : Nat × (Nat → Nat → F) :=
  UnblockedLowerCholeskyFactorization sqrtF (cholBsize block_size height i)
    (subView A i i)

/-- The enclosing matrix after the diagonal block of block column `i` has
been overwritten by its (partial) Cholesky factor. -/
def cholA1 (sqrtF : F → F) (block_size height i : Nat)
    (A : Nat → Nat → F) : Nat → Nat → F :=
  writeBack A i i (cholBsize block_size height i)
    (cholBsize block_size height i) (cholSub sqrtF block_size height i A).2

/-- The panel solve and trailing Hermitian rank-`bsize` update of one
block step: solve the subdiagonal panel against the diagonal block's
lower triangle and subtract its outer product from the lower triangle of
the trailing submatrix (all through shared-storage views). -/
def blockedCholeskyTrailing (bsize height i : Nat)
    (A1 : Nat → Nat → F) : Nat → Nat → F :=
  let psize := height - (i + bsize)
  let Xsolved := RightLowerAdjointTriangularSolves (subView A1 i i) bsize
    psize (subView A1 (i + bsize) i)
  let A2 := writeBack A1 (i + bsize) i psize bsize Xsolved
  let Cupd := LowerNormalHermitianOuterProduct (-1)
    (subView A2 (i + bsize) i) bsize psize 1
    (subView A2 (i + bsize) (i + bsize))
  writeBack A2 (i + bsize) (i + bsize) psize psize Cupd

/-- The loop of `BlockedLowerCholeskyFactorization`: factor the diagonal
block in place with the unblocked kernel, return `i + num_diag_pivots` on
a partial diagonal factorization, stop after the final block, otherwise
solve the subdiagonal panel against the diagonal block and apply the
rank-`bsize` Hermitian update to the trailing submatrix, then advance by
`bsize` columns.  `fuel` bounds the number of iterations. -/
def blockedCholeskyLoop (sqrtF : F → F) (block_size height : Nat) :
    Nat → (Nat → Nat → F) → Nat → Nat × (Nat → Nat → F)
  | 0, A, _ => (height, A)
  | fuel + 1, A, i =>
    if i < height then
      if (cholSub sqrtF block_size height i A).1 < cholBsize block_size height i
      then (i + (cholSub sqrtF block_size height i A).1,
        cholA1 sqrtF block_size height i A)
      else if height = i + cholBsize block_size height i
      then (height, cholA1 sqrtF block_size height i A)
      else blockedCholeskyLoop sqrtF block_size height fuel
        (blockedCholeskyTrailing (cholBsize block_size height i) height i
          (cholA1 sqrtF block_size height i A))
        (i + cholBsize block_size height i)
    else (height, A)

/-- `BlockedLowerCholeskyFactorization` over all columns. -/
def BlockedLowerCholeskyFactorization (sqrtF : F → F)
    (block_size height : Nat) (A : Nat → Nat → F) :
    Nat × (Nat → Nat → F) :=
  blockedCholeskyLoop sqrtF block_size height height A 0

end DenseKernels

end Catamari

namespace Catamari

section DynReg

variable {F : Type} [LinearOrderedField F]

/-- Modelled from the spec: the dynamic-regularization parameter block
(its declaring header is absent from the sources; the fields are those
read by the kernels and by the driver setup in
`right_looking-impl.hpp`). -/
structure DynamicRegularizationParams (F : Type) where
  enabled : Bool
  offset : Nat
  positive_threshold : F
  negative_threshold : F
  signatures : List Bool
  inverse_permutation : Option (List Nat)

/-- The original row index logged for a regularized pivot at column `i`:
`inverse_permutation[i + offset]` when a permutation is supplied,
`i + offset` otherwise. -/
def origIndexOf (params : DynamicRegularizationParams F) (i : Nat) : Nat :=
  match params.inverse_permutation with
  | none => i + params.offset
  | some ip => ip.getD (i + params.offset) 0

/-- The loop of
`UnblockedDynamicallyRegularizedLowerCholeskyFactorization`: at column
`i` read the pivot `delta`; stop returning `i` when
`delta ≤ -positive_threshold`; when `delta < positive_threshold` shift
the pivot up to `positive_threshold` and append
`(orig_index, positive_threshold - delta)` to the regularization log;
then proceed exactly as the unregularized Cholesky column step. -/
def dynRegCholeskyLoop (sqrtF : F → F)
    (params : DynamicRegularizationParams F) (height : Nat) :
    Nat → (Nat → Nat → F) → Nat → List (Nat × F) →
      Nat × (Nat → Nat → F) × List (Nat × F)
  | 0, A, i, reg => (i, A, reg)
  | fuel + 1, A, i, reg =>
    if A i i ≤ -params.positive_threshold then (i, A, reg)
    else
      let delta := if A i i < params.positive_threshold
        then params.positive_threshold else A i i
      let reg' := if A i i < params.positive_threshold
        then reg ++ [(origIndexOf params i,
          params.positive_threshold - A i i)]
        else reg
      let delta_sqrt := sqrtF delta
      let A1 := updEntry A i i delta_sqrt
      let A2 := (List.range' (i + 1) (height - (i + 1))).foldl
        (fun B k => updEntry B k i (B k i / delta_sqrt)) A1
      let A3 := (List.range' (i + 1) (height - (i + 1))).foldl
        (fun B j =>
          let eta := B j i
          (List.range' j (height - j)).foldl
            (fun C k => updEntry C k j (C k j - C k i * eta)) B) A2
      dynRegCholeskyLoop sqrtF params height fuel A3 (i + 1) reg'

/-- `UnblockedDynamicallyRegularizedLowerCholeskyFactorization` over all
columns, starting from an empty regularization log.  Returns the number
of successful pivots, the overwritten matrix, and the log. -/
def UnblockedDynamicallyRegularizedLowerCholeskyFactorization
    (sqrtF : F → F) (params : DynamicRegularizationParams F)
    (height : Nat) (A : Nat → Nat → F) :
    Nat × (Nat → Nat → F) × List (Nat × F) :=
  dynRegCholeskyLoop sqrtF params height height A 0 []

end DynReg

end Catamari

namespace Catamari

/-- Counterexample fixture for C4: regularization enabled with both
thresholds 1, no permutation, a single positive signature. -/
def exampleParamsC4 : DynamicRegularizationParams ℚ :=
  { enabled := true, offset := 0, positive_threshold := 1,
    negative_threshold := 1, signatures := [true],
    inverse_permutation := none }

end Catamari

namespace Catamari

/-- Buffer lookup with C++ `Int` index: out-of-range reads default to 0
(the embedded programs only read in-range positions). -/
def bget (l : List Int) (i : Int) : Int := l.getD i.toNat 0

/-- Buffer store with C++ `Int` index (no-op when out of range). -/
def bset (l : List Int) (i v : Int) : List Int := l.set i.toNat v

/-- `scalar_ldl::LowerStructure`: column offsets and concatenated column
row indices of a lower-triangular nonzero structure. -/
structure LowerStructure where
  column_offsets : List Int
  indices : List Int

/-- `SupernodalRelaxationControl` (the float zero ratio is embedded as a
rational). -/
structure SupernodalRelaxationControl where
  relax_supernodes : Bool
  allowable_supernode_zeros : Int
  allowable_supernode_zero_ratio : ℚ

/-- `MergableStatus`. -/
structure MergableStatus where
  mergable : Bool
  num_merged_zeros : Int

/-- The row-index slice of column `tail` in a lower structure. -/
def childSlice (S : LowerStructure) (tail : Int) : List Int :=
  (S.indices.drop (bget S.column_offsets tail).toNat).take
    ((bget S.column_offsets (tail + 1)) - bget S.column_offsets tail).toNat

/-- The external degree of column `tail`. -/
def degreeOf (S : LowerStructure) (tail : Int) : Int :=
  bget S.column_offsets (tail + 1) - bget S.column_offsets tail

/-- The number of leading entries of the child column's structure that
lie in the parent supernode (the pointer walk of `MergableSupernode`,
which stops at the first index beyond the parent). -/
def intersectionCount (m2i : List Int) (S : LowerStructure)
    (child_tail parent : Int) : Int :=
  ((childSlice S child_tail).takeWhile
    (fun row => bget m2i row == parent)).length

/-- `num_expanded_entries` of `MergableSupernode`: the entry count of the
merged supernode `L00/L10/L20/L11/L21`. -/
def numExpandedEntries (child_size parent_size remaining_child_degree
    parent_degree : Int) : Int :=
  (child_size + (child_size + 1)) / 2 + parent_size * child_size +
    remaining_child_degree * child_size +
    (parent_size + (parent_size + 1)) / 2 + parent_degree * parent_size

/-- `supernodal_ldl::MergableSupernode`: count the child/parent
structure intersections, derive the explicit zeros the merge introduces,
and accept when the total (new plus pre-existing) explicit-zero count
meets the absolute criterion or the relative (ratio) criterion. -/
def MergableSupernode (child_tail parent_tail child_size parent_size
    num_child_explicit_zeros num_parent_explicit_zeros : Int)
    (orig_member_to_index : List Int) (scalar_structure : LowerStructure)
    (control : SupernodalRelaxationControl) : MergableStatus :=
  let parent := bget orig_member_to_index parent_tail
  let child_degree := degreeOf scalar_structure child_tail
  let parent_degree := degreeOf scalar_structure parent_tail
  let num_child_parent_intersections :=
    intersectionCount orig_member_to_index scalar_structure child_tail parent
  let num_missing_parent_intersections :=
    parent_size - num_child_parent_intersections
  let remaining_child_degree :=
    child_degree - num_child_parent_intersections
  let num_missing_structure_indices :=
    parent_degree - remaining_child_degree
  let num_new_zeros :=
    (num_missing_parent_intersections + num_missing_structure_indices) *
      child_size
  let num_old_zeros :=
    num_child_explicit_zeros + num_parent_explicit_zeros
  let num_zeros := num_new_zeros + num_old_zeros
  if num_zeros ≤ control.allowable_supernode_zeros then
    { mergable := true, num_merged_zeros := num_zeros }
  else if (num_zeros : ℚ) ≤ control.allowable_supernode_zero_ratio *
      ((numExpandedEntries child_size parent_size remaining_child_degree
        parent_degree : Int) : ℚ) then
    { mergable := true, num_merged_zeros := num_zeros }
  else
    { mergable := false, num_merged_zeros := num_zeros }

/-- The mutable state threaded through `MergeChildren`. -/
structure MergeState where
  supernode_sizes : List Int
  num_explicit_zeros : List Int
  last_merged_child : List Int
  merge_parents : List Int

/-- One round's list of mergable children of `parent` (pairs of child
index and merged-zero count), in child order, skipping already-merged
children (`merge_parents[child] ≠ -1`). -/
def mergableChildrenList (parent : Int)
    (orig_supernode_starts orig_supernode_sizes orig_member_to_index
      children : List Int) (child_beg num_children : Int)
    (scalar_structure : LowerStructure)
    (control : SupernodalRelaxationControl) (st : MergeState) :
    List (Nat × Int) :=
  (List.range num_children.toNat).filterMap (fun (child_index : Nat) =>
    let child := bget children (child_beg + (child_index : Int))
    if bget st.merge_parents child = -1 then
      let child_tail := bget orig_supernode_starts child +
        bget orig_supernode_sizes child - 1
      let parent_tail := bget orig_supernode_starts parent +
        bget orig_supernode_sizes parent - 1
      let status := MergableSupernode child_tail parent_tail
        (bget st.supernode_sizes child) (bget st.supernode_sizes parent)
        (bget st.num_explicit_zeros child)
        (bget st.num_explicit_zeros parent)
        orig_member_to_index scalar_structure control
      if status.mergable then some (child_index, status.num_merged_zeros)
      else none
    else none)

/-- The size key used to select the merged child. -/
def mergeKey (children : List Int) (child_beg : Int) (sizes : List Int)
    (m : Nat × Int) : Int :=
  bget sizes (bget children (child_beg + (m.1 : Int)))

/-- Select the largest mergable child (first wins ties), as the
`merging_index` scan of `MergeChildren`. -/
def selectLargest (children : List Int) (child_beg : Int)
    (sizes : List Int) (m0 : Nat × Int) (rest : List (Nat × Int)) :
    Nat × Int :=
  rest.foldl (fun best m =>
    if mergeKey children child_beg sizes best < mergeKey children child_beg
      sizes m then m else best) m0

/-- Absorb the selected child into the parent: add its size to the
parent's and zero it, store the merged explicit-zero count, and link the
merge-forest pointers exactly as `MergeChildren` does. -/
def applyMerge (parent : Int) (children : List Int) (child_beg : Int)
    (st : MergeState) (sel : Nat × Int) : MergeState :=
  let child := bget children (child_beg + (sel.1 : Int))
  { supernode_sizes :=
      bset (bset st.supernode_sizes parent
        (bget st.supernode_sizes parent + bget st.supernode_sizes child))
        child 0,
    num_explicit_zeros := bset st.num_explicit_zeros parent sel.2,
    merge_parents := bset st.merge_parents child
      (if bget st.last_merged_child parent = -1 then parent
        else bget st.last_merged_child parent),
    last_merged_child := bset st.last_merged_child parent
      (if bget st.last_merged_child child = -1 then child
        else bget st.last_merged_child child) }

/-- The `while (true)` loop of `MergeChildren`: recompute the mergable
children, stop when none remains, otherwise merge the largest one and
repeat.  `fuel` bounds the rounds (the loop runs at most `num_children`
times). -/
def mergeChildrenLoop (parent : Int)
    (orig_supernode_starts orig_supernode_sizes orig_member_to_index
      children : List Int) (child_beg num_children : Int)
    (scalar_structure : LowerStructure)
    (control : SupernodalRelaxationControl) :
    Nat → MergeState → MergeState
  | 0, st => st
  | fuel + 1, st =>
    match hms : mergableChildrenList parent orig_supernode_starts
      orig_supernode_sizes orig_member_to_index children child_beg
      num_children scalar_structure control st with
    | [] => st
    | m0 :: rest =>
      mergeChildrenLoop parent orig_supernode_starts orig_supernode_sizes
        orig_member_to_index children child_beg num_children
        scalar_structure control fuel
        (applyMerge parent children child_beg st
          (selectLargest children child_beg st.supernode_sizes m0 rest))

/-- `supernodal_ldl::MergeChildren` for one parent: run the merge loop
with its natural fuel, the number of children. -/
def MergeChildren (parent : Int)
    (orig_supernode_starts orig_supernode_sizes orig_member_to_index
      children child_offsets : List Int)
    (scalar_structure : LowerStructure)
    (control : SupernodalRelaxationControl) (st : MergeState) :
    MergeState :=
  mergeChildrenLoop parent orig_supernode_starts orig_supernode_sizes
    orig_member_to_index children (bget child_offsets parent)
    (bget child_offsets (parent + 1) - bget child_offsets parent)
    scalar_structure control
    (bget child_offsets (parent + 1) - bget child_offsets parent).toNat st

/-- The number of not-yet-merged children of the parent (the quantity
that strictly decreases at every merge round). -/
def countUnmerged (children : List Int) (child_beg num_children : Int)
    (st : MergeState) : Nat :=
  ((List.range num_children.toNat).filter (fun (child_index : Nat) =>
    decide (bget st.merge_parents
      (bget children (child_beg + (child_index : Int))) = -1))).length

end Catamari

namespace Catamari

/-- Witness fixture for C6: the lower structure of a 2-column problem
whose only child column's structure reaches into the parent. -/
def exampleC6Structure : LowerStructure :=
  { column_offsets := [0, 1, 1], indices := [1] }

/-- Witness fixture for C6: relaxation enabled, absolute allowance 128,
ratio allowance 0. -/
def exampleC6Control : SupernodalRelaxationControl :=
  { relax_supernodes := true, allowable_supernode_zeros := 128,
    allowable_supernode_zero_ratio := 0 }

/-- Witness fixture for C6: two singleton supernodes, no explicit zeros,
nothing merged yet. -/
def exampleC6State : MergeState :=
  { supernode_sizes := [1, 1], num_explicit_zeros := [0, 0],
    last_merged_child := [-1, -1], merge_parents := [-1, -1] }

end Catamari

namespace Catamari

section SolveDefs

variable {F : Type} [Field F]

/-- Overwrite one row of a dense right-hand-side matrix. -/
def updRow (A : Nat → Nat → F) (r : Nat) (row : Nat → F) : Nat → Nat → F :=
  fun p q => if p = r then row q else A p q

/-- `Permute`: scatter rows, `new[permutation[i]] = old[i]` (the column
copy of the source makes all reads come from the old matrix). -/
def Permute (perm : List Int) (height : Nat) (B : Nat → Nat → F) :
    Nat → Nat → F :=
  (List.range height).foldl
    (fun C (i : Nat) => updRow C (bget perm (i : Int)).toNat (fun j => B i j))
    B

/-- Modelled from the spec: `InversePermute` (declared in a header absent
from the sources) gathers rows, `new[i] = old[permutation[i]]`, the
inverse of `Permute`. -/
def InversePermute (perm : List Int) (height : Nat) (B : Nat → Nat → F) :
    Nat → Nat → F :=
  (List.range height).foldl
    (fun C (i : Nat) => updRow C i (fun j => B (bget perm (i : Int)).toNat j))
    B

/-- Modelled from the spec: `LeftLowerTriangularSolves` from
`dense_basic_linear_algebra.hpp` (absent from the sources) overwrites `X`
with `L⁻¹ X` by forward substitution against the non-unit lower triangle,
in the real-arithmetic instantiation. -/
def LeftLowerTriangularSolves (L : Nat → Nat → F) (n num_rhs : Nat)
    (X : Nat → Nat → F) : Nat → Nat → F :=
  (List.range num_rhs).foldl (fun B j =>
    (List.range n).foldl (fun C i =>
      updEntry C i j
        ((C i j - ((List.range i).map (fun k => L i k * C k j)).sum) /
          L i i)) B) X

/-- Modelled from the spec: `LeftLowerUnitTriangularSolves`, as the
non-unit version but with an implicit unit diagonal (no division). -/
def LeftLowerUnitTriangularSolves (L : Nat → Nat → F) (n num_rhs : Nat)
    (X : Nat → Nat → F) : Nat → Nat → F :=
  (List.range num_rhs).foldl (fun B j =>
    (List.range n).foldl (fun C i =>
      updEntry C i j
        (C i j - ((List.range i).map (fun k => L i k * C k j)).sum)) B) X

/-- Modelled from the spec: `LeftLowerAdjointTriangularSolves` overwrites
`X` with `L⁻ᴴ X` by backward substitution (real instantiation, so the
adjoint is the transpose). -/
def LeftLowerAdjointTriangularSolves (L : Nat → Nat → F) (n num_rhs : Nat)
    (X : Nat → Nat → F) : Nat → Nat → F :=
  (List.range num_rhs).foldl (fun B j =>
    (List.range n).reverse.foldl (fun C i =>
      updEntry C i j
        ((C i j -
          ((List.range' (i + 1) (n - (i + 1))).map
            (fun k => L k i * C k j)).sum) / L i i)) B) X

/-- Modelled from the spec: `LeftLowerAdjointUnitTriangularSolves`. -/
def LeftLowerAdjointUnitTriangularSolves (L : Nat → Nat → F)
    (n num_rhs : Nat) (X : Nat → Nat → F) : Nat → Nat → F :=
  (List.range num_rhs).foldl (fun B j =>
    (List.range n).reverse.foldl (fun C i =>
      updEntry C i j
        (C i j -
          ((List.range' (i + 1) (n - (i + 1))).map
            (fun k => L k i * C k j)).sum)) B) X

/-- Modelled from the spec: `LeftLowerTransposeUnitTriangularSolves`
(identical to the adjoint-unit solve in the real instantiation). -/
def LeftLowerTransposeUnitTriangularSolves (L : Nat → Nat → F)
    (n num_rhs : Nat) (X : Nat → Nat → F) : Nat → Nat → F :=
  (List.range num_rhs).foldl (fun B j =>
    (List.range n).reverse.foldl (fun C i =>
      updEntry C i j
        (C i j -
          ((List.range' (i + 1) (n - (i + 1))).map
            (fun k => L k i * C k j)).sum)) B) X

/-- `SymmetricFactorizationType`. -/
inductive SymmetricFactorizationType where
  | kCholeskyFactorization
  | kLDLAdjointFactorization
  | kLDLTransposeFactorization
deriving DecidableEq

/-- The solve-relevant control fields of `Factorization`. -/
structure SolveControl where
  factorization_type : SymmetricFactorizationType
  supernodal_pivoting : Bool

/-- The solve-relevant state of `supernodal_ldl::Factorization`: the
ordering (supernode sizes/offsets, assembly-forest children and roots,
global permutation), the diagonal and subdiagonal factor blocks with
their structures, the per-supernode pivoting permutations, and the
problem sizes. -/
structure Factorization (F : Type) where
  supernode_sizes : List Int
  supernode_offsets : List Int
  diagonal_blocks : List (Nat → Nat → F)
  lower_blocks : List (Nat → Nat → F)
  structures : List (List Int)
  children : List Int
  child_offsets : List Int
  roots : List Int
  permutation : List Int
  inverse_permutation : List Int
  supernode_permutations : List (List Int)
  control : SolveControl
  num_rows : Nat
  num_rhs : Nat

namespace Factorization

/-- The children of a supernode in the assembly forest. -/
def childrenOf (fact : Factorization F) (s : Int) : List Int :=
  (fact.children.drop (bget fact.child_offsets s).toNat).take
    (bget fact.child_offsets (s + 1) - bget fact.child_offsets s).toNat

/-- The diagonal block of a supernode. -/
def diagBlock (fact : Factorization F) (s : Int) : Nat → Nat → F :=
  fact.diagonal_blocks.getD s.toNat (fun _ _ => 0)

/-- The subdiagonal block of a supernode. -/
def lowerBlock (fact : Factorization F) (s : Int) : Nat → Nat → F :=
  fact.lower_blocks.getD s.toNat (fun _ _ => 0)

/-- The subdiagonal structure (global row indices) of a supernode. -/
def structureOf (fact : Factorization F) (s : Int) : List Int :=
  fact.structures.getD s.toNat []

/-- The per-supernode pivoting permutation. -/
def snPerm (fact : Factorization F) (s : Int) : List Int :=
  fact.supernode_permutations.getD s.toNat []

/-- `LowerSupernodalTrapezoidalSolve`: optionally inverse-permute the
supernodal rows (pivoting), solve against the diagonal block's lower
triangle (non-unit for Cholesky, unit for the LDL variants), and
subtract the subdiagonal panel's product from the rows listed in the
supernode's structure (the in-place update loop; the out-of-place GEMM
path of the source computes the same update through a workspace). -/
def LowerSupernodalTrapezoidalSolve (fact : Factorization F) (s : Int)
    (B : Nat → Nat → F) : Nat → Nat → F :=
  let size := (bget fact.supernode_sizes s).toNat
  let start := (bget fact.supernode_offsets s).toNat
  let sub := subView B start 0
  let sub1 := if fact.control.supernodal_pivoting
    then InversePermute (fact.snPerm s) size sub
    else sub
  let sub2 := if fact.control.factorization_type =
      SymmetricFactorizationType.kCholeskyFactorization
    then LeftLowerTriangularSolves (fact.diagBlock s) size fact.num_rhs sub1
    else LeftLowerUnitTriangularSolves (fact.diagBlock s) size fact.num_rhs
      sub1
  let B1 := writeBack B start 0 size fact.num_rhs sub2
  let indices := fact.structureOf s
  (List.range fact.num_rhs).foldl (fun C j =>
    (List.range size).foldl (fun D k =>
      let eta := D (start + k) j
      (List.range indices.length).foldl (fun E i =>
        updEntry E (indices.getD i 0).toNat j
          (E (indices.getD i 0).toNat j - fact.lowerBlock s i k * eta))
        D) C) B1

/-- `LowerTriangularSolveRecursion`: recurse on the children first, then
perform this supernode's trapezoidal solve.  `fuel` bounds the recursion
depth (the forest height). -/
def LowerTriangularSolveRecursion (fact : Factorization F) :
    Nat → Int → (Nat → Nat → F) → Nat → Nat → F
  | 0, _, B => B
  | fuel + 1, s, B =>
    fact.LowerSupernodalTrapezoidalSolve s
      ((fact.childrenOf s).foldl
        (fun C c => LowerTriangularSolveRecursion fact fuel c C) B)

/-- `LowerTriangularSolve`: recurse from each root. -/
def LowerTriangularSolve (fact : Factorization F) (B : Nat → Nat → F) :
    Nat → Nat → F :=
  fact.roots.foldl
    (fun C r =>
      fact.LowerTriangularSolveRecursion fact.supernode_sizes.length r C) B

/-- `DiagonalSolve`: the identity for Cholesky; otherwise divide each
supernodal row block element-wise by the diagonal of `D`. -/
def DiagonalSolve (fact : Factorization F) (B : Nat → Nat → F) :
    Nat → Nat → F :=
  if fact.control.factorization_type =
      SymmetricFactorizationType.kCholeskyFactorization then B
  else
    (List.range fact.supernode_sizes.length).foldl (fun C (s : Nat) =>
      let size := (bget fact.supernode_sizes (s : Int)).toNat
      let start := (bget fact.supernode_offsets (s : Int)).toNat
      (List.range fact.num_rhs).foldl (fun D j =>
        (List.range size).foldl (fun E i =>
          updEntry E (start + i) j
            (E (start + i) j / fact.diagBlock (s : Int) i i)) D) C) B

/-- `LowerTransposeSupernodalTrapezoidalSolve`: subtract the transposed
(adjoint, in the real instantiation) panel contributions gathered from
the structure rows, solve against the adjoint (or transposed) diagonal
block (non-unit only for Cholesky), and re-apply the supernode pivoting
permutation when enabled. -/
def LowerTransposeSupernodalTrapezoidalSolve (fact : Factorization F)
    (s : Int) (B : Nat → Nat → F) : Nat → Nat → F :=
  let size := (bget fact.supernode_sizes s).toNat
  let start := (bget fact.supernode_offsets s).toNat
  let indices := fact.structureOf s
  let B1 := (List.range size).foldl (fun C k =>
    (List.range indices.length).foldl (fun D i =>
      (List.range fact.num_rhs).foldl (fun E j =>
        updEntry E (start + k) j
          (E (start + k) j -
            fact.lowerBlock s i k * E (indices.getD i 0).toNat j)) D) C) B
  let sub := subView B1 start 0
  let sub2 := match fact.control.factorization_type with
    | SymmetricFactorizationType.kCholeskyFactorization =>
      LeftLowerAdjointTriangularSolves (fact.diagBlock s) size fact.num_rhs
        sub
    | SymmetricFactorizationType.kLDLAdjointFactorization =>
      LeftLowerAdjointUnitTriangularSolves (fact.diagBlock s) size
        fact.num_rhs sub
    | SymmetricFactorizationType.kLDLTransposeFactorization =>
      LeftLowerTransposeUnitTriangularSolves (fact.diagBlock s) size
        fact.num_rhs sub
  let sub3 := if fact.control.supernodal_pivoting
    then Permute (fact.snPerm s) size sub2
    else sub2
  writeBack B1 start 0 size fact.num_rhs sub3

/-- `LowerTransposeTriangularSolveRecursion`: perform this supernode's
transposed trapezoidal solve first, then recurse on the children. -/
def LowerTransposeTriangularSolveRecursion (fact : Factorization F) :
    Nat → Int → (Nat → Nat → F) → Nat → Nat → F
  | 0, _, B => B
  | fuel + 1, s, B =>
    (fact.childrenOf s).foldl
      (fun C c => LowerTransposeTriangularSolveRecursion fact fuel c C)
      (fact.LowerTransposeSupernodalTrapezoidalSolve s B)

/-- `LowerTransposeTriangularSolve`: recurse from each root. -/
def LowerTransposeTriangularSolve (fact : Factorization F)
    (B : Nat → Nat → F) : Nat → Nat → F :=
  fact.roots.foldl
    (fun C r =>
      fact.LowerTransposeTriangularSolveRecursion
        fact.supernode_sizes.length r C) B

/-- `Factorization::Solve`: apply `perm` to the rows (through a scratch
buffer on the fast path, which this functional embedding renders as an
out-of-place `Permute`), run the forward sweep, the diagonal solve and
the backward sweep, and finally apply `iperm` to the rows. -/
def Solve (fact : Factorization F) (B : Nat → Nat → F) :
    Nat → Nat → F :=
  let have_permutation := fact.permutation ≠ []
  let B1 := if have_permutation
    then Permute fact.permutation fact.num_rows B else B
  let B2 := fact.LowerTriangularSolve B1
  let B3 := fact.DiagonalSolve B2
  let B4 := fact.LowerTransposeTriangularSolve B3
  if have_permutation
    then Permute fact.inverse_permutation fact.num_rows B4 else B4

/-- The supernode visit order of the forward sweep: all descendants of a
supernode (children's subtrees, left to right), then the supernode
itself. -/
def forwardOrder (fact : Factorization F) : Nat → Int → List Int
  | 0, _ => []
  | fuel + 1, s =>
    (fact.childrenOf s).bind (forwardOrder fact fuel) ++ [s]

/-- The supernode visit order of the backward sweep: the supernode
itself, then its children's subtrees. -/
def backwardOrder (fact : Factorization F) : Nat → Int → List Int
  | 0, _ => []
  | fuel + 1, s =>
    s :: (fact.childrenOf s).bind (backwardOrder fact fuel)

end Factorization

end SolveDefs

end Catamari

namespace Catamari

/-- Nat-indexed buffer lookup (the C5 arrays are indexed by row/column
numbers, which are naturals in the embedding). -/
def nget (l : List Int) (i : Nat) : Int := l.getD i 0

/-- Nat-indexed buffer store. -/
def nset (l : List Int) (i : Nat) (v : Int) : List Int := l.set i v

/-- The mutable state of `scalar_ldl::EliminationForestAndDegrees`:
parent pointers (initially `-1`), per-column subdiagonal counts
(initially `0`), and the pattern flags (value-initialized to `0`). -/
structure EFState where
  parents : List Int
  degrees : List Int
  pattern_flags : List Int

/-- The `while (pattern_flags[column] != row)` walk of
`EliminationForestAndDegrees`: mark the column as in the current row's
pattern, increment its degree, set its parent to the current row if it
was unset, and move up to the parent.  `fuel` bounds the walk length
(the column indices strictly increase up to `row`). -/
def walkUp (row : Nat) : Nat → EFState → Nat → EFState
  | 0, st, _ => st
  | fuel + 1, st, column =>
    if nget st.pattern_flags column ≠ (row : Int) then
      let st1 : EFState :=
        { st with
          pattern_flags := nset st.pattern_flags column (row : Int),
          degrees := nset st.degrees column (nget st.degrees column + 1) }
      let st2 : EFState := if nget st1.parents column = -1
        then { st1 with parents := nset st1.parents column (row : Int) }
        else st1
      walkUp row fuel st2 (nget st2.parents column).toNat
    else st

/-- One row of `EliminationForestAndDegrees`: set the row's own pattern
flag and walk up from every strictly-lower column of the (permuted) row.
`adj row` lists the strictly-lower columns of the permuted row in
storage order (the row-slice iteration of the source, with `column ≥
row` entries skipped via the sorted `break` / permuted `continue`). -/
def processRow (adj : Nat → List Nat) (row : Nat) (st : EFState) :
    EFState :=
  let st0 : EFState :=
    { st with pattern_flags := nset st.pattern_flags row (row : Int) }
  (adj row).foldl (fun s c => walkUp row (row + 1) s c) st0

/-- `scalar_ldl::EliminationForestAndDegrees` over all rows. -/
def EliminationForestAndDegrees (n : Nat) (adj : Nat → List Nat) :
    EFState :=
  (List.range n).foldl (fun st row => processRow adj row st)
    { parents := List.replicate n (-1), degrees := List.replicate n 0,
      pattern_flags := List.replicate n 0 }

/-- Fuel-indexed fill relation (the spec's recursive definition of the
structure of `L` after fill): `L(i, j)` is structurally nonzero when
`A(i, j)` is, or when some column `k < j` has structural nonzeros in
both rows `i` and `j`.  (The clause `k < i` is redundant on the
meaningful domain `j < i` and makes the recursion well-founded.) -/
def LnzAux (adj : Nat → List Nat) : Nat → Nat → Nat → Prop
  | 0, i, j => j ∈ adj i
  | fuel + 1, i, j => j ∈ adj i ∨
      ∃ k, k < j ∧ k < i ∧ LnzAux adj fuel i k ∧ LnzAux adj fuel j k

/-- The fill relation: `LnzAux` at its stable fuel. -/
def Lnz (adj : Nat → List Nat) (i j : Nat) : Prop :=
  LnzAux adj (i + j) i j

/-- `i` is the smallest fill row below the diagonal of column `j`. -/
def IsMinFill (adj : Nat → List Nat) (j i : Nat) : Prop :=
  j < i ∧ Lnz adj i j ∧ ∀ i', j < i' → i' < i → ¬ Lnz adj i' j

/-- The chain of minimal fill parents starting at a column. -/
inductive MinChain (adj : Nat → List Nat) (c : Nat) : Nat → Prop
  | refl : MinChain adj c c
  | step (x y : Nat) : MinChain adj c x → IsMinFill adj x y →
      MinChain adj c y

/-- The path from a column to its root in a parent-pointer forest
(truncated by `fuel`). -/
def pathList (parents : List Int) : Nat → Nat → List Nat
  | 0, j => [j]
  | fuel + 1, j => j ::
      (if nget parents j = -1 then []
        else pathList parents fuel (nget parents j).toNat)

end Catamari

namespace Catamari

section EFInvariantDefs

open Classical

/-- The outer loop invariant of `EliminationForestAndDegrees` before
processing row `r`: parents hold the minimal fill row among the rows
already processed (`-1` when none), degrees count the processed fill
rows, and all pattern flags are stale (below `r`, or still the initial
zero). -/
structure StInv (n : Nat) (adj : Nat → List Nat) (r : Nat)
    (st : EFState) : Prop where
  len_par : st.parents.length = n
  len_deg : st.degrees.length = n
  len_flags : st.pattern_flags.length = n
  par : ∀ j, j < n →
    (nget st.parents j = -1 ∧ ∀ i, j < i → i < r → ¬ Lnz adj i j) ∨
    (∃ i₀, i₀ < r ∧ nget st.parents j = (i₀ : Int) ∧ IsMinFill adj j i₀)
  deg : ∀ j, j < n → nget st.degrees j =
    (((Finset.range r).filter (fun i => j < i ∧ Lnz adj i j)).card : Int)
  flags : ∀ j, j < n →
    nget st.pattern_flags j < (r : Int) ∨ nget st.pattern_flags j = 0

end EFInvariantDefs

end Catamari

namespace Catamari

/-- Witness fixture for C5: a 2-row problem whose second row has a
single strictly-lower entry in column 0. -/
def exampleAdjC5 : Nat → List Nat := fun i => if i = 1 then [0] else []

end Catamari

namespace Catamari

/-! ## Lemmas about the key order -/

theorem keyLT_irrefl (a : Int × Int) : ¬ keyLT a a := by
  unfold keyLT; omega

theorem keyLT_trans {a b c : Int × Int} (h1 : keyLT a b) (h2 : keyLT b c) :
    keyLT a c := by
  unfold keyLT at *; omega

theorem keyLT_of_keyLT_of_keyLE {a b c : Int × Int} (h1 : keyLT a b)
    (h2 : keyLE b c) : keyLT a c := by
  simp only [keyLE, keyLT] at *; omega

theorem keyLT_of_keyLE_of_keyLT {a b c : Int × Int} (h1 : keyLE a b)
    (h2 : keyLT b c) : keyLT a c := by
  simp only [keyLE, keyLT] at *; omega

theorem keyLE_refl (a : Int × Int) : keyLE a a := by
  unfold keyLE keyLT; omega

theorem keyLE_antisymm {a b : Int × Int} (h1 : keyLE a b) (h2 : keyLE b a) :
    a = b := by
  unfold keyLE keyLT at *
  rcases a with ⟨x1, x2⟩; rcases b with ⟨y1, y2⟩
  simp_all only [Prod.mk.injEq]
  omega

theorem keyLT_of_keyLE_of_ne {a b : Int × Int} (h1 : keyLE a b) (h2 : a ≠ b) :
    keyLT a b := by
  rcases a with ⟨x1, x2⟩; rcases b with ⟨y1, y2⟩
  simp only [keyLE, keyLT, Prod.mk.injEq, ne_eq] at *
  omega

theorem keyLE_of_keyLT {a b : Int × Int} (h : keyLT a b) : keyLE a b := by
  unfold keyLE keyLT at *; omega

/-! ## Lemmas about key sums and key membership -/

theorem keySum_nil {R : Type} [AddCommMonoid R] (k : Int × Int) :
    keySum ([] : List (MatrixEntry R)) k = 0 := rfl

theorem keySum_cons {R : Type} [AddCommMonoid R] (e : MatrixEntry R)
    (l : List (MatrixEntry R)) (k : Int × Int) :
    keySum (e :: l) k = (if entryKey e = k then e.value else 0) + keySum l k := by
  unfold keySum
  by_cases h : entryKey e = k <;> simp [List.filter_cons, h]

theorem keySum_perm {R : Type} [AddCommMonoid R] {l₁ l₂ : List (MatrixEntry R)}
    (h : l₁.Perm l₂) (k : Int × Int) : keySum l₁ k = keySum l₂ k := by
  unfold keySum
  exact ((h.filter _).map _).sum_eq

theorem keySum_append {R : Type} [AddCommMonoid R] (l₁ l₂ : List (MatrixEntry R))
    (k : Int × Int) : keySum (l₁ ++ l₂) k = keySum l₁ k + keySum l₂ k := by
  unfold keySum
  simp [List.filter_append]

theorem keySum_eq_zero_of_not_mem {R : Type} [AddCommMonoid R]
    {l : List (MatrixEntry R)} {k : Int × Int} (h : k ∉ entryKeys l) :
    keySum l k = 0 := by
  induction l with
  | nil => rfl
  | cons e t ih =>
      rw [keySum_cons]
      have he : entryKey e ≠ k := by
        intro hk; exact h (by simp [entryKeys, hk.symm, entryKey])
      have ht : k ∉ entryKeys t := fun hk => h (by simp [entryKeys] at hk ⊢; right; exact hk)
      simp [he, ih ht]

theorem entryKeys_perm {R : Type} {l₁ l₂ : List (MatrixEntry R)} (h : l₁.Perm l₂) :
    ∀ k, k ∈ entryKeys l₁ ↔ k ∈ entryKeys l₂ := by
  intro k
  exact (h.map entryKey).mem_iff

theorem mem_entryKeys_of_mem {R : Type} {l : List (MatrixEntry R)}
    {e : MatrixEntry R} (h : e ∈ l) : entryKey e ∈ entryKeys l :=
  List.mem_map_of_mem entryKey h

/-! ## CombineSortedEntries agrees with the canonical run-summing pass -/

theorem updateLast_append {R : Type} [Add R] (p q : List (MatrixEntry R)) (v : R)
    (hq : q ≠ []) : updateLast (p ++ q) v = p ++ updateLast q v := by
  induction p with
  | nil => rfl
  | cons a p ih =>
      rcases q with _ | ⟨b, q⟩
      · exact absurd rfl hq
      · rcases p with _ | ⟨c, p⟩
        · rfl
        · simpa [updateLast] using ih

theorem updateLast_ne_nil {R : Type} [Add R] {q : List (MatrixEntry R)} {v : R}
    (hq : q ≠ []) : updateLast q v ≠ [] := by
  rcases q with _ | ⟨a, q⟩
  · exact absurd rfl hq
  · rcases q with _ | ⟨b, q⟩ <;> simp [updateLast]

theorem combineLoop_append {R : Type} [Add R] (l : List (MatrixEntry R)) :
    ∀ (k : Int × Int) (p q : List (MatrixEntry R)), q ≠ [] →
      combineLoop k (p ++ q) l = p ++ combineLoop k q l := by
  induction l with
  | nil => intro k p q _; rfl
  | cons e rest ih =>
      intro k p q hq
      simp only [combineLoop]
      by_cases hk : entryKey e = k
      · rw [if_pos hk, if_pos hk, updateLast_append p q e.value hq,
          ih k p (updateLast q e.value) (updateLast_ne_nil hq)]
      · rw [if_neg hk, if_neg hk, List.append_assoc,
          ih (entryKey e) p (q ++ [e]) (by simp)]

theorem combineLoop_single {R : Type} [Add R] (l : List (MatrixEntry R)) :
    ∀ e : MatrixEntry R, combineLoop (entryKey e) [e] l = canonGo e l := by
  induction l with
  | nil => intro e; rfl
  | cons f rest ih =>
      intro e
      simp only [combineLoop, canonGo]
      by_cases hk : entryKey f = entryKey e
      · have : updateLast [e] f.value = [{ e with value := e.value + f.value }] := rfl
        simp only [if_pos hk, this]
        have hkey : entryKey ({ e with value := e.value + f.value }) = entryKey e := rfl
        rw [← hkey, ih]
      · rw [if_neg hk, if_neg hk,
          combineLoop_append rest (entryKey f) [e] [f] (by simp), ih f]
        rfl

theorem CombineSortedEntries_eq_canonRuns {R : Type} [Add R]
    (l : List (MatrixEntry R)) (h : ∀ e ∈ l, entryKey e ≠ (-1, -1)) :
    CombineSortedEntries l = canonRuns l := by
  rcases l with _ | ⟨e, rest⟩
  · rfl
  · unfold CombineSortedEntries canonRuns
    simp only [combineLoop]
    rw [if_neg (h e (by simp))]
    rw [show ([] : List (MatrixEntry R)) ++ [e] = [e] from rfl, combineLoop_single]

/-! ## Properties of the canonical run-summing pass -/

theorem canonGo_keySum {R : Type} [AddCommMonoid R] (l : List (MatrixEntry R)) :
    ∀ (e : MatrixEntry R) (k : Int × Int),
      keySum (canonGo e l) k = keySum (e :: l) k := by
  induction l with
  | nil => intro e k; rfl
  | cons f rest ih =>
      intro e k
      simp only [canonGo]
      by_cases hk : entryKey f = entryKey e
      · rw [if_pos hk, ih]
        rw [keySum_cons, keySum_cons, keySum_cons]
        have : entryKey ({ e with value := e.value + f.value }) = entryKey e := rfl
        rw [this, hk]
        by_cases hke : entryKey e = k <;> simp [hke, add_assoc]
      · rw [if_neg hk, keySum_cons, keySum_cons, ih, keySum_cons]

theorem entryKeys_nil {R : Type} : entryKeys ([] : List (MatrixEntry R)) = [] := rfl

theorem entryKeys_cons {R : Type} (e : MatrixEntry R) (l : List (MatrixEntry R)) :
    entryKeys (e :: l) = entryKey e :: entryKeys l := rfl

theorem entryKeys_append {R : Type} (l₁ l₂ : List (MatrixEntry R)) :
    entryKeys (l₁ ++ l₂) = entryKeys l₁ ++ entryKeys l₂ := by
  unfold entryKeys; simp

theorem canonGo_mem_keys {R : Type} [Add R] (l : List (MatrixEntry R)) :
    ∀ (e : MatrixEntry R) (k : Int × Int),
      k ∈ entryKeys (canonGo e l) ↔ k ∈ entryKeys (e :: l) := by
  induction l with
  | nil => intro e k; simp [canonGo]
  | cons f rest ih =>
      intro e k
      simp only [canonGo]
      by_cases hk : entryKey f = entryKey e
      · rw [if_pos hk, ih]
        have hkey : entryKey ({ e with value := e.value + f.value } : MatrixEntry R) =
            entryKey e := rfl
        simp only [entryKeys_cons, List.mem_cons, hkey, hk]
        tauto
      · rw [if_neg hk]
        simp only [entryKeys_cons, List.mem_cons, ih f k]

end Catamari

namespace Catamari

theorem entryLE_congr_left {R : Type} {a b x : MatrixEntry R}
    (h : entryKey a = entryKey b) : entryLE a x ↔ entryLE b x := by
  unfold entryLE; rw [h]

theorem mem_entryKeys_iff {R : Type} {l : List (MatrixEntry R)} {k : Int × Int} :
    k ∈ entryKeys l ↔ ∃ a ∈ l, entryKey a = k := by
  unfold entryKeys; simp

theorem canonGo_sorted {R : Type} [Add R] (l : List (MatrixEntry R)) :
    ∀ e : MatrixEntry R, (e :: l).Pairwise entryLE →
      EntriesStrictlySorted (canonGo e l) := by
  induction l with
  | nil => intro e _; simp [canonGo, EntriesStrictlySorted]
  | cons f rest ih =>
      intro e hp
      rw [List.pairwise_cons] at hp
      obtain ⟨he, hfr⟩ := hp
      simp only [canonGo]
      by_cases hk : entryKey f = entryKey e
      · rw [if_pos hk]
        apply ih
        rw [List.pairwise_cons]
        refine ⟨fun x hx => ?_, (List.pairwise_cons.mp hfr).2⟩
        have : entryLE e x := he x (List.mem_cons_of_mem f hx)
        exact (entryLE_congr_left (show entryKey ({ e with value := e.value + f.value } :
          MatrixEntry R) = entryKey e from rfl)).mpr this
      · rw [if_neg hk]
        unfold EntriesStrictlySorted
        rw [List.pairwise_cons]
        refine ⟨fun x hx => ?_, ih f hfr⟩
        have hxk : entryKey x ∈ entryKeys (f :: rest) :=
          (canonGo_mem_keys rest f (entryKey x)).mp (mem_entryKeys_of_mem hx)
        have heLTf : keyLT (entryKey e) (entryKey f) :=
          keyLT_of_keyLE_of_ne (he f (by simp)) (fun hc => hk hc.symm)
        rcases mem_entryKeys_iff.mp hxk with ⟨a, ha, hak⟩
        rcases List.mem_cons.mp ha with rfl | ha'
        · rw [← hak]; exact heLTf
        · have : entryLE f a := (List.pairwise_cons.mp hfr).1 a ha'
          rw [← hak]
          exact keyLT_of_keyLT_of_keyLE heLTf this

theorem strictSorted_head_min {R : Type} {b : MatrixEntry R} {v : List (MatrixEntry R)}
    (h : EntriesStrictlySorted (b :: v)) :
    ∀ k ∈ entryKeys (b :: v), keyLE (entryKey b) k := by
  intro k hk
  rcases List.mem_cons.mp hk with rfl | hk'
  · exact keyLE_refl _
  · rcases mem_entryKeys_iff.mp hk' with ⟨a, ha, hak⟩
    have := (List.pairwise_cons.mp h).1 a ha
    rw [← hak]
    exact keyLE_of_keyLT this

theorem strictSorted_not_mem_tail {R : Type} {a : MatrixEntry R}
    {u : List (MatrixEntry R)} (h : EntriesStrictlySorted (a :: u)) :
    entryKey a ∉ entryKeys u := by
  intro hmem
  rcases mem_entryKeys_iff.mp hmem with ⟨x, hx, hxk⟩
  have := (List.pairwise_cons.mp h).1 x hx
  rw [hxk] at this
  exact keyLT_irrefl _ this

theorem matrixEntry_eq_of_key_value {R : Type} {a b : MatrixEntry R}
    (hk : entryKey a = entryKey b) (hv : a.value = b.value) : a = b := by
  cases a; cases b
  simp only [entryKey, Prod.mk.injEq] at hk
  simp_all

theorem strictSorted_eq_of_keys_keySum {R : Type} [AddCommMonoid R] :
    ∀ (u v : List (MatrixEntry R)), EntriesStrictlySorted u →
      EntriesStrictlySorted v →
      (∀ k, k ∈ entryKeys u ↔ k ∈ entryKeys v) →
      (∀ k, keySum u k = keySum v k) → u = v := by
  intro u
  induction u with
  | nil =>
      intro v _ _ hmem _
      rcases v with _ | ⟨b, v'⟩
      · rfl
      · exact absurd ((hmem (entryKey b)).mpr (by simp [entryKeys_cons])) (by simp [entryKeys_nil])
  | cons a u' ih =>
      intro v hu hv hmem hsum
      rcases v with _ | ⟨b, v'⟩
      · exact absurd ((hmem (entryKey a)).mp (by simp [entryKeys_cons])) (by simp [entryKeys_nil])
      · have hab : entryKey a = entryKey b := by
          have h1 : keyLE (entryKey b) (entryKey a) :=
            strictSorted_head_min hv _ ((hmem (entryKey a)).mp (by simp [entryKeys_cons]))
          have h2 : keyLE (entryKey a) (entryKey b) :=
            strictSorted_head_min hu _ ((hmem (entryKey b)).mpr (by simp [entryKeys_cons]))
          exact keyLE_antisymm h2 h1
        have hnota : entryKey a ∉ entryKeys u' := strictSorted_not_mem_tail hu
        have hnotb : entryKey b ∉ entryKeys v' := strictSorted_not_mem_tail hv
        have hval : a.value = b.value := by
          have := hsum (entryKey a)
          rw [keySum_cons, keySum_cons, if_pos rfl, if_pos hab.symm,
            keySum_eq_zero_of_not_mem hnota,
            keySum_eq_zero_of_not_mem (by rw [hab]; exact hnotb)] at this
          simpa using this
        have hebab : a = b := matrixEntry_eq_of_key_value hab hval
        subst hebab
        congr 1
        apply ih v' (List.Pairwise.sublist (List.sublist_cons_self a u') hu)
          (List.Pairwise.sublist (List.sublist_cons_self a v') hv)
        · intro k
          constructor
          · intro hk
            have hk0 : k ∈ entryKeys (a :: v') :=
              (hmem k).mp (List.mem_cons_of_mem _ hk)
            rcases List.mem_cons.mp hk0 with rfl | h'
            · exact absurd hk hnota
            · exact h'
          · intro hk
            have hk0 : k ∈ entryKeys (a :: u') :=
              (hmem k).mpr (List.mem_cons_of_mem _ hk)
            rcases List.mem_cons.mp hk0 with rfl | h'
            · exact absurd hk hnotb
            · exact h'
        · intro k
          by_cases hka : entryKey a = k
          · rw [← hka, keySum_eq_zero_of_not_mem hnota, keySum_eq_zero_of_not_mem hnotb]
          · have := hsum k
            rw [keySum_cons, keySum_cons, if_neg hka] at this
            simpa using this

end Catamari

namespace Catamari

theorem entryLTb_eq_true_iff {R : Type} {a b : MatrixEntry R} :
    entryLTb a b = true ↔ keyLT (entryKey a) (entryKey b) := by
  simp [entryLTb]

theorem mergeEntriesFuel_congr {R : Type} :
    ∀ (f : Nat) (g : Nat) (xs ys : List (MatrixEntry R)),
      xs.length + ys.length ≤ f → xs.length + ys.length ≤ g →
      mergeEntriesFuel f xs ys = mergeEntriesFuel g xs ys := by
  intro f
  induction f with
  | zero =>
      intro g xs ys hf _
      have hx : xs = [] := List.length_eq_zero.mp (by omega)
      have hy : ys = [] := List.length_eq_zero.mp (by omega)
      subst hx; subst hy
      cases g <;> rfl
  | succ f ihf =>
      intro g xs ys hf hg
      rcases xs with _ | ⟨x, xs⟩
      · cases g with
        | zero => rfl
        | succ g => rfl
      · rcases ys with _ | ⟨y, ys⟩
        · cases g with
          | zero => simp [mergeEntriesFuel]
          | succ g => rfl
        · cases g with
          | zero => simp at hg
          | succ g =>
              simp only [List.length_cons] at hf hg
              simp only [mergeEntriesFuel]
              by_cases h : entryLTb y x = true
              · rw [if_pos h, if_pos h,
                  ihf g (x :: xs) ys (by simp; omega) (by simp; omega)]
              · rw [if_neg h, if_neg h,
                  ihf g xs (y :: ys) (by simp; omega) (by simp; omega)]

theorem mergeEntries_nil_left {R : Type} (ys : List (MatrixEntry R)) :
    mergeEntries [] ys = ys := by
  cases ys <;> rfl

theorem mergeEntries_nil_right {R : Type} (x : MatrixEntry R)
    (xs : List (MatrixEntry R)) : mergeEntries (x :: xs) [] = x :: xs := rfl

theorem mergeEntries_cons_cons {R : Type} (x y : MatrixEntry R)
    (xs ys : List (MatrixEntry R)) :
    mergeEntries (x :: xs) (y :: ys) =
      if entryLTb y x then y :: mergeEntries (x :: xs) ys
      else x :: mergeEntries xs (y :: ys) := by
  unfold mergeEntries
  have hstep : (x :: xs).length + (y :: ys).length =
      ((x :: xs).length + ys.length) + 1 := by
    simp only [List.length_cons]; omega
  rw [hstep]
  simp only [mergeEntriesFuel]
  by_cases h : entryLTb y x = true
  · rw [if_pos h, if_pos h]
  · rw [if_neg h, if_neg h]
    exact congrArg (x :: ·)
      (mergeEntriesFuel_congr ((x :: xs).length + ys.length)
        (xs.length + (y :: ys).length) xs (y :: ys)
        (by simp only [List.length_cons]; omega)
        (by simp only [List.length_cons]; omega))

theorem mergeEntries_perm {R : Type} : ∀ (xs ys : List (MatrixEntry R)),
    (mergeEntries xs ys).Perm (xs ++ ys) := by
  intro xs
  induction xs with
  | nil => intro ys; simp [mergeEntries_nil_left]
  | cons x xs ihx =>
      intro ys
      induction ys with
      | nil => simp [mergeEntries_nil_right]
      | cons y ys ihy =>
          rw [mergeEntries_cons_cons]
          by_cases h : entryLTb y x = true
          · rw [if_pos h]
            exact List.Perm.trans (List.Perm.cons y ihy) List.perm_middle.symm
          · rw [if_neg h]
            exact List.Perm.cons x (ihx (y :: ys))

theorem mergeEntries_sorted {R : Type} : ∀ (xs ys : List (MatrixEntry R)),
    xs.Pairwise entryLE → ys.Pairwise entryLE →
    (mergeEntries xs ys).Pairwise entryLE := by
  intro xs
  induction xs with
  | nil => intro ys _ hy; simpa [mergeEntries_nil_left] using hy
  | cons x xs ihx =>
      intro ys hx hy
      induction ys with
      | nil => simpa [mergeEntries_nil_right] using hx
      | cons y ys ihy =>
          rw [List.pairwise_cons] at hx hy
          rw [mergeEntries_cons_cons]
          by_cases h : entryLTb y x = true
          · rw [if_pos h]
            have hyx : keyLT (entryKey y) (entryKey x) := entryLTb_eq_true_iff.mp h
            rw [List.pairwise_cons]
            constructor
            · intro z hz
              have hz' : z ∈ (x :: xs) ++ ys :=
                (mergeEntries_perm (x :: xs) ys).mem_iff.mp hz
              rcases List.mem_append.mp hz' with hz1 | hz2
              · rcases List.mem_cons.mp hz1 with rfl | hz1'
                · exact keyLE_of_keyLT hyx
                · exact keyLE_of_keyLT
                    (keyLT_of_keyLT_of_keyLE hyx (hx.1 z hz1'))
              · exact hy.1 z hz2
            · exact ihy hy.2
          · rw [if_neg h]
            have hxy : entryLE x y := by
              unfold entryLE keyLE
              intro hc
              exact h (entryLTb_eq_true_iff.mpr hc)
            rw [List.pairwise_cons]
            constructor
            · intro z hz
              have hz' : z ∈ xs ++ (y :: ys) :=
                (mergeEntries_perm xs (y :: ys)).mem_iff.mp hz
              rcases List.mem_append.mp hz' with hz1 | hz2
              · exact hx.1 z hz1
              · rcases List.mem_cons.mp hz2 with rfl | hz2'
                · exact hxy
                · exact @IsTrans.trans _ entryLE _ x y z hxy (hy.1 z hz2')
            · exact ihx (y :: ys) hx.2 (List.pairwise_cons.mpr hy)

theorem row_nonneg_of_key_mem {R : Type} {l : List (MatrixEntry R)}
    (hrow : ∀ e ∈ l, 0 ≤ e.row) {e : MatrixEntry R}
    (h : entryKey e ∈ entryKeys l) : 0 ≤ e.row := by
  rcases mem_entryKeys_iff.mp h with ⟨a, ha, hak⟩
  have : a.row = e.row := congrArg Prod.fst hak
  rw [← this]
  exact hrow a ha

theorem key_ne_sentinel_of_row_nonneg {R : Type} {e : MatrixEntry R}
    (h : 0 ≤ e.row) : entryKey e ≠ (-1, -1) := by
  intro hc
  have : e.row = -1 := congrArg Prod.fst hc
  omega

theorem CombineSortedEntries_spec {R : Type} [AddCommMonoid R]
    (l : List (MatrixEntry R)) (hrow : ∀ e ∈ l, 0 ≤ e.row)
    (hsorted : l.Pairwise entryLE) :
    EntriesStrictlySorted (CombineSortedEntries l) ∧
    (∀ k, keySum (CombineSortedEntries l) k = keySum l k) ∧
    (∀ k, k ∈ entryKeys (CombineSortedEntries l) ↔ k ∈ entryKeys l) ∧
    (∀ e ∈ CombineSortedEntries l, 0 ≤ e.row) := by
  have hcanon : CombineSortedEntries l = canonRuns l :=
    CombineSortedEntries_eq_canonRuns l
      (fun e he => key_ne_sentinel_of_row_nonneg (hrow e he))
  rcases l with _ | ⟨e, rest⟩
  · refine ⟨by simp [CombineSortedEntries, combineLoop, EntriesStrictlySorted], ?_, ?_, ?_⟩ <;>
      simp [CombineSortedEntries, combineLoop, entryKeys]
  · rw [hcanon]
    unfold canonRuns
    refine ⟨canonGo_sorted rest e hsorted, ?_, ?_, ?_⟩
    · intro k; exact canonGo_keySum rest e k
    · intro k; exact canonGo_mem_keys rest e k
    · intro x hx
      exact row_nonneg_of_key_mem hrow
        ((canonGo_mem_keys rest e (entryKey x)).mp (mem_entryKeys_of_mem hx))

theorem pairwise_entryLE_of_strict {R : Type} {l : List (MatrixEntry R)}
    (h : EntriesStrictlySorted l) : l.Pairwise entryLE :=
  h.imp (fun hab => keyLE_of_keyLT hab)

theorem flushAddition_entries_spec {R : Type} [AddCommMonoid R]
    (E A : List (MatrixEntry R))
    (hE : EntriesStrictlySorted E) (hErow : ∀ e ∈ E, 0 ≤ e.row)
    (hArow : ∀ e ∈ A, 0 ≤ e.row) :
    EntriesStrictlySorted (CombineSortedEntries (mergeEntries E
        (CombineSortedEntries (A.insertionSort entryLE)))) ∧
    (∀ k, keySum (CombineSortedEntries (mergeEntries E
        (CombineSortedEntries (A.insertionSort entryLE)))) k =
      keySum E k + keySum A k) ∧
    (∀ k, k ∈ entryKeys (CombineSortedEntries (mergeEntries E
        (CombineSortedEntries (A.insertionSort entryLE)))) ↔
      k ∈ entryKeys E ∨ k ∈ entryKeys A) ∧
    (∀ e ∈ CombineSortedEntries (mergeEntries E
        (CombineSortedEntries (A.insertionSort entryLE))), 0 ≤ e.row) := by
  set S := A.insertionSort entryLE with hS
  have hSperm : S.Perm A := List.perm_insertionSort entryLE A
  have hSsorted : S.Pairwise entryLE := List.sorted_insertionSort entryLE A
  have hSrow : ∀ e ∈ S, 0 ≤ e.row := fun e he => hArow e (hSperm.mem_iff.mp he)
  obtain ⟨hA1, hA2, hA3, hA4⟩ := CombineSortedEntries_spec S hSrow hSsorted
  set A' := CombineSortedEntries S with hA'
  have hMperm : (mergeEntries E A').Perm (E ++ A') := mergeEntries_perm E A'
  have hMsorted : (mergeEntries E A').Pairwise entryLE :=
    mergeEntries_sorted E A' (pairwise_entryLE_of_strict hE)
      (pairwise_entryLE_of_strict hA1)
  have hMrow : ∀ e ∈ mergeEntries E A', 0 ≤ e.row := by
    intro e he
    rcases List.mem_append.mp (hMperm.mem_iff.mp he) with h1 | h2
    · exact hErow e h1
    · exact hA4 e h2
  obtain ⟨hF1, hF2, hF3, hF4⟩ := CombineSortedEntries_spec _ hMrow hMsorted
  refine ⟨hF1, ?_, ?_, hF4⟩
  · intro k
    rw [hF2 k, keySum_perm hMperm k, keySum_append, hA2 k, keySum_perm hSperm k]
  · intro k
    rw [hF3 k, (entryKeys_perm hMperm) k]
    rw [show entryKeys (E ++ A') = entryKeys E ++ entryKeys A' from entryKeys_append E A']
    rw [List.mem_append]
    constructor
    · rintro (h1 | h2)
      · exact Or.inl h1
      · exact Or.inr ((entryKeys_perm hSperm k).mp ((hA3 k).mp h2))
    · rintro (h1 | h2)
      · exact Or.inl h1
      · exact Or.inr ((hA3 k).mpr ((entryKeys_perm hSperm k).mpr h2))

end Catamari

namespace Catamari

open CoordinateMatrix

/-! ## The removal sweep -/

theorem edge_eq_of_key_eq {a b : GraphEdge}
    (h : ((a.row, a.column) : Int × Int) = (b.row, b.column)) : a = b := by
  cases a; cases b
  simp only [Prod.mk.injEq] at h
  simp_all

theorem edgeLTb_eq_true_iff {a b : GraphEdge} :
    edgeLTb a b = true ↔ keyLT (a.row, a.column) (b.row, b.column) := by
  simp [edgeLTb]

theorem removalKeeps_iff {s : List GraphEdge} (hs : s.Pairwise edgeLE)
    (edge : GraphEdge) : removalKeeps s edge = true ↔ edge ∉ s := by
  induction s with
  | nil => simp [removalKeeps, lowerBoundCount]
  | cons x s' ih =>
      rw [List.pairwise_cons] at hs
      unfold removalKeeps lowerBoundCount
      by_cases h : edgeLTb x edge = true
      · rw [if_pos h]
        have hx : x ≠ edge := by
          intro hc
          rw [hc] at h
          exact keyLT_irrefl _ (edgeLTb_eq_true_iff.mp h)
        have hrec := ih hs.2
        unfold removalKeeps at hrec
        simp only [List.drop_succ_cons]
        rw [hrec]
        simp [hx, Ne.symm hx]
      · rw [if_neg h]
        simp only [List.drop_zero]
        by_cases hx : x = edge
        · simp [hx]
        · have hnot : edge ∉ x :: s' := by
            intro hc
            rcases List.mem_cons.mp hc with rfl | hmem
            · exact hx rfl
            · have h1 : edgeLE x edge := hs.1 edge hmem
              have h2 : keyLE (edge.row, edge.column) (x.row, x.column) := by
                intro hc2
                exact h (edgeLTb_eq_true_iff.mpr hc2)
              exact hx (edge_eq_of_key_eq (keyLE_antisymm h1 h2))
          simp [hx, hnot]

theorem eraseAdjacentDuplicates_mem :
    ∀ {l : List GraphEdge} {x : GraphEdge},
      x ∈ eraseAdjacentDuplicates l ↔ x ∈ l := by
  intro l
  induction l with
  | nil => intro x; exact Iff.rfl
  | cons e t ih =>
      intro x
      rcases t with _ | ⟨f, rest⟩
      · exact Iff.rfl
      · unfold eraseAdjacentDuplicates
        by_cases h : e = f
        · rw [if_pos h, ih]
          subst h
          simp only [List.mem_cons]
          tauto
        · rw [if_neg h]
          simp only [List.mem_cons, ih]

theorem eraseAdjacentDuplicates_pairwise :
    ∀ {l : List GraphEdge}, l.Pairwise edgeLE →
      (eraseAdjacentDuplicates l).Pairwise edgeLE := by
  intro l
  induction l with
  | nil => intro _; exact List.Pairwise.nil
  | cons e t ih =>
      intro hp
      rw [List.pairwise_cons] at hp
      rcases t with _ | ⟨f, rest⟩
      · simp [eraseAdjacentDuplicates]
      · unfold eraseAdjacentDuplicates
        by_cases h : e = f
        · rw [if_pos h]
          exact ih hp.2
        · rw [if_neg h]
          rw [List.pairwise_cons]
          exact ⟨fun x hx => hp.1 x (eraseAdjacentDuplicates_mem.mp hx), ih hp.2⟩

theorem flushRemoval_entries_eq {R : Type} (m : CoordinateMatrix R) :
    (m.FlushEntryRemovalQueue false).entries =
      m.entries.filter
        (fun e => decide (edgeOfKey (entryKey e) ∉ m.entries_to_remove)) := by
  unfold CoordinateMatrix.FlushEntryRemovalQueue
  simp only [Bool.false_eq_true, if_false]
  by_cases hq : m.entries_to_remove.isEmpty
  · rw [if_pos hq]
    have hnil : m.entries_to_remove = [] := List.isEmpty_iff.mp hq
    rw [hnil]
    simp
  · rw [if_neg hq]
    show m.entries.filter _ = m.entries.filter _
    apply List.filter_congr
    intro e _
    have hsorted : (m.entries_to_remove.insertionSort edgeLE).Pairwise edgeLE :=
      List.sorted_insertionSort edgeLE m.entries_to_remove
    have hkeep := removalKeeps_iff
      (eraseAdjacentDuplicates_pairwise hsorted)
      (⟨e.row, e.column⟩ : GraphEdge)
    have hmem : (⟨e.row, e.column⟩ : GraphEdge) ∈
        eraseAdjacentDuplicates (m.entries_to_remove.insertionSort edgeLE) ↔
        (⟨e.row, e.column⟩ : GraphEdge) ∈ m.entries_to_remove := by
      rw [eraseAdjacentDuplicates_mem]
      exact (List.perm_insertionSort edgeLE m.entries_to_remove).mem_iff
    by_cases hin : (⟨e.row, e.column⟩ : GraphEdge) ∈ m.entries_to_remove
    · have hfalse : removalKeeps (eraseAdjacentDuplicates
          (m.entries_to_remove.insertionSort edgeLE)) ⟨e.row, e.column⟩ = false := by
        rw [Bool.eq_false_iff]
        intro hc
        exact (hkeep.mp hc) (hmem.mpr hin)
      rw [hfalse]
      simp [edgeOfKey, entryKey, hin]
    · have htrue : removalKeeps (eraseAdjacentDuplicates
          (m.entries_to_remove.insertionSort edgeLE)) ⟨e.row, e.column⟩ = true := by
        rw [hkeep]
        intro hc
        exact hin (hmem.mp hc)
      rw [htrue]
      simp [edgeOfKey, entryKey, hin]

theorem keySum_filter_keyPred {R : Type} [AddCommMonoid R]
    (l : List (MatrixEntry R)) (p : Int × Int → Bool) (k : Int × Int) :
    keySum (l.filter (fun e => p (entryKey e))) k =
      if p k then keySum l k else 0 := by
  induction l with
  | nil => simp [keySum_nil]
  | cons e t ih =>
      simp only [List.filter_cons]
      by_cases hpe : p (entryKey e) = true
      · simp only [hpe, if_true, keySum_cons, ih]
        by_cases hek : entryKey e = k
        · have hpk : p k = true := hek ▸ hpe
          simp [hek, hpk]
        · simp [hek]
      · simp only [hpe, Bool.false_eq_true, if_false]
        rw [ih]
        by_cases hpk : p k = true
        · rw [if_pos hpk, if_pos hpk, keySum_cons]
          have hek : entryKey e ≠ k := fun hc => hpe (by rw [hc]; exact hpk)
          rw [if_neg hek, zero_add]
        · rw [if_neg hpk, if_neg hpk]

theorem mem_keys_filter_keyPred {R : Type}
    (l : List (MatrixEntry R)) (p : Int × Int → Bool) (k : Int × Int) :
    k ∈ entryKeys (l.filter (fun e => p (entryKey e))) ↔
      k ∈ entryKeys l ∧ p k = true := by
  rw [mem_entryKeys_iff, mem_entryKeys_iff]
  constructor
  · rintro ⟨a, ha, hak⟩
    rcases List.mem_filter.mp ha with ⟨ha1, ha2⟩
    exact ⟨⟨a, ha1, hak⟩, by rw [← hak]; exact ha2⟩
  · rintro ⟨⟨a, ha, hak⟩, hp⟩
    exact ⟨a, List.mem_filter.mpr ⟨ha, by rw [hak]; exact hp⟩, hak⟩

end Catamari

namespace Catamari

open CoordinateMatrix

/-! ## The row-offset recomputation -/

theorem foldl_max_row_le_start {R : Type} :
    ∀ (l : List (MatrixEntry R)) (a : Int),
      a ≤ l.foldl (fun acc e => max acc e.row) a := by
  intro l
  induction l with
  | nil => intro a; simp
  | cons e t ih =>
      intro a
      exact le_trans (le_max_left a e.row) (ih (max a e.row))

theorem foldl_max_row_le_bound {R : Type} :
    ∀ (l : List (MatrixEntry R)) (a c : Int), a ≤ c → (∀ e ∈ l, e.row ≤ c) →
      l.foldl (fun acc e => max acc e.row) a ≤ c := by
  intro l
  induction l with
  | nil => intro a c hac _; simpa using hac
  | cons e t ih =>
      intro a c hac hrows
      exact ih (max a e.row) c
        (max_le hac (hrows e (by simp)))
        (fun x hx => hrows x (List.mem_cons_of_mem e hx))

theorem mem_row_le_foldl_max {R : Type} :
    ∀ (l : List (MatrixEntry R)) (a : Int) (e : MatrixEntry R), e ∈ l →
      e.row ≤ l.foldl (fun acc x => max acc x.row) a := by
  intro l
  induction l with
  | nil => intro a e he; exact absurd he (List.not_mem_nil e)
  | cons f t ih =>
      intro a e he
      rcases List.mem_cons.mp he with rfl | he'
      · exact le_trans (le_max_right a e.row) (foldl_max_row_le_start t (max a e.row))
      · exact ih (max a f.row) e he'

theorem rowOffsetsScan_spec {R : Type} :
    ∀ (l : List (MatrixEntry R)) (i : Nat) (prev : Int),
      l.Pairwise (fun a b => a.row ≤ b.row) →
      (∀ e ∈ l, prev ≤ e.row) →
      (rowOffsetsScan (l.enumFrom i) prev).length =
        (l.foldl (fun acc e => max acc e.row) prev - prev).toNat ∧
      ∀ p : Nat, p < (rowOffsetsScan (l.enumFrom i) prev).length →
        (rowOffsetsScan (l.enumFrom i) prev).getD p 0 =
          (i : Int) + (l.filter (fun e => decide (e.row < prev + 1 + (p : Int)))).length := by
  intro l
  induction l with
  | nil =>
      intro i prev _ _
      constructor
      · simp [rowOffsetsScan]
      · intro p hp
        simp [rowOffsetsScan] at hp
  | cons e t ih =>
      intro i prev hpair hprev
      have hpe : prev ≤ e.row := hprev e (by simp)
      have hmax : max prev e.row = e.row := max_eq_right hpe
      have ht_pair : t.Pairwise (fun a b => a.row ≤ b.row) :=
        (List.pairwise_cons.mp hpair).2
      have ht_rows : ∀ x ∈ t, e.row ≤ x.row := (List.pairwise_cons.mp hpair).1
      obtain ⟨ihlen, ihget⟩ := ih (i + 1) e.row ht_pair ht_rows
      have hscan : rowOffsetsScan ((e :: t).enumFrom i) prev =
          List.replicate (e.row - prev).toNat (i : Int) ++
            rowOffsetsScan (t.enumFrom (i + 1)) e.row := by
        rw [List.enumFrom_cons]
        simp [rowOffsetsScan, hmax]
      set n : Nat := (e.row - prev).toNat with hn
      have hF := foldl_max_row_le_start t e.row
      constructor
      · rw [hscan]
        simp only [List.length_append, List.length_replicate, ihlen]
        have : (e :: t).foldl (fun acc x => max acc x.row) prev =
            t.foldl (fun acc x => max acc x.row) e.row := by
          simp [hmax]
        rw [this]
        omega
      · intro p hp
        rw [hscan] at hp ⊢
        simp only [List.length_append, List.length_replicate] at hp
        by_cases hcase : p < n
        · rw [List.getD_append _ _ _ _ (by simpa using hcase)]
          rw [List.getD_eq_getElem?_getD, List.getElem?_replicate, if_pos hcase]
          have hempty : (e :: t).filter
              (fun x => decide (x.row < prev + 1 + (p : Int))) = [] := by
            rw [List.filter_eq_nil_iff]
            intro x hx
            simp only [decide_eq_true_eq, not_lt]
            have hx_row : e.row ≤ x.row := by
              rcases List.mem_cons.mp hx with rfl | hx'
              · exact le_refl _
              · exact ht_rows x hx'
            have : (p : Int) < e.row - prev := by omega
            omega
          rw [hempty]
          simp
        · push_neg at hcase
          rw [List.getD_append_right _ _ _ _ (by simpa using hcase)]
          simp only [List.length_replicate]
          have hrec := ihget (p - n) (by omega)
          rw [hrec]
          have hfilter : (e :: t).filter
              (fun x => decide (x.row < prev + 1 + (p : Int))) =
              e :: t.filter (fun x => decide (x.row < prev + 1 + (p : Int))) := by
            rw [List.filter_cons_of_pos]
            simp only [decide_eq_true_eq]
            omega
          have harith : e.row + 1 + ((p - n : Nat) : Int) = prev + 1 + (p : Int) := by
            omega
          rw [harith] at *
          rw [hfilter]
          simp only [List.length_cons]
          push_cast [Nat.cast_add]
          ring

end Catamari

namespace Catamari

open CoordinateMatrix

theorem UpdateRowEntryOffsets_fields {R : Type} (m : CoordinateMatrix R) :
    m.UpdateRowEntryOffsets.entries = m.entries ∧
    m.UpdateRowEntryOffsets.num_rows = m.num_rows ∧
    m.UpdateRowEntryOffsets.entries_to_add = m.entries_to_add ∧
    m.UpdateRowEntryOffsets.entries_to_remove = m.entries_to_remove := by
  unfold CoordinateMatrix.UpdateRowEntryOffsets
  exact ⟨rfl, rfl, rfl, rfl⟩

theorem rows_nondecreasing_of_strictSorted {R : Type}
    {l : List (MatrixEntry R)} (h : EntriesStrictlySorted l) :
    l.Pairwise (fun a b => a.row ≤ b.row) := by
  refine h.imp ?_
  intro a b hab
  rcases hab with h1 | h2
  · exact le_of_lt h1
  · exact le_of_eq h2.1

theorem UpdateRowEntryOffsets_consistent {R : Type} (m : CoordinateMatrix R)
    (hsorted : m.entries.Pairwise (fun a b => a.row ≤ b.row))
    (hrange : ∀ e ∈ m.entries, 0 ≤ e.row ∧ e.row < m.num_rows) :
    RowOffsetsConsistent m.UpdateRowEntryOffsets := by
  unfold RowOffsetsConsistent
  obtain ⟨hent, hnum, -, -⟩ := UpdateRowEntryOffsets_fields m
  rw [hent, hnum]
  have hoff : m.UpdateRowEntryOffsets.row_entry_offsets =
      (rowOffsetsScan m.entries.enum (-1) ++
        List.replicate ((m.num_rows + 1).toNat -
          (rowOffsetsScan m.entries.enum (-1)).length)
          (m.entries.length : Int)).take (m.num_rows + 1).toNat := rfl
  rw [hoff]
  set F : Int := m.entries.foldl (fun acc e => max acc e.row) (-1) with hF
  have hFm1 : -1 ≤ F := foldl_max_row_le_start m.entries (-1)
  have hFlt : ∀ e ∈ m.entries, e.row ≤ F :=
    fun e he => mem_row_le_foldl_max m.entries (-1) e he
  have hFbound : F + 1 ≤ max m.num_rows 0 := by
    by_cases hne : m.entries = []
    · rw [hne] at hF
      simp only [List.foldl_nil] at hF
      omega
    · obtain ⟨e0, he0⟩ := List.exists_mem_of_ne_nil m.entries hne
      have h0 : 0 ≤ m.num_rows := le_of_lt (lt_of_le_of_lt
        (hrange e0 he0).1 (hrange e0 he0).2)
      have hb := foldl_max_row_le_bound m.entries (-1) (m.num_rows - 1)
        (by omega) (fun x hx => by have := (hrange x hx).2; omega)
      rw [← hF] at hb
      omega
  obtain ⟨hslen, hsget⟩ := rowOffsetsScan_spec m.entries 0 (-1) hsorted
    (fun e he => by have := (hrange e he).1; omega)
  have henum : m.entries.enum = m.entries.enumFrom 0 := rfl
  set filled := rowOffsetsScan m.entries.enum (-1) with hfilled
  set target : Nat := (m.num_rows + 1).toNat with htarget
  have hlen_filled : filled.length = (F + 1).toNat := by
    rw [hfilled, henum, hslen]
    omega
  have hlen_le : filled.length ≤ target := by
    rw [hlen_filled, htarget]
    omega
  constructor
  · simp only [List.length_take, List.length_append, List.length_replicate]
    omega
  · intro r hr
    simp only [List.length_take, List.length_append, List.length_replicate] at hr
    have hrt : r < target := by omega
    rw [List.getD_eq_getElem?_getD, List.getElem?_take, if_pos hrt,
      ← List.getD_eq_getElem?_getD]
    by_cases hrf : r < filled.length
    · rw [List.getD_append _ _ _ _ hrf]
      have := hsget r (by rw [hfilled, henum] at hrf; exact hrf)
      rw [hfilled, henum, this]
      have : (-1 : Int) + 1 + (r : Int) = (r : Int) := by omega
      rw [this]
      simp
    · push_neg at hrf
      rw [List.getD_append_right _ _ _ _ hrf,
        List.getD_eq_getElem?_getD, List.getElem?_replicate,
        if_pos (by omega), Option.getD_some]
      have hall : m.entries.filter (fun e => decide (e.row < (r : Int))) =
          m.entries := by
        rw [List.filter_eq_self]
        intro e he
        simp only [decide_eq_true_eq]
        have h1 := hFlt e he
        have h2 : (F + 1).toNat ≤ r := by omega
        omega
      rw [hall]

end Catamari

namespace Catamari

open CoordinateMatrix

/-! ## Matrix-level characterization of the flush pipeline -/

theorem flushAddition_entries_eq {R : Type} [Add R] (m : CoordinateMatrix R)
    (b : Bool) (h : ¬ m.entries_to_add.isEmpty = true) :
    (m.FlushEntryAdditionQueue b).entries =
      CombineSortedEntries (mergeEntries m.entries
        (CombineSortedEntries (m.entries_to_add.insertionSort entryLE))) := by
  unfold CoordinateMatrix.FlushEntryAdditionQueue
  rw [if_neg h]
  cases b
  · rfl
  · exact (UpdateRowEntryOffsets_fields _).1

theorem flushAddition_entries_empty {R : Type} [Add R] (m : CoordinateMatrix R)
    (b : Bool) (h : m.entries_to_add.isEmpty = true) :
    (m.FlushEntryAdditionQueue b).entries = m.entries := by
  unfold CoordinateMatrix.FlushEntryAdditionQueue
  rw [if_pos h]
  cases b
  · rfl
  · exact (UpdateRowEntryOffsets_fields _).1

theorem flushRemoval_fields {R : Type} (m : CoordinateMatrix R) :
    (m.FlushEntryRemovalQueue false).num_rows = m.num_rows ∧
    (m.FlushEntryRemovalQueue false).num_columns = m.num_columns ∧
    (m.FlushEntryRemovalQueue false).entries_to_add = m.entries_to_add := by
  unfold CoordinateMatrix.FlushEntryRemovalQueue
  simp only [Bool.false_eq_true, if_false]
  by_cases hq : m.entries_to_remove.isEmpty
  · rw [if_pos hq]; exact ⟨rfl, rfl, rfl⟩
  · rw [if_neg hq]; exact ⟨rfl, rfl, rfl⟩

theorem flushRemoval_entries_keyPred {R : Type} (m : CoordinateMatrix R) :
    (m.FlushEntryRemovalQueue false).entries =
      m.entries.filter (fun e => removalKeyPred m.entries_to_remove (entryKey e)) :=
  flushRemoval_entries_eq m

theorem FlushEntryQueues_entries_spec {R : Type} [AddCommMonoid R]
    (m : CoordinateMatrix R)
    (hsorted : EntriesStrictlySorted m.entries)
    (hErow : ∀ e ∈ m.entries, 0 ≤ e.row)
    (hArow : ∀ e ∈ m.entries_to_add, 0 ≤ e.row) :
    EntriesStrictlySorted (m.FlushEntryQueues).entries ∧
    (∀ k, keySum (m.FlushEntryQueues).entries k =
      (if edgeOfKey k ∈ m.entries_to_remove then 0 else keySum m.entries k) +
        keySum m.entries_to_add k) ∧
    (∀ k, k ∈ entryKeys (m.FlushEntryQueues).entries ↔
      (k ∈ entryKeys m.entries ∧ edgeOfKey k ∉ m.entries_to_remove) ∨
        k ∈ entryKeys m.entries_to_add) ∧
    (∀ e ∈ (m.FlushEntryQueues).entries, 0 ≤ e.row) := by
  unfold CoordinateMatrix.FlushEntryQueues
  by_cases hempty : m.entries_to_add.isEmpty = true ∧ m.entries_to_remove.isEmpty = true
  · rw [if_pos hempty]
    have hA : m.entries_to_add = [] := List.isEmpty_iff.mp hempty.1
    have hR : m.entries_to_remove = [] := List.isEmpty_iff.mp hempty.2
    refine ⟨hsorted, ?_, ?_, hErow⟩
    · intro k
      rw [hA, hR]
      simp [keySum_nil]
    · intro k
      rw [hA, hR]
      simp [entryKeys_nil]
  · rw [if_neg hempty]
    set m' := m.FlushEntryRemovalQueue false with hm'
    have hE' : m'.entries =
        m.entries.filter (fun e => removalKeyPred m.entries_to_remove (entryKey e)) :=
      flushRemoval_entries_keyPred m
    have hE'sorted : EntriesStrictlySorted m'.entries := by
      rw [hE']
      exact List.Pairwise.filter _ hsorted
    have hE'row : ∀ e ∈ m'.entries, 0 ≤ e.row := by
      intro e he
      rw [hE'] at he
      exact hErow e (List.mem_filter.mp he).1
    have hA' : m'.entries_to_add = m.entries_to_add := (flushRemoval_fields m).2.2
    have hE'sum : ∀ k, keySum m'.entries k =
        if edgeOfKey k ∈ m.entries_to_remove then 0 else keySum m.entries k := by
      intro k
      rw [hE', keySum_filter_keyPred m.entries (removalKeyPred m.entries_to_remove) k]
      unfold removalKeyPred
      by_cases hk : edgeOfKey k ∈ m.entries_to_remove
      · simp [hk]
      · simp [hk]
    have hE'mem : ∀ k, k ∈ entryKeys m'.entries ↔
        k ∈ entryKeys m.entries ∧ edgeOfKey k ∉ m.entries_to_remove := by
      intro k
      rw [hE', mem_keys_filter_keyPred m.entries (removalKeyPred m.entries_to_remove) k]
      unfold removalKeyPred
      simp
    by_cases haddq : m'.entries_to_add.isEmpty = true
    · have hAnil : m.entries_to_add = [] := by
        rw [← hA']; exact List.isEmpty_iff.mp haddq
      have hfe : (m'.FlushEntryAdditionQueue true).entries = m'.entries :=
        flushAddition_entries_empty m' true haddq
      rw [hfe]
      refine ⟨hE'sorted, ?_, ?_, hE'row⟩
      · intro k
        rw [hE'sum k, hAnil]
        simp [keySum_nil]
      · intro k
        rw [hE'mem k, hAnil]
        simp [entryKeys_nil]
    · have hfe := flushAddition_entries_eq m' true haddq
      obtain ⟨hs1, hs2, hs3, hs4⟩ := flushAddition_entries_spec m'.entries
        m'.entries_to_add hE'sorted hE'row
        (by rw [hA']; exact hArow)
      rw [hfe]
      refine ⟨hs1, ?_, ?_, hs4⟩
      · intro k
        rw [hs2 k, hE'sum k, hA']
      · intro k
        rw [hs3 k, hE'mem k, hA']

end Catamari

namespace Catamari

open CoordinateMatrix

theorem flushAddition_fields {R : Type} [Add R] (m : CoordinateMatrix R) (b : Bool) :
    (m.FlushEntryAdditionQueue b).num_rows = m.num_rows ∧
    (m.FlushEntryAdditionQueue b).num_columns = m.num_columns := by
  unfold CoordinateMatrix.FlushEntryAdditionQueue
  by_cases h : m.entries_to_add.isEmpty = true
  · rw [if_pos h]
    cases b
    · exact ⟨rfl, rfl⟩
    · exact ⟨(UpdateRowEntryOffsets_fields m).2.1, rfl⟩
  · rw [if_neg h]
    cases b
    · exact ⟨rfl, rfl⟩
    · exact ⟨(UpdateRowEntryOffsets_fields _).2.1, rfl⟩

theorem flushAddition_true_eq_update {R : Type} [Add R] (m : CoordinateMatrix R) :
    m.FlushEntryAdditionQueue true =
      (m.FlushEntryAdditionQueue false).UpdateRowEntryOffsets := by
  unfold CoordinateMatrix.FlushEntryAdditionQueue
  by_cases h : m.entries_to_add.isEmpty = true
  · rw [if_pos h]
    rfl
  · rw [if_neg h]
    rfl

theorem key_shape_of_mem {R : Type} {l : List (MatrixEntry R)} {r c : Int}
    (hshape : EntriesInShape l r c) {k : Int × Int} (h : k ∈ entryKeys l) :
    0 ≤ k.1 ∧ k.1 < r ∧ 0 ≤ k.2 ∧ k.2 < c := by
  rcases mem_entryKeys_iff.mp h with ⟨a, ha, hak⟩
  obtain ⟨h1, h2, h3, h4⟩ := hshape a ha
  rw [← hak]
  exact ⟨h1, h2, h3, h4⟩

theorem rows_nonneg_of_shape {R : Type} {l : List (MatrixEntry R)} {r c : Int}
    (hshape : EntriesInShape l r c) : ∀ e ∈ l, 0 ≤ e.row :=
  fun e he => (hshape e he).1

theorem FlushEntryQueues_offsets_consistent {R : Type} [AddCommMonoid R]
    (m : CoordinateMatrix R)
    (hsorted : EntriesStrictlySorted m.entries)
    (hshapeE : EntriesInShape m.entries m.num_rows m.num_columns)
    (hshapeA : EntriesInShape m.entries_to_add m.num_rows m.num_columns)
    (hoff : RowOffsetsConsistent m) :
    RowOffsetsConsistent m.FlushEntryQueues := by
  obtain ⟨hs1, hs2, hs3, hs4⟩ := FlushEntryQueues_entries_spec m hsorted
    (rows_nonneg_of_shape hshapeE) (rows_nonneg_of_shape hshapeA)
  by_cases hne : m.entries_to_add.isEmpty = true ∧ m.entries_to_remove.isEmpty = true
  · unfold CoordinateMatrix.FlushEntryQueues
    rw [if_pos hne]
    exact hoff
  · have hflush : m.FlushEntryQueues =
        ((m.FlushEntryRemovalQueue false).FlushEntryAdditionQueue
          false).UpdateRowEntryOffsets := by
      unfold CoordinateMatrix.FlushEntryQueues
      rw [if_neg hne]
      exact flushAddition_true_eq_update _
    set q := (m.FlushEntryRemovalQueue false).FlushEntryAdditionQueue false with hq
    have hq_entries : q.entries = (m.FlushEntryQueues).entries := by
      rw [hflush]
      exact ((UpdateRowEntryOffsets_fields q).1).symm
    have hq_rows : q.num_rows = m.num_rows := by
      rw [hq]
      rw [(flushAddition_fields _ false).1, (flushRemoval_fields m).1]
    rw [hflush]
    apply UpdateRowEntryOffsets_consistent q
    · rw [hq_entries]
      exact rows_nondecreasing_of_strictSorted hs1
    · intro e he
      rw [hq_entries] at he
      refine ⟨hs4 e he, ?_⟩
      rw [hq_rows]
      have hk := (hs3 (entryKey e)).mp (mem_entryKeys_of_mem he)
      rcases hk with ⟨h1, -⟩ | h2
      · have := (key_shape_of_mem hshapeE h1).2.1
        exact this
      · have := (key_shape_of_mem hshapeA h2).2.1
        exact this

theorem FlushEntryQueues_entries_perm_invariant {R : Type} [AddCommMonoid R]
    (m : CoordinateMatrix R) (adds₂ : List (MatrixEntry R))
    (hsorted : EntriesStrictlySorted m.entries)
    (hErow : ∀ e ∈ m.entries, 0 ≤ e.row)
    (hArow : ∀ e ∈ m.entries_to_add, 0 ≤ e.row)
    (hperm : m.entries_to_add.Perm adds₂) :
    (m.FlushEntryQueues).entries =
      (({ m with entries_to_add := adds₂ } :
        CoordinateMatrix R).FlushEntryQueues).entries := by
  set m₂ : CoordinateMatrix R := { m with entries_to_add := adds₂ } with hm₂
  have hA₂row : ∀ e ∈ m₂.entries_to_add, 0 ≤ e.row :=
    fun e he => hArow e (hperm.mem_iff.mpr he)
  obtain ⟨ha1, ha2, ha3, -⟩ := FlushEntryQueues_entries_spec m hsorted hErow hArow
  obtain ⟨hb1, hb2, hb3, -⟩ := FlushEntryQueues_entries_spec m₂ hsorted hErow hA₂row
  apply strictSorted_eq_of_keys_keySum _ _ ha1 hb1
  · intro k
    rw [ha3 k, hb3 k]
    have : k ∈ entryKeys m.entries_to_add ↔ k ∈ entryKeys m₂.entries_to_add :=
      entryKeys_perm hperm k
    tauto
  · intro k
    rw [ha2 k, hb2 k]
    rw [@keySum_perm R _ m.entries_to_add m₂.entries_to_add hperm k]

end Catamari

namespace Catamari

open CoordinateMatrix

/-- C1: for every coordinate matrix and every queued batch of entry
additions and removals, after `FlushEntryQueues` the entry sequence is
strictly increasing lexicographically by (row, column) with at most one
entry per key, queued additions with equal keys are summed into a single
entry (on top of the surviving stored value), the row-offsets array is
consistent with the entries, and two permutations of the same multiset of
queued additions produce the same final entry sequence. -/
theorem claim_C1_flush_canonical_and_permutation_invariant {R : Type}
    [AddCommMonoid R] (m : CoordinateMatrix R) (adds₂ : List (MatrixEntry R))
    (hsorted : EntriesStrictlySorted m.entries)
    (hshapeE : EntriesInShape m.entries m.num_rows m.num_columns)
    (hshapeA : EntriesInShape m.entries_to_add m.num_rows m.num_columns)
    (hoff : RowOffsetsConsistent m)
    (hperm : m.entries_to_add.Perm adds₂) :
    EntriesStrictlySorted (m.FlushEntryQueues).entries ∧
    RowOffsetsConsistent m.FlushEntryQueues ∧
    (∀ k, keySum (m.FlushEntryQueues).entries k =
      (if edgeOfKey k ∈ m.entries_to_remove then 0 else keySum m.entries k) +
        keySum m.entries_to_add k) ∧
    (∀ k, k ∈ entryKeys (m.FlushEntryQueues).entries ↔
      (k ∈ entryKeys m.entries ∧ edgeOfKey k ∉ m.entries_to_remove) ∨
        k ∈ entryKeys m.entries_to_add) ∧
    (m.FlushEntryQueues).entries =
      (({ m with entries_to_add := adds₂ } :
        CoordinateMatrix R).FlushEntryQueues).entries := by
  obtain ⟨hs1, hs2, hs3, -⟩ := FlushEntryQueues_entries_spec m hsorted
    (rows_nonneg_of_shape hshapeE) (rows_nonneg_of_shape hshapeA)
  exact ⟨hs1,
    FlushEntryQueues_offsets_consistent m hsorted hshapeE hshapeA hoff,
    hs2, hs3,
    FlushEntryQueues_entries_perm_invariant m adds₂ hsorted
      (rows_nonneg_of_shape hshapeE) (rows_nonneg_of_shape hshapeA) hperm⟩

/-- Witness for C1: the claim instantiated at a concrete 2-by-2 integer
matrix with a duplicate-key addition batch, a removal, and a reordered
copy of the batch. -/
theorem claim_C1_witness :
    EntriesStrictlySorted (exampleMatrixC1.FlushEntryQueues).entries ∧
    RowOffsetsConsistent exampleMatrixC1.FlushEntryQueues ∧
    (∀ k, keySum (exampleMatrixC1.FlushEntryQueues).entries k =
      (if edgeOfKey k ∈ exampleMatrixC1.entries_to_remove then 0
        else keySum exampleMatrixC1.entries k) +
        keySum exampleMatrixC1.entries_to_add k) ∧
    (∀ k, k ∈ entryKeys (exampleMatrixC1.FlushEntryQueues).entries ↔
      (k ∈ entryKeys exampleMatrixC1.entries ∧
        edgeOfKey k ∉ exampleMatrixC1.entries_to_remove) ∨
        k ∈ entryKeys exampleMatrixC1.entries_to_add) ∧
    (exampleMatrixC1.FlushEntryQueues).entries =
      (({ exampleMatrixC1 with entries_to_add := exampleAddsC1 } :
        CoordinateMatrix Int).FlushEntryQueues).entries :=
  claim_C1_flush_canonical_and_permutation_invariant exampleMatrixC1 exampleAddsC1
    (by decide) (by decide) (by decide) (by decide) (by decide)

/-- C2 counterexample: in a single batch that queues both the addition
(0, 0, 5) and the removal of key (0, 0) into an empty 1-by-1 matrix, the
claim asserts the entry with key (0, 0) is absent after the flush; in fact
the flush applies removals before merging the additions, so the entry is
present and holds the queued value. -/
theorem claim_C2_counterexample :
    (exampleMatrixC2.FlushEntryQueues).EntryExists 0 0 = true ∧
    (exampleMatrixC2.FlushEntryQueues).Value 0 0 = 5 := by
  constructor
  · decide
  · decide

/-- C2 (amended): `FlushEntryQueues` applies the queued removals first (a
sweep over the existing entry sequence, with the row-offset update skipped),
then sorts and merges the queued additions summing duplicate keys,
recomputing the row offsets once, after the addition flush; in
particular, when a single batch queues both an addition with key `k` and a
removal of key `k`, the entry with key `k` is present after the flush and
carries exactly the sum of the queued additions at `k` (the removal only
erases the previously stored entry). -/
theorem claim_C2_removals_before_additions {R : Type} [AddCommMonoid R]
    (m : CoordinateMatrix R) (k : Int × Int)
    (hsorted : EntriesStrictlySorted m.entries)
    (hErow : ∀ e ∈ m.entries, 0 ≤ e.row)
    (hArow : ∀ e ∈ m.entries_to_add, 0 ≤ e.row)
    (hne : ¬ (m.entries_to_add.isEmpty = true ∧ m.entries_to_remove.isEmpty = true))
    (hkadd : k ∈ entryKeys m.entries_to_add)
    (hkrem : edgeOfKey k ∈ m.entries_to_remove) :
    m.FlushEntryQueues = (m.FlushEntryRemovalQueue false).FlushEntryAdditionQueue true ∧
    k ∈ entryKeys (m.FlushEntryQueues).entries ∧
    keySum (m.FlushEntryQueues).entries k = keySum m.entries_to_add k := by
  obtain ⟨-, hs2, hs3, -⟩ := FlushEntryQueues_entries_spec m hsorted hErow hArow
  refine ⟨?_, (hs3 k).mpr (Or.inr hkadd), ?_⟩
  · unfold CoordinateMatrix.FlushEntryQueues
    rw [if_neg hne]
  · rw [hs2 k, if_pos hkrem, zero_add]

/-- Witness for C2 (amended): the amended claim instantiated at the
counterexample batch. -/
theorem claim_C2_witness :
    exampleMatrixC2.FlushEntryQueues =
      (exampleMatrixC2.FlushEntryRemovalQueue false).FlushEntryAdditionQueue true ∧
    ((0 : Int), (0 : Int)) ∈ entryKeys (exampleMatrixC2.FlushEntryQueues).entries ∧
    keySum (exampleMatrixC2.FlushEntryQueues).entries (0, 0) =
      keySum exampleMatrixC2.entries_to_add (0, 0) :=
  claim_C2_removals_before_additions exampleMatrixC2 (0, 0)
    (by decide) (by decide) (by decide) (by decide) (by decide) (by decide)

end Catamari

namespace Catamari

open CoordinateMatrix

/-! ## Row slices and the binary search of `EntryOffset` -/

theorem takeWhile_rowLT_eq_filter {R : Type} (r : Int) :
    ∀ (l : List (MatrixEntry R)), l.Pairwise (fun a b => a.row ≤ b.row) →
      l.takeWhile (fun e => decide (e.row < r)) =
        l.filter (fun e => decide (e.row < r)) := by
  intro l
  induction l with
  | nil => intro _; rfl
  | cons a t ih =>
      intro hp
      rw [List.pairwise_cons] at hp
      by_cases ha : a.row < r
      · rw [List.takeWhile_cons_of_pos (by simpa using ha),
          List.filter_cons_of_pos (by simpa using ha), ih hp.2]
      · rw [List.takeWhile_cons_of_neg (by simpa using ha),
          List.filter_cons_of_neg (by simpa using ha)]
        rw [eq_comm, List.filter_eq_nil_iff]
        intro x hx
        have := hp.1 x hx
        simp only [decide_eq_true_eq]
        omega

theorem takeWhile_rowEQ_eq_filter {R : Type} (r : Int) :
    ∀ (l : List (MatrixEntry R)), l.Pairwise (fun a b => a.row ≤ b.row) →
      (∀ e ∈ l, r ≤ e.row) →
      l.takeWhile (fun e => decide (e.row = r)) =
        l.filter (fun e => decide (e.row = r)) := by
  intro l
  induction l with
  | nil => intro _ _; rfl
  | cons a t ih =>
      intro hp hge
      rw [List.pairwise_cons] at hp
      by_cases ha : a.row = r
      · rw [List.takeWhile_cons_of_pos (by simpa using ha),
          List.filter_cons_of_pos (by simpa using ha),
          ih hp.2 (fun x hx => hge x (List.mem_cons_of_mem a hx))]
      · rw [List.takeWhile_cons_of_neg (by simpa using ha),
          List.filter_cons_of_neg (by simpa using ha)]
        rw [eq_comm, List.filter_eq_nil_iff]
        intro x hx
        have h1 := hp.1 x hx
        have h2 := hge a (by simp)
        simp only [decide_eq_true_eq]
        omega

theorem dropWhile_rows_ge {R : Type} (r : Int) :
    ∀ (l : List (MatrixEntry R)), l.Pairwise (fun a b => a.row ≤ b.row) →
      ∀ e ∈ l.dropWhile (fun e => decide (e.row < r)), r ≤ e.row := by
  intro l
  induction l with
  | nil => intro _ e he; simp at he
  | cons a t ih =>
      intro hp e he
      rw [List.pairwise_cons] at hp
      by_cases ha : a.row < r
      · rw [List.dropWhile_cons_of_pos (by simpa using ha)] at he
        exact ih hp.2 e he
      · rw [List.dropWhile_cons_of_neg (by simpa using ha)] at he
        rcases List.mem_cons.mp he with rfl | he'
        · omega
        · have := hp.1 e he'
          omega

theorem dropWhile_head_not {α : Type} (p : α → Bool) :
    ∀ (l : List α) (x : α) (xs : List α), l.dropWhile p = x :: xs → p x = false := by
  intro l
  induction l with
  | nil => intro x xs h; simp at h
  | cons a t ih =>
      intro x xs h
      by_cases ha : p a = true
      · rw [List.dropWhile_cons_of_pos ha] at h
        exact ih x xs h
      · rw [List.dropWhile_cons_of_neg ha] at h
        rw [← List.cons.injEq .. |>.mp h |>.1]
        exact Bool.not_eq_true _ |>.mp ha

theorem filter_length_rowLT_succ {R : Type} (r : Int) :
    ∀ (l : List (MatrixEntry R)),
      (l.filter (fun e => decide (e.row < r + 1))).length =
        (l.filter (fun e => decide (e.row < r))).length +
          (l.filter (fun e => decide (e.row = r))).length := by
  intro l
  induction l with
  | nil => rfl
  | cons a t ih =>
      simp only [List.filter_cons]
      by_cases h1 : a.row < r
      · have h2 : a.row < r + 1 := by omega
        have h3 : ¬ a.row = r := by omega
        simp [h1, h2, h3, ih]
        omega
      · by_cases h2 : a.row = r
        · have h3 : a.row < r + 1 := by omega
          simp [h1, h2, h3, ih]
          omega
        · have h3 : ¬ a.row < r + 1 := by omega
          simp [h1, h2, h3, ih]

/-- The slice of the entry list delimited by the row offsets of `r` is
exactly the set of entries in row `r`. -/
theorem row_slice_eq_filter {R : Type} (m : CoordinateMatrix R) (r : Int)
    (hsorted : m.entries.Pairwise (fun a b => a.row ≤ b.row))
    (hlo : (m.RowEntryOffset r).toNat =
      (m.entries.filter (fun e => decide (e.row < r))).length)
    (hhi : (m.RowEntryOffset (r + 1)).toNat =
      (m.entries.filter (fun e => decide (e.row < r + 1))).length) :
    (m.entries.drop (m.RowEntryOffset r).toNat).take
        ((m.RowEntryOffset (r + 1)).toNat - (m.RowEntryOffset r).toNat) =
      m.entries.filter (fun e => decide (e.row = r)) := by
  set tw := m.entries.takeWhile (fun e => decide (e.row < r)) with htw
  set dw := m.entries.dropWhile (fun e => decide (e.row < r)) with hdw
  have hsplit : tw ++ dw = m.entries := List.takeWhile_append_dropWhile _ _
  have htw_len : tw.length = (m.entries.filter (fun e => decide (e.row < r))).length := by
    rw [htw, takeWhile_rowLT_eq_filter r m.entries hsorted]
  have hdrop : m.entries.drop (m.RowEntryOffset r).toNat = dw := by
    rw [hlo, ← htw_len, ← hsplit, List.drop_left]
  rw [hdrop]
  have hdw_pair : dw.Pairwise (fun a b => a.row ≤ b.row) :=
    List.Pairwise.sublist ((List.dropWhile_suffix _).sublist) hsorted
  have hdw_ge : ∀ e ∈ dw, r ≤ e.row := dropWhile_rows_ge r m.entries hsorted
  have heqtw : dw.takeWhile (fun e => decide (e.row = r)) =
      dw.filter (fun e => decide (e.row = r)) :=
    takeWhile_rowEQ_eq_filter r dw hdw_pair hdw_ge
  have hfilter_dw : dw.filter (fun e => decide (e.row = r)) =
      m.entries.filter (fun e => decide (e.row = r)) := by
    conv_rhs => rw [← hsplit]
    rw [List.filter_append]
    have : tw.filter (fun e => decide (e.row = r)) = [] := by
      rw [List.filter_eq_nil_iff]
      intro x hx
      have : x ∈ m.entries.takeWhile (fun e => decide (e.row < r)) := by
        rw [← htw]; exact hx
      have hxlt := List.mem_takeWhile_imp this
      simp only [decide_eq_true_eq] at hxlt ⊢
      omega
    rw [this, List.nil_append]
  have hcount : (m.RowEntryOffset (r + 1)).toNat - (m.RowEntryOffset r).toNat =
      (m.entries.filter (fun e => decide (e.row = r))).length := by
    rw [hlo, hhi, filter_length_rowLT_succ r m.entries]
    omega
  rw [hcount, ← hfilter_dw, ← heqtw]
  set tw2 := dw.takeWhile (fun e => decide (e.row = r)) with htw2
  set dw2 := dw.dropWhile (fun e => decide (e.row = r)) with hdw2
  have hsplit2 : tw2 ++ dw2 = dw := List.takeWhile_append_dropWhile _ _
  rw [← hsplit2, List.take_left]

end Catamari

namespace Catamari

open CoordinateMatrix

theorem row_slice_decomposition {R : Type} (m : CoordinateMatrix R) (r : Int)
    (hsorted : m.entries.Pairwise (fun a b => a.row ≤ b.row))
    (hlo : (m.RowEntryOffset r).toNat =
      (m.entries.filter (fun e => decide (e.row < r))).length) :
    ∃ pre post : List (MatrixEntry R),
      pre ++ m.entries.filter (fun e => decide (e.row = r)) ++ post = m.entries ∧
      pre.length = (m.RowEntryOffset r).toNat ∧
      (∀ e ∈ post, r < e.row) := by
  set tw := m.entries.takeWhile (fun e => decide (e.row < r)) with htw
  set dw := m.entries.dropWhile (fun e => decide (e.row < r)) with hdw
  have hsplit : tw ++ dw = m.entries := List.takeWhile_append_dropWhile _ _
  have hdw_pair : dw.Pairwise (fun a b => a.row ≤ b.row) :=
    List.Pairwise.sublist ((List.dropWhile_suffix _).sublist) hsorted
  have hdw_ge : ∀ e ∈ dw, r ≤ e.row := dropWhile_rows_ge r m.entries hsorted
  set tw2 := dw.takeWhile (fun e => decide (e.row = r)) with htw2
  set post := dw.dropWhile (fun e => decide (e.row = r)) with hpost
  have hsplit2 : tw2 ++ post = dw := List.takeWhile_append_dropWhile _ _
  have heqtw : tw2 = dw.filter (fun e => decide (e.row = r)) := by
    rw [htw2, takeWhile_rowEQ_eq_filter r dw hdw_pair hdw_ge]
  have hfilter_dw : dw.filter (fun e => decide (e.row = r)) =
      m.entries.filter (fun e => decide (e.row = r)) := by
    conv_rhs => rw [← hsplit]
    rw [List.filter_append]
    have hnil : tw.filter (fun e => decide (e.row = r)) = [] := by
      rw [List.filter_eq_nil_iff]
      intro x hx
      have hx' : x ∈ m.entries.takeWhile (fun e => decide (e.row < r)) := by
        rw [← htw]; exact hx
      have hxlt := List.mem_takeWhile_imp hx'
      simp only [decide_eq_true_eq] at hxlt ⊢
      omega
    rw [hnil, List.nil_append]
  refine ⟨tw, post, ?_, ?_, ?_⟩
  · rw [← hfilter_dw, ← heqtw, List.append_assoc, hsplit2, hsplit]
  · rw [hlo, htw, takeWhile_rowLT_eq_filter r m.entries hsorted]
  · intro e he
    have hge : r ≤ e.row := hdw_ge e (by
      rw [← hsplit2]
      exact List.mem_append_right tw2 he)
    rcases hh : post with _ | ⟨h0, rest0⟩
    · rw [hh] at he; simp at he
    · have hh0 : ¬ (h0.row = r) := by
        have := dropWhile_head_not (fun e => decide (e.row = r)) dw h0 rest0 (by rw [← hpost, hh])
        simpa using this
      have hpost_pair : post.Pairwise (fun a b => a.row ≤ b.row) :=
        List.Pairwise.sublist ((List.dropWhile_suffix _).sublist) hdw_pair
      rw [hh] at he
      rcases List.mem_cons.mp he with rfl | he'
      · omega
      · have h1 : h0.row ≤ e.row := by
          rw [hh] at hpost_pair
          exact (List.pairwise_cons.mp hpost_pair).1 e he'
        have h2 : r ≤ h0.row := hdw_ge h0 (by
          rw [← hsplit2, hh]
          exact List.mem_append_right tw2 (by simp))
        omega

theorem lowerBoundCount_le_length {α : Type} (lt : α → α → Bool) :
    ∀ (s : List α) (t : α), lowerBoundCount lt s t ≤ s.length := by
  intro s
  induction s with
  | nil => intro t; simp [lowerBoundCount]
  | cons x xs ih =>
      intro t
      unfold lowerBoundCount
      by_cases h : lt x t = true
      · rw [if_pos h]
        simpa using ih t
      · rw [if_neg h]
        simp

theorem lowerBound_find_spec {R : Type} [Zero R] :
    ∀ (s : List (MatrixEntry R)), EntriesStrictlySorted s →
      ∀ t : MatrixEntry R,
      (∀ e ∈ s, entryKey e = entryKey t →
        lowerBoundCount entryLTb s t < s.length ∧
          s.getD (lowerBoundCount entryLTb s t) ⟨0, 0, 0⟩ = e) ∧
      (entryKey t ∉ entryKeys s →
        lowerBoundCount entryLTb s t = s.length ∨
          (lowerBoundCount entryLTb s t < s.length ∧
            entryKey (s.getD (lowerBoundCount entryLTb s t) ⟨0, 0, 0⟩) ≠
              entryKey t)) := by
  intro s
  induction s with
  | nil =>
      intro _ t
      refine ⟨fun e he _ => absurd he (List.not_mem_nil e), fun _ => Or.inl rfl⟩
  | cons x s' ih =>
      intro hs t
      have hs' : EntriesStrictlySorted s' :=
        List.Pairwise.sublist (List.sublist_cons_self x s') hs
      obtain ⟨ih1, ih2⟩ := ih hs' t
      unfold lowerBoundCount
      by_cases h : entryLTb x t = true
      · rw [if_pos h]
        have hxt : keyLT (entryKey x) (entryKey t) := entryLTb_eq_true_iff.mp h
        constructor
        · intro e he hek
          have hex : e ≠ x := by
            intro hc
            rw [← hc, hek] at hxt
            exact keyLT_irrefl _ hxt
          have he' : e ∈ s' := by
            rcases List.mem_cons.mp he with hc | h'
            · exact absurd hc hex
            · exact h'
          obtain ⟨hlt, hget⟩ := ih1 e he' hek
          refine ⟨by simpa using hlt, ?_⟩
          rw [List.getD_cons_succ]
          exact hget
        · intro hmem
          have hmem' : entryKey t ∉ entryKeys s' := by
            intro hc
            exact hmem (by rw [entryKeys_cons]; exact List.mem_cons_of_mem _ hc)
          rcases ih2 hmem' with h1 | ⟨h1, h2⟩
          · left
            simp [h1]
          · right
            refine ⟨by simpa using h1, ?_⟩
            rw [List.getD_cons_succ]
            exact h2
      · rw [if_neg h]
        have hxt : ¬ keyLT (entryKey x) (entryKey t) := fun hc =>
          h (entryLTb_eq_true_iff.mpr hc)
        constructor
        · intro e he hek
          have hex : e = x := by
            rcases List.mem_cons.mp he with hc | h'
            · exact hc
            · exfalso
              have := (List.pairwise_cons.mp hs).1 e h'
              rw [hek] at this
              exact hxt this
          refine ⟨by simp, ?_⟩
          rw [List.getD_cons_zero, hex]
        · intro hmem
          right
          refine ⟨by simp, ?_⟩
          rw [List.getD_cons_zero]
          intro hc
          exact hmem (by rw [entryKeys_cons, ← hc]; simp)

theorem keySum_eq_value_of_mem {R : Type} [AddCommMonoid R] :
    ∀ {l : List (MatrixEntry R)}, EntriesStrictlySorted l →
      ∀ {e : MatrixEntry R}, e ∈ l → keySum l (entryKey e) = e.value := by
  intro l
  induction l with
  | nil => intro _ e he; exact absurd he (List.not_mem_nil e)
  | cons a t ih =>
      intro hs e he
      have ht : EntriesStrictlySorted t :=
        List.Pairwise.sublist (List.sublist_cons_self a t) hs
      rcases List.mem_cons.mp he with rfl | he'
      · rw [keySum_cons, if_pos rfl,
          keySum_eq_zero_of_not_mem (strictSorted_not_mem_tail hs), add_zero]
      · have hne : entryKey a ≠ entryKey e := by
          intro hc
          have := (List.pairwise_cons.mp hs).1 e he'
          rw [hc] at this
          exact keyLT_irrefl _ this
        rw [keySum_cons, if_neg hne, ih ht he', zero_add]

end Catamari

namespace Catamari

open CoordinateMatrix

/-- C10: for every flushed (well-formed) coordinate matrix and every
in-range row, the lookup `Value` is total: it returns the stored value
when an entry with key (row, column) exists and `Ring(0)` otherwise (also
when the binary search lands between two entries or past the final entry),
and `EntryExists` returns `true` exactly when an entry with that key is
stored. -/
theorem claim_C10_value_lookup_total {R : Type} [AddCommMonoid R]
    (m : CoordinateMatrix R) (row column : Int)
    (hsorted : EntriesStrictlySorted m.entries)
    (hoff : RowOffsetsConsistent m)
    (hrow0 : 0 ≤ row) (hrowlt : row < m.num_rows) :
    (m.EntryExists row column = true ↔ (row, column) ∈ entryKeys m.entries) ∧
    (∀ e ∈ m.entries, entryKey e = (row, column) → m.Value row column = e.value) ∧
    ((row, column) ∉ entryKeys m.entries → m.Value row column = 0) := by
  have hpair := rows_nondecreasing_of_strictSorted hsorted
  have hlen := hoff.1
  have hb1 : row.toNat < m.row_entry_offsets.length := by
    rw [hlen]; omega
  have hb2 : (row + 1).toNat < m.row_entry_offsets.length := by
    rw [hlen]; omega
  have hlo : (m.RowEntryOffset row).toNat =
      (m.entries.filter (fun e => decide (e.row < row))).length := by
    have h1 := hoff.2 row.toNat hb1
    have h2 : ((row.toNat : Nat) : Int) = row := Int.toNat_of_nonneg hrow0
    rw [h2] at h1
    unfold CoordinateMatrix.RowEntryOffset
    rw [h1]
    simp
  have hhi : (m.RowEntryOffset (row + 1)).toNat =
      (m.entries.filter (fun e => decide (e.row < row + 1))).length := by
    have h1 := hoff.2 (row + 1).toNat hb2
    have h2 : (((row + 1).toNat : Nat) : Int) = row + 1 := Int.toNat_of_nonneg (by omega)
    rw [h2] at h1
    unfold CoordinateMatrix.RowEntryOffset
    rw [h1]
    simp
  have hslice := row_slice_eq_filter m row hpair hlo hhi
  obtain ⟨pre, post, hdecomp, hpre_len, hpost⟩ :=
    row_slice_decomposition m row hpair hlo
  set S := m.entries.filter (fun e => decide (e.row = row)) with hS
  set target : MatrixEntry R := ⟨row, column, 0⟩ with htarget
  set i := lowerBoundCount entryLTb S target with hi
  have hS_sorted : EntriesStrictlySorted S := List.Pairwise.filter _ hsorted
  have htkey : entryKey target = (row, column) := rfl
  have hmem_iff : (row, column) ∈ entryKeys m.entries ↔
      (row, column) ∈ entryKeys S := by
    constructor
    · intro h
      rcases mem_entryKeys_iff.mp h with ⟨a, ha, hak⟩
      have har : a.row = row := congrArg Prod.fst hak
      exact mem_entryKeys_iff.mpr ⟨a, List.mem_filter.mpr ⟨ha, by simpa using har⟩, hak⟩
    · intro h
      rcases mem_entryKeys_iff.mp h with ⟨a, ha, hak⟩
      exact mem_entryKeys_iff.mpr ⟨a, (List.mem_filter.mp ha).1, hak⟩
  have hdecomp' : pre ++ (S ++ post) = m.entries := by
    rw [← List.append_assoc]
    exact hdecomp
  have hEO : m.EntryOffset row column =
      (((m.RowEntryOffset row).toNat + i : Nat) : Int) := by
    show (((m.RowEntryOffset row).toNat +
      lowerBoundCount entryLTb
        ((m.entries.drop (m.RowEntryOffset row).toNat).take
          ((m.RowEntryOffset (row + 1)).toNat - (m.RowEntryOffset row).toNat))
        ⟨row, column, 0⟩ : Nat) : Int) = _
    rw [hslice]
  have hlen_entries : m.entries.length = pre.length + S.length + post.length := by
    conv_lhs => rw [← hdecomp']
    simp only [List.length_append]
    omega
  have hget : ∀ j, j < S.length →
      m.entries.getD (pre.length + j) ⟨0, 0, 0⟩ = S.getD j ⟨0, 0, 0⟩ := by
    intro j hj
    conv_lhs => rw [← hdecomp']
    rw [List.getD_append_right pre _ _ _ (by omega)]
    have hj' : pre.length + j - pre.length = j := by omega
    rw [hj', List.getD_append _ _ _ _ hj]
  have hget_post : ∀ x xs, post = x :: xs →
      m.entries.getD (pre.length + S.length) ⟨0, 0, 0⟩ = x := by
    intro x xs hx
    conv_lhs => rw [← hdecomp']
    rw [List.getD_append_right pre _ _ _ (by omega)]
    have h1 : pre.length + S.length - pre.length = S.length := by omega
    rw [h1, List.getD_append_right S _ _ _ (by omega)]
    have h2 : S.length - S.length = 0 := by omega
    rw [h2, hx, List.getD_cons_zero]
  obtain ⟨hfind, hmiss⟩ := lowerBound_find_spec S hS_sorted target
  simp only [← hi] at hfind hmiss
  have hidx : (m.EntryOffset row column).toNat = pre.length + i := by
    rw [hEO]
    omega
  constructor
  · -- EntryExists ↔ membership
    by_cases hmem : (row, column) ∈ entryKeys m.entries
    · simp only [hmem, iff_true]
      rcases mem_entryKeys_iff.mp (hmem_iff.mp hmem) with ⟨a, haS, hak⟩
      obtain ⟨hilt, hieq⟩ := hfind a haS (by rw [hak, htkey])
      unfold CoordinateMatrix.EntryExists
      rw [if_neg (by
        rw [hEO, ← hpre_len]
        push_neg
        have : pre.length + i < m.entries.length := by omega
        exact_mod_cast this)]
      unfold CoordinateMatrix.Entry
      rw [hidx, hget i hilt, hieq]
      have h1 : a.row = row := congrArg Prod.fst hak
      have h2 : a.column = column := congrArg Prod.snd hak
      simp [h1, h2]
    · simp only [hmem, iff_false]
      have hmemS : entryKey target ∉ entryKeys S := by
        rw [htkey]
        intro hc
        exact hmem (hmem_iff.mpr hc)
      rcases hmiss hmemS with hend | ⟨hilt, hne⟩
      · -- the search landed at the end of the row slice
        rcases hq : post with _ | ⟨x, xs⟩
        · -- past the final entry of the matrix
          have hge : (m.entries.length : Int) ≤ m.EntryOffset row column := by
            rw [hEO, ← hpre_len, hend]
            have hl : m.entries.length = pre.length + S.length := by
              rw [hlen_entries, hq]
              simp
            rw [hl]
          unfold CoordinateMatrix.EntryExists
          rw [if_pos hge]
          simp
        · -- between the row slice and the next row
          unfold CoordinateMatrix.EntryExists
          rw [if_neg (by
            rw [hEO, ← hpre_len, hend]
            push_neg
            have : pre.length + S.length < m.entries.length := by
              rw [hlen_entries, hq]
              simp
            exact_mod_cast this)]
          unfold CoordinateMatrix.Entry
          rw [hidx, hend, hget_post x xs hq]
          have := hpost x (by rw [hq]; simp)
          simp only [decide_eq_true_eq]
          intro hc
          omega
      · -- the search landed between two entries of the row slice
        unfold CoordinateMatrix.EntryExists
        rw [if_neg (by
          rw [hEO, ← hpre_len]
          push_neg
          have : pre.length + i < m.entries.length := by omega
          exact_mod_cast this)]
        unfold CoordinateMatrix.Entry
        rw [hidx, hget i hilt]
        rw [htkey] at hne
        simp only [decide_eq_true_eq]
        intro hc
        exact hne (by
          unfold entryKey
          rw [hc.1, hc.2])
  constructor
  · -- Value returns the stored value
    intro e he hek
    have heS : e ∈ S :=
      List.mem_filter.mpr ⟨he, by simpa using congrArg Prod.fst hek⟩
    obtain ⟨hilt, hieq⟩ := hfind e heS (by rw [hek, htkey])
    unfold CoordinateMatrix.Value
    rw [if_neg (by
      rw [hEO, ← hpre_len]
      push_neg
      have : pre.length + i < m.entries.length := by omega
      exact_mod_cast this)]
    unfold CoordinateMatrix.Entry
    rw [hidx, hget i hilt, hieq]
    have h1 : e.row = row := congrArg Prod.fst hek
    have h2 : e.column = column := congrArg Prod.snd hek
    rw [if_pos ⟨h1, h2⟩]
  · -- Value returns zero when the key is absent
    intro hmem
    have hmemS : entryKey target ∉ entryKeys S := by
      rw [htkey]
      intro hc
      exact hmem (hmem_iff.mpr hc)
    rcases hmiss hmemS with hend | ⟨hilt, hne⟩
    · rcases hq : post with _ | ⟨x, xs⟩
      · have hge : (m.entries.length : Int) ≤ m.EntryOffset row column := by
          rw [hEO, ← hpre_len, hend]
          have hl : m.entries.length = pre.length + S.length := by
            rw [hlen_entries, hq]
            simp
          rw [hl]
        unfold CoordinateMatrix.Value
        rw [if_pos hge]
      · unfold CoordinateMatrix.Value
        rw [if_neg (by
          rw [hEO, ← hpre_len, hend]
          push_neg
          have : pre.length + S.length < m.entries.length := by
            rw [hlen_entries, hq]
            simp
          exact_mod_cast this)]
        unfold CoordinateMatrix.Entry
        rw [hidx, hend, hget_post x xs hq]
        rw [if_neg]
        have := hpost x (by rw [hq]; simp)
        intro hc
        omega
    · unfold CoordinateMatrix.Value
      rw [if_neg (by
        rw [hEO, ← hpre_len]
        push_neg
        have : pre.length + i < m.entries.length := by omega
        exact_mod_cast this)]
      unfold CoordinateMatrix.Entry
      rw [hidx, hget i hilt]
      rw [htkey] at hne
      rw [if_neg]
      intro hc
      exact hne (by
        unfold entryKey
        rw [hc.1, hc.2])

/-- Witness for C10: the hypotheses hold on `exampleMatrixC10` at the
in-range row 0, and the lookup conclusion follows for the key (0, 1). -/
theorem claim_C10_witness :
    (EntriesStrictlySorted exampleMatrixC10.entries ∧
      RowOffsetsConsistent exampleMatrixC10 ∧
      (0 : Int) ≤ 0 ∧ (0 : Int) < exampleMatrixC10.num_rows) ∧
    (exampleMatrixC10.EntryExists 0 1 = true ↔
      ((0 : Int), (1 : Int)) ∈ entryKeys exampleMatrixC10.entries) ∧
    (∀ e ∈ exampleMatrixC10.entries, entryKey e = (0, 1) →
      exampleMatrixC10.Value 0 1 = e.value) ∧
    (((0 : Int), (1 : Int)) ∉ entryKeys exampleMatrixC10.entries →
      exampleMatrixC10.Value 0 1 = 0) :=
  ⟨⟨by decide, by decide, by decide, by decide⟩,
    claim_C10_value_lookup_total exampleMatrixC10 0 1
      (by decide) (by decide) (by decide) (by decide)⟩

end Catamari

namespace Catamari

lemma foldl_add_eq {α R : Type} [AddCommMonoid R] (f : α → R) (l : List α)
    (acc : R) : l.foldl (fun a x => a + f x) acc = acc + (l.map f).sum := by
  induction l generalizing acc with
  | nil => simp
  | cons x xs ih => simp [ih, add_assoc]

/-- C9: `LogLikelihood` is the sum of `logAbs` over ALL diagonal entries of
every supernode's diagonal block — each block of height `h` contributes its
full diagonal `j = 0, …, h − 1`, with no entry excluded. -/
theorem claim_C9_loglikelihood_sums_all_diagonal_entries {F R : Type}
    [AddCommMonoid R] (logAbs : F → R) (blocks : List (DiagonalBlock F)) :
    LogLikelihood logAbs blocks =
      (blocks.map (fun b =>
        ((List.range b.height).map (fun j => logAbs (b.entry j j))).sum)).sum := by
  unfold LogLikelihood
  have hbody : (fun (acc : R) (b : DiagonalBlock F) =>
      (List.range b.height).foldl (fun a j => a + logAbs (b.entry j j)) acc) =
      (fun acc b => acc +
        ((List.range b.height).map (fun j => logAbs (b.entry j j))).sum) := by
    funext acc b
    exact foldl_add_eq _ _ _
  rw [hbody, foldl_add_eq (fun b : DiagonalBlock F =>
    ((List.range b.height).map (fun j => logAbs (b.entry j j))).sum) blocks 0]
  rw [zero_add]

end Catamari

namespace Catamari

section DenseKernelLemmas

variable {F : Type} [LinearOrderedField F]

lemma updEntry_self (A : Nat → Nat → F) (r c : Nat) (v : F) :
    updEntry A r c v r c = v := by
  unfold updEntry
  rw [if_pos rfl, if_pos rfl]

lemma updEntry_frame (A : Nat → Nat → F) (r c : Nat) (v : F) (p q : Nat)
    (h : ¬(p = r ∧ q = c)) : updEntry A r c v p q = A p q := by
  unfold updEntry
  by_cases h1 : p = r
  · rw [if_pos h1, if_neg (fun hc => h ⟨h1, hc⟩)]
  · rw [if_neg h1]

lemma foldl_frame {α : Type} (P : Nat → Nat → Prop)
    (f : (Nat → Nat → F) → α → Nat → Nat → F) (l : List α)
    (hf : ∀ B, ∀ a ∈ l, ∀ p q, P p q → f B a p q = B p q)
    (B : Nat → Nat → F) (p q : Nat) (h : P p q) :
    l.foldl f B p q = B p q := by
  induction l generalizing B with
  | nil => rfl
  | cons x xs ih =>
    rw [List.foldl_cons,
      ih (fun B a ha => hf B a (List.mem_cons_of_mem x ha)) (f B x)]
    exact hf B x (List.mem_cons_self x xs) p q h

lemma scale_fold_frame (i len : Nat) (g : (Nat → Nat → F) → Nat → F)
    (B : Nat → Nat → F) (p q : Nat) (h : p < q) :
    (List.range' (i + 1) len).foldl
      (fun B k => updEntry B k i (g B k)) B p q = B p q := by
  refine foldl_frame (fun p q => p < q) _ _ ?_ B p q h
  intro B a ha p q hpq
  refine updEntry_frame _ _ _ _ _ _ ?_
  rintro ⟨hp, hq⟩
  have := (List.mem_range'_1.mp ha).1
  omega

lemma rank1_fold_frame (i len height : Nat) (g : (Nat → Nat → F) → Nat → F)
    (B : Nat → Nat → F) (p q : Nat) (h : p < q) :
    (List.range' (i + 1) len).foldl
      (fun B j =>
        (List.range' j (height - j)).foldl
          (fun C k => updEntry C k j (C k j - C k i * g B j)) B) B p q =
      B p q := by
  refine foldl_frame (fun p q => p < q) _ _ ?_ B p q h
  intro B a _ p q hpq
  refine foldl_frame (fun p q => p < q) _ _ ?_ B p q hpq
  intro C b hb p q hpq
  refine updEntry_frame _ _ _ _ _ _ ?_
  rintro ⟨hp, hq⟩
  have := (List.mem_range'_1.mp hb).1
  omega

lemma choleskyLoop_succ (sqrtF : F → F) (height fuel : Nat)
    (A : Nat → Nat → F) (i : Nat) :
    choleskyLoop sqrtF height (fuel + 1) A i =
      if A i i ≤ 0 then (i, A)
      else choleskyLoop sqrtF height fuel
        ((List.range' (i + 1) (height - (i + 1))).foldl
          (fun B j =>
            (List.range' j (height - j)).foldl
              (fun C k => updEntry C k j (C k j - C k i * B j i)) B)
          ((List.range' (i + 1) (height - (i + 1))).foldl
            (fun B k => updEntry B k i (B k i / sqrtF (A i i)))
            (updEntry A i i (sqrtF (A i i))))) (i + 1) := rfl

lemma ldlAdjointLoop_succ (height fuel : Nat)
    (A : Nat → Nat → F) (i : Nat) :
    ldlAdjointLoop height (fuel + 1) A i =
      if A i i = 0 then (i, updEntry A i i (A i i))
      else ldlAdjointLoop height fuel
        ((List.range' (i + 1) (height - (i + 1))).foldl
          (fun B j =>
            (List.range' j (height - j)).foldl
              (fun C k => updEntry C k j (C k j - C k i * (A i i * B j i))) B)
          ((List.range' (i + 1) (height - (i + 1))).foldl
            (fun B k => updEntry B k i (B k i / A i i))
            (updEntry A i i (A i i)))) (i + 1) := rfl

lemma choleskyLoop_frame (sqrtF : F → F) (height : Nat) :
    ∀ fuel (A : Nat → Nat → F) (i p q : Nat), p < q →
      (choleskyLoop sqrtF height fuel A i).2 p q = A p q := by
  intro fuel
  induction fuel with
  | zero => intro A i p q _; rfl
  | succ fuel ih =>
    intro A i p q hpq
    simp only [choleskyLoop]
    by_cases hd : A i i ≤ 0
    · rw [if_pos hd]
    · rw [if_neg hd]
      rw [ih _ _ _ _ hpq]
      rw [rank1_fold_frame _ _ _ (fun B j => B j i) _ _ _ hpq]
      rw [scale_fold_frame _ _ (fun B k => B k i / sqrtF (A i i)) _ _ _ hpq]
      exact updEntry_frame _ _ _ _ _ _ (by rintro ⟨h1, h2⟩; omega)

lemma choleskyLoop_le (sqrtF : F → F) (height : Nat) :
    ∀ fuel (A : Nat → Nat → F) (i : Nat),
      (choleskyLoop sqrtF height fuel A i).1 ≤ i + fuel := by
  intro fuel
  induction fuel with
  | zero => intro A i; simp [choleskyLoop]
  | succ fuel ih =>
    intro A i
    simp only [choleskyLoop]
    by_cases hd : A i i ≤ 0
    · rw [if_pos hd]; omega
    · rw [if_neg hd]
      refine le_trans (ih _ (i + 1)) ?_
      omega

lemma choleskyLoop_fail (sqrtF : F → F) (height : Nat) :
    ∀ fuel (A : Nat → Nat → F) (i : Nat),
      (choleskyLoop sqrtF height fuel A i).1 < i + fuel →
      (choleskyLoop sqrtF height fuel A i).2
        (choleskyLoop sqrtF height fuel A i).1
        (choleskyLoop sqrtF height fuel A i).1 ≤ 0 := by
  intro fuel
  induction fuel with
  | zero => intro A i h; simp [choleskyLoop] at h
  | succ fuel ih =>
    intro A i h
    rw [choleskyLoop_succ] at h ⊢
    by_cases hd : A i i ≤ 0
    · rw [if_pos hd] at h ⊢
      exact hd
    · rw [if_neg hd] at h ⊢
      apply ih
      have heq : i + (fuel + 1) = i + 1 + fuel := by ring
      rw [← heq]
      exact h

lemma ldlLoop_frame (height : Nat) :
    ∀ fuel (A : Nat → Nat → F) (i p q : Nat), p < q →
      (ldlAdjointLoop height fuel A i).2 p q = A p q := by
  intro fuel
  induction fuel with
  | zero => intro A i p q _; rfl
  | succ fuel ih =>
    intro A i p q hpq
    simp only [ldlAdjointLoop]
    by_cases hd : A i i = 0
    · rw [if_pos hd]
      exact updEntry_frame _ _ _ _ _ _ (by rintro ⟨h1, h2⟩; omega)
    · rw [if_neg hd]
      rw [ih _ _ _ _ hpq]
      rw [rank1_fold_frame _ _ _ (fun B j => A i i * B j i) _ _ _ hpq]
      rw [scale_fold_frame _ _ (fun B k => B k i / A i i) _ _ _ hpq]
      exact updEntry_frame _ _ _ _ _ _ (by rintro ⟨h1, h2⟩; omega)

lemma ldlLoop_le (height : Nat) :
    ∀ fuel (A : Nat → Nat → F) (i : Nat),
      (ldlAdjointLoop height fuel A i).1 ≤ i + fuel := by
  intro fuel
  induction fuel with
  | zero => intro A i; simp [ldlAdjointLoop]
  | succ fuel ih =>
    intro A i
    simp only [ldlAdjointLoop]
    by_cases hd : A i i = 0
    · rw [if_pos hd]; omega
    · rw [if_neg hd]
      refine le_trans (ih _ (i + 1)) ?_
      omega

lemma ldlLoop_fail (height : Nat) :
    ∀ fuel (A : Nat → Nat → F) (i : Nat),
      (ldlAdjointLoop height fuel A i).1 < i + fuel →
      (ldlAdjointLoop height fuel A i).2
        (ldlAdjointLoop height fuel A i).1
        (ldlAdjointLoop height fuel A i).1 = 0 := by
  intro fuel
  induction fuel with
  | zero => intro A i h; simp [ldlAdjointLoop] at h
  | succ fuel ih =>
    intro A i h
    rw [ldlAdjointLoop_succ] at h ⊢
    by_cases hd : A i i = 0
    · rw [if_pos hd] at h ⊢
      show updEntry A i i (A i i) i i = 0
      rw [updEntry_self]
      exact hd
    · rw [if_neg hd] at h ⊢
      apply ih
      have heq : i + (fuel + 1) = i + 1 + fuel := by ring
      rw [← heq]
      exact h

end DenseKernelLemmas

end Catamari

namespace Catamari

section BlockedKernelLemmas

variable {F : Type} [LinearOrderedField F]

lemma subView_apply (A : Nat → Nat → F) (ro co r c : Nat) :
    subView A ro co r c = A (ro + r) (co + c) := rfl

lemma writeBack_in (A : Nat → Nat → F) (ro co h w : Nat)
    (D : Nat → Nat → F) (p q : Nat)
    (hin : ro ≤ p ∧ p < ro + h ∧ co ≤ q ∧ q < co + w) :
    writeBack A ro co h w D p q = D (p - ro) (q - co) := by
  unfold writeBack
  rw [if_pos hin]

lemma writeBack_out (A : Nat → Nat → F) (ro co h w : Nat)
    (D : Nat → Nat → F) (p q : Nat)
    (hout : ¬(ro ≤ p ∧ p < ro + h ∧ co ≤ q ∧ q < co + w)) :
    writeBack A ro co h w D p q = A p q := by
  unfold writeBack
  rw [if_neg hout]

lemma outer_frame (alpha : F) (X : Nat → Nat → F) (bsize theight : Nat)
    (beta : F) (C : Nat → Nat → F) (p q : Nat) (h : p < q) :
    LowerNormalHermitianOuterProduct alpha X bsize theight beta C p q =
      C p q := by
  unfold LowerNormalHermitianOuterProduct
  refine foldl_frame (fun p q => p < q) _ _ ?_ C p q h
  intro B a _ p q hpq
  refine foldl_frame (fun p q => p < q) _ _ ?_ B p q hpq
  intro D b hb p q hpq
  refine updEntry_frame _ _ _ _ _ _ ?_
  rintro ⟨hp, hq⟩
  have := (List.mem_range'_1.mp hb).1
  omega

lemma unblockedCholesky_le (sqrtF : F → F) (n : Nat) (A : Nat → Nat → F) :
    (UnblockedLowerCholeskyFactorization sqrtF n A).1 ≤ n := by
  have h := choleskyLoop_le sqrtF n n A 0
  rw [Nat.zero_add] at h
  exact h

lemma unblockedCholesky_fail (sqrtF : F → F) (n : Nat) (A : Nat → Nat → F)
    (h : (UnblockedLowerCholeskyFactorization sqrtF n A).1 < n) :
    (UnblockedLowerCholeskyFactorization sqrtF n A).2
      (UnblockedLowerCholeskyFactorization sqrtF n A).1
      (UnblockedLowerCholeskyFactorization sqrtF n A).1 ≤ 0 := by
  have h' : (choleskyLoop sqrtF n n A 0).1 < 0 + n := by
    rw [Nat.zero_add]
    exact h
  exact choleskyLoop_fail sqrtF n n A 0 h'

lemma unblockedCholesky_frame (sqrtF : F → F) (n : Nat) (A : Nat → Nat → F)
    (p q : Nat) (h : p < q) :
    (UnblockedLowerCholeskyFactorization sqrtF n A).2 p q = A p q :=
  choleskyLoop_frame sqrtF n n A 0 p q h

lemma unblockedLDL_le (n : Nat) (A : Nat → Nat → F) :
    (LowerUnblockedLDLAdjointFactorization n A).1 ≤ n := by
  have h := ldlLoop_le n n A 0
  rw [Nat.zero_add] at h
  exact h

lemma unblockedLDL_fail (n : Nat) (A : Nat → Nat → F)
    (h : (LowerUnblockedLDLAdjointFactorization n A).1 < n) :
    (LowerUnblockedLDLAdjointFactorization n A).2
      (LowerUnblockedLDLAdjointFactorization n A).1
      (LowerUnblockedLDLAdjointFactorization n A).1 = 0 := by
  have h' : (ldlAdjointLoop n n A 0).1 < 0 + n := by
    rw [Nat.zero_add]
    exact h
  exact ldlLoop_fail n n A 0 h'

lemma unblockedLDL_frame (n : Nat) (A : Nat → Nat → F) (p q : Nat)
    (h : p < q) :
    (LowerUnblockedLDLAdjointFactorization n A).2 p q = A p q :=
  ldlLoop_frame n n A 0 p q h

lemma blockedCholeskyLoop_succ (sqrtF : F → F) (bs height fuel : Nat)
    (A : Nat → Nat → F) (i : Nat) :
    blockedCholeskyLoop sqrtF bs height (fuel + 1) A i =
      if i < height then
        if (cholSub sqrtF bs height i A).1 < cholBsize bs height i
        then (i + (cholSub sqrtF bs height i A).1,
          cholA1 sqrtF bs height i A)
        else if height = i + cholBsize bs height i
        then (height, cholA1 sqrtF bs height i A)
        else blockedCholeskyLoop sqrtF bs height fuel
          (blockedCholeskyTrailing (cholBsize bs height i) height i
            (cholA1 sqrtF bs height i A))
          (i + cholBsize bs height i)
      else (height, A) := rfl

lemma blockedTrailing_frame (bsize height i : Nat) (A1 : Nat → Nat → F)
    (p q : Nat) (h : p < q) :
    blockedCholeskyTrailing bsize height i A1 p q = A1 p q := by
  simp only [blockedCholeskyTrailing]
  by_cases hin : i + bsize ≤ p ∧ p < i + bsize + (height - (i + bsize)) ∧
      i + bsize ≤ q ∧ q < i + bsize + (height - (i + bsize))
  · rw [writeBack_in _ _ _ _ _ _ _ _ hin]
    rw [outer_frame _ _ _ _ _ _ _ _ (by omega : p - (i + bsize) < q - (i + bsize))]
    rw [subView_apply]
    rw [Nat.add_sub_cancel' hin.1, Nat.add_sub_cancel' hin.2.2.1]
    rw [writeBack_out _ _ _ _ _ _ _ _ (by omega)]
  · rw [writeBack_out _ _ _ _ _ _ _ _ hin]
    rw [writeBack_out _ _ _ _ _ _ _ _ (by omega)]

lemma cholA1_frame (sqrtF : F → F) (bs height i : Nat)
    (A : Nat → Nat → F) (p q : Nat) (hpq : p < q) :
    cholA1 sqrtF bs height i A p q = A p q := by
  unfold cholA1 cholSub
  by_cases hin : i ≤ p ∧ p < i + cholBsize bs height i ∧
      i ≤ q ∧ q < i + cholBsize bs height i
  · rw [writeBack_in _ _ _ _ _ _ _ _ hin]
    rw [unblockedCholesky_frame sqrtF _ _ _ _ (by omega : p - i < q - i)]
    rw [subView_apply]
    rw [Nat.add_sub_cancel' hin.1, Nat.add_sub_cancel' hin.2.2.1]
  · rw [writeBack_out _ _ _ _ _ _ _ _ hin]

lemma blockedLoop_le (sqrtF : F → F) (bs height : Nat) :
    ∀ fuel (A : Nat → Nat → F) (i : Nat),
      (blockedCholeskyLoop sqrtF bs height fuel A i).1 ≤ height := by
  intro fuel
  induction fuel with
  | zero => intro A i; exact le_rfl
  | succ fuel ih =>
    intro A i
    rw [blockedCholeskyLoop_succ]
    by_cases hih : i < height
    · rw [if_pos hih]
      by_cases h1 : (cholSub sqrtF bs height i A).1 < cholBsize bs height i
      · rw [if_pos h1]
        have hb : cholBsize bs height i ≤ height - i := Nat.min_le_left _ _
        generalize hgen : (cholSub sqrtF bs height i A).1 = s at h1 ⊢
        show i + s ≤ height
        omega
      · rw [if_neg h1]
        by_cases h2 : height = i + cholBsize bs height i
        · rw [if_pos h2]
        · rw [if_neg h2]
          exact ih _ _
    · rw [if_neg hih]

lemma blockedLoop_fail (sqrtF : F → F) (bs height : Nat) :
    ∀ fuel (A : Nat → Nat → F) (i : Nat),
      (blockedCholeskyLoop sqrtF bs height fuel A i).1 < height →
      (blockedCholeskyLoop sqrtF bs height fuel A i).2
        (blockedCholeskyLoop sqrtF bs height fuel A i).1
        (blockedCholeskyLoop sqrtF bs height fuel A i).1 ≤ 0 := by
  intro fuel
  induction fuel with
  | zero => intro A i h; exact absurd h (lt_irrefl _)
  | succ fuel ih =>
    intro A i h
    rw [blockedCholeskyLoop_succ] at h ⊢
    by_cases hih : i < height
    · rw [if_pos hih] at h ⊢
      by_cases h1 : (cholSub sqrtF bs height i A).1 < cholBsize bs height i
      · rw [if_pos h1] at h ⊢
        show cholA1 sqrtF bs height i A
          (i + (cholSub sqrtF bs height i A).1)
          (i + (cholSub sqrtF bs height i A).1) ≤ 0
        unfold cholA1
        rw [writeBack_in _ _ _ _ _ _ _ _
          ⟨Nat.le_add_right i _, Nat.add_lt_add_left h1 i,
            Nat.le_add_right i _, Nat.add_lt_add_left h1 i⟩]
        rw [Nat.add_sub_cancel_left]
        exact unblockedCholesky_fail sqrtF _ _ h1
      · rw [if_neg h1] at h ⊢
        by_cases h2 : height = i + cholBsize bs height i
        · rw [if_pos h2] at h ⊢
          exact absurd h (lt_irrefl _)
        · rw [if_neg h2] at h ⊢
          exact ih _ _ h
    · rw [if_neg hih] at h ⊢
      exact absurd h (lt_irrefl _)

lemma blockedLoop_frame (sqrtF : F → F) (bs height : Nat) :
    ∀ fuel (A : Nat → Nat → F) (i p q : Nat), p < q →
      (blockedCholeskyLoop sqrtF bs height fuel A i).2 p q = A p q := by
  intro fuel
  induction fuel with
  | zero => intro A i p q _; rfl
  | succ fuel ih =>
    intro A i p q hpq
    rw [blockedCholeskyLoop_succ]
    by_cases hih : i < height
    · rw [if_pos hih]
      by_cases h1 : (cholSub sqrtF bs height i A).1 < cholBsize bs height i
      · rw [if_pos h1]
        exact cholA1_frame sqrtF bs height i A p q hpq
      · rw [if_neg h1]
        by_cases h2 : height = i + cholBsize bs height i
        · rw [if_pos h2]
          exact cholA1_frame sqrtF bs height i A p q hpq
        · rw [if_neg h2]
          rw [ih _ _ _ _ hpq]
          rw [blockedTrailing_frame _ _ _ _ _ _ hpq]
          exact cholA1_frame sqrtF bs height i A p q hpq
    · rw [if_neg hih]

end BlockedKernelLemmas

end Catamari

namespace Catamari

/-- C3: each dense factorization kernel (unblocked lower Cholesky,
unblocked LDL-adjoint, and blocked lower Cholesky with a positive block
size) returns a number of successful pivots `r ≤ n`; on early return
(`r < n`) the diagonal entry produced at the failed column `r` is
non-positive (Cholesky) respectively zero (LDL), committed in place, and
the kernel never writes outside the lower triangle of the view (every
strictly-upper entry of the output equals the input). -/
theorem claim_C3_dense_kernels_return_pivot_counts {F : Type}
    [LinearOrderedField F] (sqrtF : F → F) (n block_size : Nat)
    (A : Nat → Nat → F) (hbs : 0 < block_size) :
    ((UnblockedLowerCholeskyFactorization sqrtF n A).1 ≤ n ∧
      ((UnblockedLowerCholeskyFactorization sqrtF n A).1 < n →
        (UnblockedLowerCholeskyFactorization sqrtF n A).2
          (UnblockedLowerCholeskyFactorization sqrtF n A).1
          (UnblockedLowerCholeskyFactorization sqrtF n A).1 ≤ 0) ∧
      (∀ p q, p < q →
        (UnblockedLowerCholeskyFactorization sqrtF n A).2 p q = A p q)) ∧
    ((LowerUnblockedLDLAdjointFactorization n A).1 ≤ n ∧
      ((LowerUnblockedLDLAdjointFactorization n A).1 < n →
        (LowerUnblockedLDLAdjointFactorization n A).2
          (LowerUnblockedLDLAdjointFactorization n A).1
          (LowerUnblockedLDLAdjointFactorization n A).1 = 0) ∧
      (∀ p q, p < q →
        (LowerUnblockedLDLAdjointFactorization n A).2 p q = A p q)) ∧
    ((BlockedLowerCholeskyFactorization sqrtF block_size n A).1 ≤ n ∧
      ((BlockedLowerCholeskyFactorization sqrtF block_size n A).1 < n →
        (BlockedLowerCholeskyFactorization sqrtF block_size n A).2
          (BlockedLowerCholeskyFactorization sqrtF block_size n A).1
          (BlockedLowerCholeskyFactorization sqrtF block_size n A).1 ≤ 0) ∧
      (∀ p q, p < q →
        (BlockedLowerCholeskyFactorization sqrtF block_size n A).2 p q =
          A p q)) := by
  refine ⟨⟨unblockedCholesky_le sqrtF n A, unblockedCholesky_fail sqrtF n A,
      fun p q h => unblockedCholesky_frame sqrtF n A p q h⟩,
    ⟨unblockedLDL_le n A, unblockedLDL_fail n A,
      fun p q h => unblockedLDL_frame n A p q h⟩,
    ⟨blockedLoop_le sqrtF block_size n n A 0,
      blockedLoop_fail sqrtF block_size n n A 0,
      fun p q h => blockedLoop_frame sqrtF block_size n n A 0 p q h⟩⟩

/-- Witness for C3: the kernels applied to the 1-by-1 rational matrix
`[[4]]` with block size 1 satisfy the pivot-count conclusion. -/
theorem claim_C3_witness :
    0 < 1 ∧
    (((UnblockedLowerCholeskyFactorization (fun x : ℚ => x) 1
        (fun _ _ => (4 : ℚ))).1 ≤ 1 ∧
      ((UnblockedLowerCholeskyFactorization (fun x : ℚ => x) 1
          (fun _ _ => (4 : ℚ))).1 < 1 →
        (UnblockedLowerCholeskyFactorization (fun x : ℚ => x) 1
          (fun _ _ => (4 : ℚ))).2
          (UnblockedLowerCholeskyFactorization (fun x : ℚ => x) 1
            (fun _ _ => (4 : ℚ))).1
          (UnblockedLowerCholeskyFactorization (fun x : ℚ => x) 1
            (fun _ _ => (4 : ℚ))).1 ≤ 0) ∧
      (∀ p q, p < q →
        (UnblockedLowerCholeskyFactorization (fun x : ℚ => x) 1
          (fun _ _ => (4 : ℚ))).2 p q = (4 : ℚ))) ∧
    ((LowerUnblockedLDLAdjointFactorization 1 (fun _ _ => (4 : ℚ))).1 ≤ 1 ∧
      ((LowerUnblockedLDLAdjointFactorization 1 (fun _ _ => (4 : ℚ))).1 < 1 →
        (LowerUnblockedLDLAdjointFactorization 1 (fun _ _ => (4 : ℚ))).2
          (LowerUnblockedLDLAdjointFactorization 1 (fun _ _ => (4 : ℚ))).1
          (LowerUnblockedLDLAdjointFactorization 1
            (fun _ _ => (4 : ℚ))).1 = 0) ∧
      (∀ p q, p < q →
        (LowerUnblockedLDLAdjointFactorization 1 (fun _ _ => (4 : ℚ))).2 p q =
          (4 : ℚ))) ∧
    ((BlockedLowerCholeskyFactorization (fun x : ℚ => x) 1 1
        (fun _ _ => (4 : ℚ))).1 ≤ 1 ∧
      ((BlockedLowerCholeskyFactorization (fun x : ℚ => x) 1 1
          (fun _ _ => (4 : ℚ))).1 < 1 →
        (BlockedLowerCholeskyFactorization (fun x : ℚ => x) 1 1
          (fun _ _ => (4 : ℚ))).2
          (BlockedLowerCholeskyFactorization (fun x : ℚ => x) 1 1
            (fun _ _ => (4 : ℚ))).1
          (BlockedLowerCholeskyFactorization (fun x : ℚ => x) 1 1
            (fun _ _ => (4 : ℚ))).1 ≤ 0) ∧
      (∀ p q, p < q →
        (BlockedLowerCholeskyFactorization (fun x : ℚ => x) 1 1
          (fun _ _ => (4 : ℚ))).2 p q = (4 : ℚ)))) :=
  ⟨by decide, claim_C3_dense_kernels_return_pivot_counts (fun x : ℚ => x) 1 1
    (fun _ _ => (4 : ℚ)) (by decide)⟩

end Catamari

namespace Catamari

section DynRegLemmas

variable {F : Type} [LinearOrderedField F]

lemma dynRegCholeskyLoop_succ (sqrtF : F → F)
    (params : DynamicRegularizationParams F) (height fuel : Nat)
    (A : Nat → Nat → F) (i : Nat) (reg : List (Nat × F)) :
    dynRegCholeskyLoop sqrtF params height (fuel + 1) A i reg =
      if A i i ≤ -params.positive_threshold then (i, A, reg)
      else dynRegCholeskyLoop sqrtF params height fuel
        ((List.range' (i + 1) (height - (i + 1))).foldl
          (fun B j =>
            (List.range' j (height - j)).foldl
              (fun C k => updEntry C k j (C k j - C k i * B j i)) B)
          ((List.range' (i + 1) (height - (i + 1))).foldl
            (fun B k => updEntry B k i (B k i /
              sqrtF (if A i i < params.positive_threshold
                then params.positive_threshold else A i i)))
            (updEntry A i i
              (sqrtF (if A i i < params.positive_threshold
                then params.positive_threshold else A i i)))))
        (i + 1)
        (if A i i < params.positive_threshold
          then reg ++ [(origIndexOf params i,
            params.positive_threshold - A i i)]
          else reg) := rfl

end DynRegLemmas

end Catamari

namespace Catamari

section DynRegLemmas2

variable {F : Type} [LinearOrderedField F]

lemma dynRegLoop_le (sqrtF : F → F)
    (params : DynamicRegularizationParams F) (height : Nat) :
    ∀ fuel (A : Nat → Nat → F) (i : Nat) (reg : List (Nat × F)),
      (dynRegCholeskyLoop sqrtF params height fuel A i reg).1 ≤ i + fuel := by
  intro fuel
  induction fuel with
  | zero => intro A i reg; exact Nat.le_refl _
  | succ fuel ih =>
    intro A i reg
    rw [dynRegCholeskyLoop_succ]
    by_cases hd : A i i ≤ -params.positive_threshold
    · rw [if_pos hd]
      show i ≤ i + (fuel + 1)
      omega
    · rw [if_neg hd]
      refine le_trans (ih _ (i + 1) _) ?_
      omega

lemma dynRegLoop_fail (sqrtF : F → F)
    (params : DynamicRegularizationParams F) (height : Nat) :
    ∀ fuel (A : Nat → Nat → F) (i : Nat) (reg : List (Nat × F)),
      (dynRegCholeskyLoop sqrtF params height fuel A i reg).1 < i + fuel →
      (dynRegCholeskyLoop sqrtF params height fuel A i reg).2.1
        (dynRegCholeskyLoop sqrtF params height fuel A i reg).1
        (dynRegCholeskyLoop sqrtF params height fuel A i reg).1 ≤
        -params.positive_threshold := by
  intro fuel
  induction fuel with
  | zero =>
    intro A i reg h
    exact absurd h (by exact Nat.lt_irrefl _)
  | succ fuel ih =>
    intro A i reg h
    rw [dynRegCholeskyLoop_succ] at h ⊢
    by_cases hd : A i i ≤ -params.positive_threshold
    · rw [if_pos hd] at h ⊢
      exact hd
    · rw [if_neg hd] at h ⊢
      apply ih
      have heq : i + (fuel + 1) = i + 1 + fuel := by ring
      rw [← heq]
      exact h

lemma dynRegLoop_log (sqrtF : F → F)
    (params : DynamicRegularizationParams F) (height : Nat) :
    ∀ fuel (A : Nat → Nat → F) (i : Nat) (reg : List (Nat × F)),
      (∀ x ∈ reg, 0 < x.2 ∧ x.2 < 2 * params.positive_threshold) →
      ∀ x ∈ (dynRegCholeskyLoop sqrtF params height fuel A i reg).2.2,
        0 < x.2 ∧ x.2 < 2 * params.positive_threshold := by
  intro fuel
  induction fuel with
  | zero => intro A i reg hreg; exact hreg
  | succ fuel ih =>
    intro A i reg hreg
    rw [dynRegCholeskyLoop_succ]
    by_cases hd : A i i ≤ -params.positive_threshold
    · rw [if_pos hd]
      exact hreg
    · rw [if_neg hd]
      refine ih _ (i + 1) _ ?_
      by_cases hs : A i i < params.positive_threshold
      · rw [if_pos hs]
        intro x hx
        rcases List.mem_append.mp hx with hx | hx
        · exact hreg x hx
        · have hx' : x = (origIndexOf params i,
              params.positive_threshold - A i i) := by
            simpa using hx
          subst hx'
          constructor
          · simp only []
            linarith
          · simp only []
            push_neg at hd
            linarith
      · rw [if_neg hs]
        exact hreg

end DynRegLemmas2

/-- C4 (amended): for the dynamically regularized Cholesky kernel, a
pivot `delta` with `-positive_threshold < delta < positive_threshold` is
shifted up to `positive_threshold` with `(orig_index,
positive_threshold - delta)` appended to the log and elimination
proceeds, but a pivot `delta ≤ -positive_threshold` makes the kernel
return early (so the factorization does NOT always complete), and each
logged shift is strictly between `0` and `2 * positive_threshold` (not
bounded by the threshold itself): the kernel returns `r ≤ n` pivots, on
early return the failed pivot is `≤ -positive_threshold`, and every log
entry's shift lies in `(0, 2 * positive_threshold)`. -/
theorem claim_C4_regularized_shift_bounds_and_early_return {F : Type}
    [LinearOrderedField F] (sqrtF : F → F)
    (params : DynamicRegularizationParams F) (n : Nat)
    (A : Nat → Nat → F) :
    (UnblockedDynamicallyRegularizedLowerCholeskyFactorization sqrtF params
        n A).1 ≤ n ∧
    ((UnblockedDynamicallyRegularizedLowerCholeskyFactorization sqrtF params
        n A).1 < n →
      (UnblockedDynamicallyRegularizedLowerCholeskyFactorization sqrtF params
        n A).2.1
        (UnblockedDynamicallyRegularizedLowerCholeskyFactorization sqrtF
          params n A).1
        (UnblockedDynamicallyRegularizedLowerCholeskyFactorization sqrtF
          params n A).1 ≤ -params.positive_threshold) ∧
    (∀ x ∈ (UnblockedDynamicallyRegularizedLowerCholeskyFactorization sqrtF
        params n A).2.2,
      0 < x.2 ∧ x.2 < 2 * params.positive_threshold) := by
  refine ⟨?_, ?_, ?_⟩
  · have h := dynRegLoop_le sqrtF params n n A 0 []
    rw [Nat.zero_add] at h
    exact h
  · intro h
    have h' : (dynRegCholeskyLoop sqrtF params n n A 0 []).1 < 0 + n := by
      rw [Nat.zero_add]
      exact h
    exact dynRegLoop_fail sqrtF params n n A 0 [] h'
  · exact dynRegLoop_log sqrtF params n n A 0 [] (by intro x hx; simp at hx)

/-- Counterexample for C4: with regularization enabled (threshold 1), the
1-by-1 matrix `[[-2]]` fails at column 0 (the factorization does not
always complete), and the 1-by-1 matrix `[[-1/2]]` completes with logged
shift `3/2`, which exceeds the configured threshold `1`. -/
theorem claim_C4_counterexample :
    (UnblockedDynamicallyRegularizedLowerCholeskyFactorization
        (fun x : ℚ => x) exampleParamsC4 1 (fun _ _ => (-2 : ℚ))).1 = 0 ∧
    (UnblockedDynamicallyRegularizedLowerCholeskyFactorization
        (fun x : ℚ => x) exampleParamsC4 1 (fun _ _ => (-1/2 : ℚ))).2.2 =
      [(0, (3/2 : ℚ))] ∧
    exampleParamsC4.positive_threshold < (3/2 : ℚ) := by
  refine ⟨?_, ?_, by norm_num [exampleParamsC4]⟩
  · show (dynRegCholeskyLoop (fun x : ℚ => x) exampleParamsC4 1 (0 + 1)
      (fun _ _ => (-2 : ℚ)) 0 []).1 = 0
    rw [dynRegCholeskyLoop_succ]
    rw [if_pos (by norm_num [exampleParamsC4])]
  · show (dynRegCholeskyLoop (fun x : ℚ => x) exampleParamsC4 1 (0 + 1)
      (fun _ _ => (-1/2 : ℚ)) 0 []).2.2 = [(0, (3/2 : ℚ))]
    rw [dynRegCholeskyLoop_succ]
    rw [if_neg (by norm_num [exampleParamsC4])]
    rw [if_pos (by norm_num [exampleParamsC4])]
    simp only [dynRegCholeskyLoop]
    simp [origIndexOf, exampleParamsC4]
    norm_num

end Catamari

namespace Catamari

lemma bget_bset_self (l : List Int) (i v : Int) (h : i.toNat < l.length) :
    bget (bset l i v) i = v := by
  unfold bget bset
  rw [List.getD_eq_getElem?_getD, List.getElem?_set_self]
  · rfl
  · exact h

lemma bget_bset_toNat_ne (l : List Int) (i v j : Int)
    (h : i.toNat ≠ j.toNat) : bget (bset l i v) j = bget l j := by
  unfold bget bset
  rw [List.getD_eq_getElem?_getD, List.getD_eq_getElem?_getD,
    List.getElem?_set_ne h]

lemma bget_neg_one_bound (l : List Int) (i : Int) (h : bget l i = -1) :
    i.toNat < l.length := by
  by_contra hc
  push_neg at hc
  rw [bget, List.getD_eq_default _ _ hc] at h
  exact absurd h (by decide)

lemma filter_length_mono {α : Type} (p q : α → Bool) :
    ∀ (l : List α), (∀ x ∈ l, q x = true → p x = true) →
      (l.filter q).length ≤ (l.filter p).length := by
  intro l
  induction l with
  | nil => intro _; exact Nat.le_refl _
  | cons y ys ih =>
    intro h
    have hys := ih (fun x hx => h x (List.mem_cons_of_mem y hx))
    by_cases hq : q y = true
    · have hp := h y (List.mem_cons_self y ys) hq
      rw [List.filter_cons, List.filter_cons, if_pos hq, if_pos hp]
      simp only [List.length_cons]
      exact Nat.succ_le_succ hys
    · rw [List.filter_cons, List.filter_cons, if_neg hq]
      by_cases hp : p y = true
      · rw [if_pos hp]
        simp only [List.length_cons]
        exact Nat.le_succ_of_le hys
      · rw [if_neg hp]
        exact hys

lemma filter_length_lt {α : Type} (p q : α → Bool) :
    ∀ (l : List α), (∀ x ∈ l, q x = true → p x = true) →
      ∀ x0 ∈ l, p x0 = true → q x0 = false →
      (l.filter q).length < (l.filter p).length := by
  intro l
  induction l with
  | nil => intro _ x0 hx0; exact absurd hx0 (List.not_mem_nil x0)
  | cons y ys ih =>
    intro h x0 hx0 hp hq
    rcases List.mem_cons.mp hx0 with rfl | hx0'
    · rw [List.filter_cons, List.filter_cons, if_pos hp,
        if_neg (by rw [hq]; exact Bool.false_ne_true)]
      have hmono := filter_length_mono p q ys
        (fun x hx => h x (List.mem_cons_of_mem _ hx))
      simp only [List.length_cons]
      exact Nat.lt_succ_of_le hmono
    · have hys := ih (fun x hx => h x (List.mem_cons_of_mem y hx)) x0 hx0' hp hq
      by_cases hqy : q y = true
      · have hpy := h y (List.mem_cons_self y ys) hqy
        rw [List.filter_cons, List.filter_cons, if_pos hqy, if_pos hpy]
        simp only [List.length_cons]
        exact Nat.succ_lt_succ hys
      · rw [List.filter_cons, List.filter_cons, if_neg hqy]
        by_cases hpy : p y = true
        · rw [if_pos hpy]
          simp only [List.length_cons]
          exact Nat.lt_succ_of_le (le_of_lt hys)
        · rw [if_neg hpy]
          exact hys

lemma foldl_max_mem {α : Type} (key : α → Int) :
    ∀ (l : List α) (acc : α),
      l.foldl (fun b m => if key b < key m then m else b) acc ∈ acc :: l := by
  intro l
  induction l with
  | nil => intro acc; exact List.mem_singleton.mpr rfl
  | cons x xs ih =>
    intro acc
    rw [List.foldl_cons]
    rcases List.mem_cons.mp (ih (if key acc < key x then x else acc)) with h | h
    · by_cases hc : key acc < key x
      · rw [if_pos hc] at h ⊢
        rw [h]
        exact List.mem_cons_of_mem _ (List.mem_cons_self _ _)
      · rw [if_neg hc] at h ⊢
        rw [h]
        exact List.mem_cons_self _ _
    · exact List.mem_cons_of_mem _ (List.mem_cons_of_mem _ h)

lemma foldl_max_ge {α : Type} (key : α → Int) :
    ∀ (l : List α) (acc : α),
      key acc ≤
        key (l.foldl (fun b m => if key b < key m then m else b) acc) ∧
      ∀ m ∈ l, key m ≤
        key (l.foldl (fun b m => if key b < key m then m else b) acc) := by
  intro l
  induction l with
  | nil =>
    intro acc
    exact ⟨le_rfl, by intro m hm; exact absurd hm (List.not_mem_nil m)⟩
  | cons x xs ih =>
    intro acc
    rw [List.foldl_cons]
    obtain ⟨h1, h2⟩ := ih (if key acc < key x then x else acc)
    constructor
    · refine le_trans ?_ h1
      by_cases hc : key acc < key x
      · rw [if_pos hc]
        exact le_of_lt hc
      · rw [if_neg hc]
    · intro m hm
      rcases List.mem_cons.mp hm with rfl | hm'
      · refine le_trans ?_ h1
        by_cases hc : key acc < key m
        · rw [if_pos hc]
        · rw [if_neg hc]
          push_neg at hc
          exact hc
      · exact h2 m hm'

lemma selectLargest_mem (children : List Int) (child_beg : Int)
    (sizes : List Int) (m0 : Nat × Int) (rest : List (Nat × Int)) :
    selectLargest children child_beg sizes m0 rest ∈ m0 :: rest :=
  foldl_max_mem (mergeKey children child_beg sizes) rest m0

lemma selectLargest_max (children : List Int) (child_beg : Int)
    (sizes : List Int) (m0 : Nat × Int) (rest : List (Nat × Int)) :
    ∀ m ∈ m0 :: rest,
      mergeKey children child_beg sizes m ≤
        mergeKey children child_beg sizes
          (selectLargest children child_beg sizes m0 rest) := by
  intro m hm
  obtain ⟨h1, h2⟩ := foldl_max_ge (mergeKey children child_beg sizes) rest m0
  rcases List.mem_cons.mp hm with rfl | hm'
  · exact h1
  · exact h2 m hm'

end Catamari

namespace Catamari

lemma mem_mergableChildrenList (parent : Int)
    (starts sizes m2i children : List Int) (child_beg num_children : Int)
    (S : LowerStructure) (control : SupernodalRelaxationControl)
    (st : MergeState) (m : Nat × Int)
    (hm : m ∈ mergableChildrenList parent starts sizes m2i children
      child_beg num_children S control st) :
    m.1 < num_children.toNat ∧
    bget st.merge_parents
      (bget children (child_beg + (m.1 : Int))) = -1 := by
  simp only [mergableChildrenList, List.mem_filterMap] at hm
  obtain ⟨a, ha, hfa⟩ := hm
  by_cases h1 : bget st.merge_parents
      (bget children (child_beg + (a : Int))) = -1
  · rw [if_pos h1] at hfa
    by_cases h2 : (MergableSupernode
        (bget starts (bget children (child_beg + (a : Int))) +
          bget sizes (bget children (child_beg + (a : Int))) - 1)
        (bget starts parent + bget sizes parent - 1)
        (bget st.supernode_sizes (bget children (child_beg + (a : Int))))
        (bget st.supernode_sizes parent)
        (bget st.num_explicit_zeros (bget children (child_beg + (a : Int))))
        (bget st.num_explicit_zeros parent) m2i S control).mergable = true
    · rw [if_pos h2] at hfa
      have hma : m.1 = a := by
        rw [← Option.some_inj.mp hfa]
      rw [hma]
      exact ⟨List.mem_range.mp ha, h1⟩
    · rw [if_neg h2] at hfa
      exact absurd hfa (by simp)
  · rw [if_neg h1] at hfa
    exact absurd hfa (by simp)

lemma countUnmerged_applyMerge_lt (parent : Int)
    (starts sizes m2i children : List Int) (child_beg num_children : Int)
    (S : LowerStructure) (control : SupernodalRelaxationControl)
    (st : MergeState) (m : Nat × Int) (hpar : 0 ≤ parent)
    (hm : m ∈ mergableChildrenList parent starts sizes m2i children
      child_beg num_children S control st) :
    countUnmerged children child_beg num_children
      (applyMerge parent children child_beg st m) <
      countUnmerged children child_beg num_children st := by
  obtain ⟨hlt, hunm⟩ := mem_mergableChildrenList parent starts sizes m2i
    children child_beg num_children S control st m hm
  have hbound := bget_neg_one_bound _ _ hunm
  have hval : bget (applyMerge parent children child_beg st m).merge_parents
      (bget children (child_beg + (m.1 : Int))) ≠ -1 := by
    show bget (bset st.merge_parents
      (bget children (child_beg + (m.1 : Int)))
      (if bget st.last_merged_child parent = -1 then parent
        else bget st.last_merged_child parent))
      (bget children (child_beg + (m.1 : Int))) ≠ -1
    rw [bget_bset_self _ _ _ hbound]
    by_cases hl : bget st.last_merged_child parent = -1
    · rw [if_pos hl]
      omega
    · rw [if_neg hl]
      exact hl
  unfold countUnmerged
  have himp : ∀ a ∈ List.range num_children.toNat,
      (decide (bget (applyMerge parent children child_beg st m).merge_parents
        (bget children (child_beg + (a : Int))) = -1)) = true →
      (decide (bget st.merge_parents
        (bget children (child_beg + (a : Int))) = -1)) = true := by
    intro a _ hq
    rw [decide_eq_true_eq] at hq ⊢
    by_cases hee : (bget children (child_beg + ((m.1 : Nat) : Int))).toNat =
        (bget children (child_beg + (a : Int))).toNat
    · exfalso
      apply hval
      rw [show (applyMerge parent children child_beg st m).merge_parents =
        bset st.merge_parents (bget children (child_beg + (m.1 : Int)))
          (if bget st.last_merged_child parent = -1 then parent
            else bget st.last_merged_child parent) from rfl] at hq ⊢
      unfold bget bset at hq ⊢
      unfold bget at hee
      rw [← hee] at hq
      exact hq
    · rw [show (applyMerge parent children child_beg st m).merge_parents =
        bset st.merge_parents (bget children (child_beg + (m.1 : Int)))
          (if bget st.last_merged_child parent = -1 then parent
            else bget st.last_merged_child parent) from rfl] at hq
      rw [bget_bset_toNat_ne _ _ _ _ hee] at hq
      exact hq
  exact filter_length_lt _ _ _ himp m.1 (List.mem_range.mpr hlt)
    (by rw [decide_eq_true_eq]; exact hunm)
    (by rw [decide_eq_false_iff_not]; exact hval)

end Catamari

namespace Catamari

lemma mergableChildrenList_eq_nil_of_count (parent : Int)
    (starts sizes m2i children : List Int) (child_beg num_children : Int)
    (S : LowerStructure) (control : SupernodalRelaxationControl)
    (st : MergeState)
    (h : countUnmerged children child_beg num_children st = 0) :
    mergableChildrenList parent starts sizes m2i children child_beg
      num_children S control st = [] := by
  unfold countUnmerged at h
  rw [List.length_eq_zero] at h
  have hall := List.filter_eq_nil_iff.mp h
  unfold mergableChildrenList
  rw [List.filterMap_eq_nil_iff]
  intro a ha
  have hnot := hall a ha
  rw [decide_eq_true_eq] at hnot
  simp only []
  rw [if_neg hnot]

lemma mergeChildrenLoop_stops (parent : Int)
    (starts sizes m2i children : List Int) (child_beg num_children : Int)
    (S : LowerStructure) (control : SupernodalRelaxationControl) :
    ∀ fuel (st : MergeState),
      mergableChildrenList parent starts sizes m2i children child_beg
        num_children S control st = [] →
      mergeChildrenLoop parent starts sizes m2i children child_beg
        num_children S control fuel st = st := by
  intro fuel
  cases fuel with
  | zero => intro st _; rfl
  | succ fuel =>
    intro st h
    simp only [mergeChildrenLoop]
    split
    · rfl
    · rename_i m0 rest heq
      rw [h] at heq
      exact absurd heq (by simp)

lemma mergeChildrenLoop_exhausts (parent : Int)
    (starts sizes m2i children : List Int) (child_beg num_children : Int)
    (S : LowerStructure) (control : SupernodalRelaxationControl)
    (hpar : 0 ≤ parent) :
    ∀ fuel (st : MergeState),
      countUnmerged children child_beg num_children st ≤ fuel →
      mergableChildrenList parent starts sizes m2i children child_beg
        num_children S control
        (mergeChildrenLoop parent starts sizes m2i children child_beg
          num_children S control fuel st) = [] := by
  intro fuel
  induction fuel with
  | zero =>
    intro st h
    exact mergableChildrenList_eq_nil_of_count parent starts sizes m2i
      children child_beg num_children S control st (Nat.le_zero.mp h)
  | succ fuel ih =>
    intro st h
    simp only [mergeChildrenLoop]
    split
    · rename_i heq
      exact heq
    · rename_i m0 rest heq
      refine ih _ ?_
      have hsel : selectLargest children child_beg st.supernode_sizes m0
          rest ∈ mergableChildrenList parent starts sizes m2i children
            child_beg num_children S control st := by
        rw [heq]
        exact selectLargest_mem children child_beg st.supernode_sizes m0 rest
      have hdec := countUnmerged_applyMerge_lt parent starts sizes m2i
        children child_beg num_children S control st _ hpar hsel
      exact Nat.le_of_lt_succ (Nat.lt_of_lt_of_le hdec h)

lemma MergableSupernode_spec (child_tail parent_tail child_size parent_size
    ncz npz : Int) (m2i : List Int) (S : LowerStructure)
    (control : SupernodalRelaxationControl) :
    (MergableSupernode child_tail parent_tail child_size parent_size ncz
        npz m2i S control).num_merged_zeros =
      ((parent_size -
          intersectionCount m2i S child_tail (bget m2i parent_tail)) +
        (degreeOf S parent_tail -
          (degreeOf S child_tail -
            intersectionCount m2i S child_tail (bget m2i parent_tail)))) *
        child_size + (ncz + npz) ∧
    ((MergableSupernode child_tail parent_tail child_size parent_size ncz
        npz m2i S control).mergable = true ↔
      ((MergableSupernode child_tail parent_tail child_size parent_size ncz
          npz m2i S control).num_merged_zeros ≤
        control.allowable_supernode_zeros ∨
      (((MergableSupernode child_tail parent_tail child_size parent_size
          ncz npz m2i S control).num_merged_zeros : ℚ) ≤
        control.allowable_supernode_zero_ratio *
          ((numExpandedEntries child_size parent_size
            (degreeOf S child_tail -
              intersectionCount m2i S child_tail (bget m2i parent_tail))
            (degreeOf S parent_tail) : Int) : ℚ)))) := by
  simp only [MergableSupernode]
  by_cases h1 : ((parent_size -
        intersectionCount m2i S child_tail (bget m2i parent_tail)) +
      (degreeOf S parent_tail -
        (degreeOf S child_tail -
          intersectionCount m2i S child_tail (bget m2i parent_tail)))) *
      child_size + (ncz + npz) ≤ control.allowable_supernode_zeros
  · rw [if_pos h1]
    exact ⟨rfl, by simp [h1]⟩
  · rw [if_neg h1]
    by_cases h2 : ((((parent_size -
          intersectionCount m2i S child_tail (bget m2i parent_tail)) +
        (degreeOf S parent_tail -
          (degreeOf S child_tail -
            intersectionCount m2i S child_tail (bget m2i parent_tail)))) *
        child_size + (ncz + npz) : Int) : ℚ) ≤
        control.allowable_supernode_zero_ratio *
          ((numExpandedEntries child_size parent_size
            (degreeOf S child_tail -
              intersectionCount m2i S child_tail (bget m2i parent_tail))
            (degreeOf S parent_tail) : Int) : ℚ)
    · rw [if_pos h2]
      exact ⟨rfl, iff_of_true rfl (Or.inr h2)⟩
    · rw [if_neg h2]
      exact ⟨rfl, iff_of_false Bool.false_ne_true (fun h => h.elim h1 h2)⟩

end Catamari

namespace Catamari

/-- C6: during supernode relaxation (i) a candidate merge's explicit-zero
count is `(missing_intersections + missing_structure) * child_size` new
zeros plus the children's pre-existing zeros, and it is accepted exactly
when that count meets the absolute allowance or the relative (ratio)
allowance; (ii) the merged child selected each round is a mergable child
of largest size (first among ties); (iii) the loop stops when no mergable
child remains; and (iv) after `MergeChildren` finishes, no mergable child
of the parent remains. -/
theorem claim_C6_supernode_merge_relaxation (parent : Int)
    (starts sizes m2i children offsets : List Int) (S : LowerStructure)
    (control : SupernodalRelaxationControl) (st : MergeState)
    (hpar : 0 ≤ parent) :
    (∀ child_tail parent_tail child_size parent_size ncz npz : Int,
      (MergableSupernode child_tail parent_tail child_size parent_size ncz
          npz m2i S control).num_merged_zeros =
        ((parent_size -
            intersectionCount m2i S child_tail (bget m2i parent_tail)) +
          (degreeOf S parent_tail -
            (degreeOf S child_tail -
              intersectionCount m2i S child_tail (bget m2i parent_tail)))) *
          child_size + (ncz + npz) ∧
      ((MergableSupernode child_tail parent_tail child_size parent_size ncz
          npz m2i S control).mergable = true ↔
        ((MergableSupernode child_tail parent_tail child_size parent_size
            ncz npz m2i S control).num_merged_zeros ≤
          control.allowable_supernode_zeros ∨
        (((MergableSupernode child_tail parent_tail child_size parent_size
            ncz npz m2i S control).num_merged_zeros : ℚ) ≤
          control.allowable_supernode_zero_ratio *
            ((numExpandedEntries child_size parent_size
              (degreeOf S child_tail -
                intersectionCount m2i S child_tail (bget m2i parent_tail))
              (degreeOf S parent_tail) : Int) : ℚ))))) ∧
    (∀ (szs : List Int) (m0 : Nat × Int) (rest : List (Nat × Int)),
      selectLargest children (bget offsets parent) szs m0 rest ∈
        m0 :: rest ∧
      ∀ m ∈ m0 :: rest,
        mergeKey children (bget offsets parent) szs m ≤
          mergeKey children (bget offsets parent) szs
            (selectLargest children (bget offsets parent) szs m0 rest)) ∧
    (mergableChildrenList parent starts sizes m2i children
        (bget offsets parent)
        (bget offsets (parent + 1) - bget offsets parent) S control st =
        [] →
      MergeChildren parent starts sizes m2i children offsets S control st =
        st) ∧
    mergableChildrenList parent starts sizes m2i children
      (bget offsets parent)
      (bget offsets (parent + 1) - bget offsets parent) S control
      (MergeChildren parent starts sizes m2i children offsets S control
        st) = [] := by
  refine ⟨?_, ?_, ?_, ?_⟩
  · intro child_tail parent_tail child_size parent_size ncz npz
    exact MergableSupernode_spec child_tail parent_tail child_size
      parent_size ncz npz m2i S control
  · intro szs m0 rest
    exact ⟨selectLargest_mem children (bget offsets parent) szs m0 rest,
      selectLargest_max children (bget offsets parent) szs m0 rest⟩
  · intro h
    exact mergeChildrenLoop_stops parent starts sizes m2i children
      (bget offsets parent)
      (bget offsets (parent + 1) - bget offsets parent) S control _ st h
  · refine mergeChildrenLoop_exhausts parent starts sizes m2i children
      (bget offsets parent)
      (bget offsets (parent + 1) - bget offsets parent) S control hpar _
      st ?_
    unfold countUnmerged
    refine le_trans (List.length_filter_le _ _) ?_
    rw [List.length_range]

/-- Witness for C6: the merge-relaxation conclusions hold for parent 1
with single child 0 on the two-supernode fixture. -/
theorem claim_C6_witness :
    (0 : Int) ≤ 1 ∧
    ((∀ child_tail parent_tail child_size parent_size ncz npz : Int,
      (MergableSupernode child_tail parent_tail child_size parent_size ncz
          npz [0, 1] exampleC6Structure exampleC6Control).num_merged_zeros =
        ((parent_size - intersectionCount [0, 1] exampleC6Structure
            child_tail (bget [0, 1] parent_tail)) +
          (degreeOf exampleC6Structure parent_tail -
            (degreeOf exampleC6Structure child_tail -
              intersectionCount [0, 1] exampleC6Structure child_tail
                (bget [0, 1] parent_tail)))) * child_size + (ncz + npz) ∧
      ((MergableSupernode child_tail parent_tail child_size parent_size ncz
          npz [0, 1] exampleC6Structure exampleC6Control).mergable = true ↔
        ((MergableSupernode child_tail parent_tail child_size parent_size
            ncz npz [0, 1] exampleC6Structure
            exampleC6Control).num_merged_zeros ≤
          exampleC6Control.allowable_supernode_zeros ∨
        (((MergableSupernode child_tail parent_tail child_size parent_size
            ncz npz [0, 1] exampleC6Structure
            exampleC6Control).num_merged_zeros : ℚ) ≤
          exampleC6Control.allowable_supernode_zero_ratio *
            ((numExpandedEntries child_size parent_size
              (degreeOf exampleC6Structure child_tail -
                intersectionCount [0, 1] exampleC6Structure child_tail
                  (bget [0, 1] parent_tail))
              (degreeOf exampleC6Structure parent_tail) : Int) : ℚ))))) ∧
    (∀ (szs : List Int) (m0 : Nat × Int) (rest : List (Nat × Int)),
      selectLargest [0] (bget [0, 0, 1] 1) szs m0 rest ∈ m0 :: rest ∧
      ∀ m ∈ m0 :: rest,
        mergeKey [0] (bget [0, 0, 1] 1) szs m ≤
          mergeKey [0] (bget [0, 0, 1] 1) szs
            (selectLargest [0] (bget [0, 0, 1] 1) szs m0 rest)) ∧
    (mergableChildrenList 1 [0, 1] [1, 1] [0, 1] [0] (bget [0, 0, 1] 1)
        (bget [0, 0, 1] 2 - bget [0, 0, 1] 1) exampleC6Structure
        exampleC6Control exampleC6State = [] →
      MergeChildren 1 [0, 1] [1, 1] [0, 1] [0] [0, 0, 1]
        exampleC6Structure exampleC6Control exampleC6State =
        exampleC6State) ∧
    mergableChildrenList 1 [0, 1] [1, 1] [0, 1] [0] (bget [0, 0, 1] 1)
      (bget [0, 0, 1] 2 - bget [0, 0, 1] 1) exampleC6Structure
      exampleC6Control
      (MergeChildren 1 [0, 1] [1, 1] [0, 1] [0] [0, 0, 1]
        exampleC6Structure exampleC6Control exampleC6State) = []) :=
  ⟨by decide, claim_C6_supernode_merge_relaxation 1 [0, 1] [1, 1] [0, 1]
    [0] [0, 0, 1] exampleC6Structure exampleC6Control exampleC6State
    (by decide)⟩

end Catamari

namespace Catamari

lemma foldl_bind_eq {α β γ : Type} (g : β → List α) (f : γ → α → γ) :
    ∀ (l : List β) (init : γ),
      (l.bind g).foldl f init =
        l.foldl (fun acc x => (g x).foldl f acc) init := by
  intro l
  induction l with
  | nil => intro init; rfl
  | cons x xs ih =>
    intro init
    rw [show (x :: xs).bind g = g x ++ xs.bind g from rfl,
      List.foldl_append, ih, List.foldl_cons]

namespace Factorization

variable {F : Type} [Field F]

lemma forwardRecursion_eq_foldl (fact : Factorization F) :
    ∀ fuel (s : Int) (B : Nat → Nat → F),
      fact.LowerTriangularSolveRecursion fuel s B =
        (fact.forwardOrder fuel s).foldl
          (fun C u => fact.LowerSupernodalTrapezoidalSolve u C) B := by
  intro fuel
  induction fuel with
  | zero => intro s B; rfl
  | succ fuel ih =>
    intro s B
    simp only [LowerTriangularSolveRecursion, forwardOrder]
    rw [List.foldl_append, List.foldl_cons, List.foldl_nil]
    rw [foldl_bind_eq]
    have hfun : (fun (C : Nat → Nat → F) (c : Int) =>
        fact.LowerTriangularSolveRecursion fuel c C) =
        (fun C c => (fact.forwardOrder fuel c).foldl
          (fun C u => fact.LowerSupernodalTrapezoidalSolve u C) C) := by
      funext C c
      exact ih c C
    rw [hfun]

lemma backwardRecursion_eq_foldl (fact : Factorization F) :
    ∀ fuel (s : Int) (B : Nat → Nat → F),
      fact.LowerTransposeTriangularSolveRecursion fuel s B =
        (fact.backwardOrder fuel s).foldl
          (fun C u => fact.LowerTransposeSupernodalTrapezoidalSolve u C)
          B := by
  intro fuel
  induction fuel with
  | zero => intro s B; rfl
  | succ fuel ih =>
    intro s B
    simp only [LowerTransposeTriangularSolveRecursion, backwardOrder]
    rw [List.foldl_cons]
    rw [foldl_bind_eq]
    have hfun : (fun (C : Nat → Nat → F) (c : Int) =>
        fact.LowerTransposeTriangularSolveRecursion fuel c C) =
        (fun C c => (fact.backwardOrder fuel c).foldl
          (fun C u => fact.LowerTransposeSupernodalTrapezoidalSolve u C)
          C) := by
      funext C c
      exact ih c C
    rw [hfun]

end Factorization

/-- C7: the supernodal `Solve` is, in order, the row permutation by
`perm` (when present), the forward sweep, the diagonal solve, the
backward sweep, and the row permutation by `iperm` (when present);
the forward sweep processes the supernodes in `forwardOrder`, in which
every node of every child's subtree is visited before the supernode
itself; the backward sweep processes the supernodes in `backwardOrder`,
which visits each supernode before its children's subtrees; the
per-supernode kernel is the non-unit lower solve exactly for the
Cholesky variant (unit-lower for the LDL variants); and the diagonal
step is the identity for the Cholesky variant. -/
theorem claim_C7_supernodal_solve_structure {F : Type} [Field F]
    (fact : Factorization F) (B : Nat → Nat → F) (fuel : Nat) (s : Int) :
    (fact.Solve B =
      (if fact.permutation ≠ [] then
        Permute fact.inverse_permutation fact.num_rows
          (fact.LowerTransposeTriangularSolve
            (fact.DiagonalSolve
              (fact.LowerTriangularSolve
                (if fact.permutation ≠ [] then
                  Permute fact.permutation fact.num_rows B else B))))
      else
        fact.LowerTransposeTriangularSolve
          (fact.DiagonalSolve
            (fact.LowerTriangularSolve
              (if fact.permutation ≠ [] then
                Permute fact.permutation fact.num_rows B else B))))) ∧
    (fact.LowerTriangularSolveRecursion fuel s B =
      (fact.forwardOrder fuel s).foldl
        (fun C u => fact.LowerSupernodalTrapezoidalSolve u C) B) ∧
    (∃ pre, fact.forwardOrder (fuel + 1) s = pre ++ [s] ∧
      ∀ t ∈ fact.childrenOf s, ∀ u ∈ fact.forwardOrder fuel t, u ∈ pre) ∧
    (fact.LowerTransposeTriangularSolveRecursion fuel s B =
      (fact.backwardOrder fuel s).foldl
        (fun C u => fact.LowerTransposeSupernodalTrapezoidalSolve u C)
        B) ∧
    (fact.backwardOrder (fuel + 1) s =
      s :: (fact.childrenOf s).bind (fact.backwardOrder fuel)) ∧
    (fact.control.factorization_type =
        SymmetricFactorizationType.kCholeskyFactorization →
      fact.DiagonalSolve B = B) := by
  refine ⟨?_, Factorization.forwardRecursion_eq_foldl fact fuel s B, ?_,
    Factorization.backwardRecursion_eq_foldl fact fuel s B, rfl, ?_⟩
  · show (if fact.permutation ≠ [] then
        Permute fact.inverse_permutation fact.num_rows
          (fact.LowerTransposeTriangularSolve
            (fact.DiagonalSolve
              (fact.LowerTriangularSolve
                (if fact.permutation ≠ [] then
                  Permute fact.permutation fact.num_rows B else B))))
      else
        fact.LowerTransposeTriangularSolve
          (fact.DiagonalSolve
            (fact.LowerTriangularSolve
              (if fact.permutation ≠ [] then
                Permute fact.permutation fact.num_rows B else B)))) = _
    rfl
  · refine ⟨(fact.childrenOf s).bind (fact.forwardOrder fuel), rfl, ?_⟩
    intro t ht u hu
    exact List.mem_bind.mpr ⟨t, ht, hu⟩
  · intro h
    unfold Factorization.DiagonalSolve
    rw [if_pos h]

end Catamari

namespace Catamari

lemma nget_nset_self (l : List Int) (i : Nat) (v : Int)
    (h : i < l.length) : nget (nset l i v) i = v := by
  unfold nget nset
  rw [List.getD_eq_getElem?_getD, List.getElem?_set_self]
  · rfl
  · exact h

lemma nget_nset_ne (l : List Int) (i : Nat) (v : Int) (j : Nat)
    (h : i ≠ j) : nget (nset l i v) j = nget l j := by
  unfold nget nset
  rw [List.getD_eq_getElem?_getD, List.getD_eq_getElem?_getD,
    List.getElem?_set_ne h]

lemma nset_length (l : List Int) (i : Nat) (v : Int) :
    (nset l i v).length = l.length := by
  unfold nset
  exact List.length_set l i v

lemma nget_replicate (n : Nat) (v : Int) (i : Nat) (h : i < n) :
    nget (List.replicate n v) i = v := by
  unfold nget
  rw [List.getD_eq_getElem?_getD, List.getElem?_replicate]
  rw [if_pos h]
  rfl

lemma LnzAux_mono (adj : Nat → List Nat) :
    ∀ f₁ f₂ i j, f₁ ≤ f₂ → LnzAux adj f₁ i j → LnzAux adj f₂ i j := by
  intro f₁
  induction f₁ with
  | zero =>
    intro f₂ i j _ h
    cases f₂ with
    | zero => exact h
    | succ f₂ => exact Or.inl h
  | succ f₁ ih =>
    intro f₂ i j hle h
    cases f₂ with
    | zero => exact absurd hle (by omega)
    | succ f₂ =>
      rcases h with h | ⟨k, hk1, hk2, h1, h2⟩
      · exact Or.inl h
      · exact Or.inr ⟨k, hk1, hk2, ih f₂ i k (by omega) h1,
          ih f₂ j k (by omega) h2⟩

lemma LnzAux_stable (adj : Nat → List Nat) :
    ∀ f i j, i + j ≤ f → (LnzAux adj f i j ↔ LnzAux adj (i + j) i j) := by
  intro f
  induction f using Nat.strong_induction_on with
  | _ f ih =>
    intro i j hle
    rcases Nat.lt_or_ge (i + j) f with hlt | hge
    · cases f with
      | zero => exact absurd hlt (by omega)
      | succ f =>
        have hle' : i + j ≤ f := by omega
        constructor
        · intro h
          rcases h with h | ⟨k, hk1, hk2, h1, h2⟩
          · rcases hij : i + j with _ | m
            · exact h
            · exact Or.inl h
          · have hij : ∃ m, i + j = m + 1 := ⟨i + j - 1, by omega⟩
            obtain ⟨m, hm⟩ := hij
            rw [hm]
            refine Or.inr ⟨k, hk1, hk2, ?_, ?_⟩
            · have e1 : LnzAux adj (i + k) i k :=
                (ih f (by omega) i k (by omega)).mp h1
              exact LnzAux_mono adj (i + k) m i k (by omega) e1
            · have e2 : LnzAux adj (j + k) j k :=
                (ih f (by omega) j k (by omega)).mp h2
              exact LnzAux_mono adj (j + k) m j k (by omega) e2
        · intro h
          exact LnzAux_mono adj (i + j) (f + 1) i j (by omega) h
    · have : i + j = f := by omega
      rw [this]

lemma Lnz_iff (adj : Nat → List Nat) (i j : Nat) :
    Lnz adj i j ↔ (j ∈ adj i ∨
      ∃ k, k < j ∧ k < i ∧ Lnz adj i k ∧ Lnz adj j k) := by
  unfold Lnz
  cases hij : i + j with
  | zero =>
    have hj : j = 0 := by omega
    subst hj
    simp only [LnzAux]
    constructor
    · intro h; exact Or.inl h
    · intro h
      rcases h with h | ⟨k, hk1, _, _, _⟩
      · exact h
      · exact absurd hk1 (by omega)
  | succ m =>
    show LnzAux adj (m + 1) i j ↔ _
    constructor
    · intro h
      rcases h with h | ⟨k, hk1, hk2, h1, h2⟩
      · exact Or.inl h
      · refine Or.inr ⟨k, hk1, hk2, ?_, ?_⟩
        · exact (LnzAux_stable adj m i k (by omega)).mp h1
        · exact (LnzAux_stable adj m j k (by omega)).mp h2
    · intro h
      rcases h with h | ⟨k, hk1, hk2, h1, h2⟩
      · exact Or.inl h
      · refine Or.inr ⟨k, hk1, hk2, ?_, ?_⟩
        · exact LnzAux_mono adj (i + k) m i k (by omega) h1
        · exact LnzAux_mono adj (j + k) m j k (by omega) h2

lemma Lnz_of_mem (adj : Nat → List Nat) (i j : Nat) (h : j ∈ adj i) :
    Lnz adj i j := (Lnz_iff adj i j).mpr (Or.inl h)

lemma Lnz_climb (adj : Nat → List Nat) (i c p : Nat) (hci : c < i)
    (hLnz : Lnz adj i c) (hmin : IsMinFill adj c p) (hpi : p < i) :
    Lnz adj i p := by
  refine (Lnz_iff adj i p).mpr (Or.inr ⟨c, hmin.1, hci, hLnz, hmin.2.1⟩)

lemma IsMinFill_unique (adj : Nat → List Nat) (j p q : Nat)
    (hp : IsMinFill adj j p) (hq : IsMinFill adj j q) : p = q := by
  by_contra hne
  rcases Nat.lt_or_ge p q with h | h
  · exact hq.2.2 p hp.1 h hp.2.1
  · have h' : q < p := by omega
    exact hp.2.2 q hq.1 h' hq.2.1

lemma exists_isMinFill (adj : Nat → List Nat) (j : Nat)
    (h : ∃ i, j < i ∧ Lnz adj i j) : ∃ p, IsMinFill adj j p := by
  classical
  have hfind := Nat.find_spec h
  refine ⟨Nat.find h, hfind.1, hfind.2, ?_⟩
  intro i' hji' hlt hLnz
  exact Nat.find_min h hlt ⟨hji', hLnz⟩

lemma MinChain_le (adj : Nat → List Nat) :
    ∀ c x, MinChain adj c x → c ≤ x := by
  intro c x h
  induction h with
  | refl => exact Nat.le_refl _
  | step x y _ hmin ih => exact le_trans ih (le_of_lt hmin.1)

lemma MinChain_trans (adj : Nat → List Nat) (a b c : Nat)
    (h1 : MinChain adj a b) (h2 : MinChain adj b c) : MinChain adj a c := by
  induction h2 with
  | refl => exact h1
  | step x y _ hmin ih => exact MinChain.step _ _ ih hmin

lemma MinChain_through (adj : Nat → List Nat) (c p : Nat)
    (hmin : IsMinFill adj c p) :
    ∀ x, MinChain adj c x → x = c ∨ MinChain adj p x := by
  intro x h
  induction h with
  | refl => exact Or.inl rfl
  | step y z hchain hstep ih =>
    rcases ih with rfl | hp
    · have hz : z = p := IsMinFill_unique adj _ z p hstep hmin
      subst hz
      exact Or.inr MinChain.refl
    · exact Or.inr (MinChain.step _ _ hp hstep)

end Catamari

namespace Catamari

lemma MinChain_pattern (adj : Nat → List Nat) (r a : Nat)
    (ha : a ∈ adj r) (har : a < r) :
    ∀ x, MinChain adj a x → x < r → Lnz adj r x := by
  intro x h
  induction h with
  | refl => intro _; exact Lnz_of_mem adj r a ha
  | step y z hchain hstep ih =>
    intro hzr
    have hyz : y < z := hstep.1
    have hLy : Lnz adj r y := ih (by omega)
    exact Lnz_climb adj r y z (by omega) hLy hstep hzr

lemma climb_to (adj : Nat → List Nat) (r x : Nat) (hxr : x < r) :
    ∀ d y, y < x → Lnz adj r y → Lnz adj x y → x - y ≤ d →
      MinChain adj y x := by
  intro d
  induction d with
  | zero =>
    intro y hyx _ _ hd
    exact absurd hd (by omega)
  | succ d ih =>
    intro y hyx hry hxy hd
    obtain ⟨p, hp⟩ := exists_isMinFill adj y ⟨x, hyx, hxy⟩
    have hpx : p ≤ x := by
      by_contra hc
      push_neg at hc
      exact hp.2.2 x hyx hc hxy
    rcases Nat.eq_or_lt_of_le hpx with rfl | hplt
    · exact MinChain.step _ _ MinChain.refl hp
    · have hLxp : Lnz adj x p := Lnz_climb adj x y p hyx hxy hp hplt
      have hLrp : Lnz adj r p := Lnz_climb adj r y p (by omega) hry hp
        (by omega)
      have hchain : MinChain adj p x := ih p hplt hLrp hLxp (by
        have := hp.1
        omega)
      exact MinChain_trans adj y p x (MinChain.step _ _ MinChain.refl hp)
        hchain

lemma pattern_reach (adj : Nat → List Nat) (r : Nat) :
    ∀ x, x < r → Lnz adj r x → ∃ a ∈ adj r, MinChain adj a x := by
  intro x
  induction x using Nat.strong_induction_on with
  | _ x ih =>
    intro hxr hLnz
    rcases (Lnz_iff adj r x).mp hLnz with hmem | ⟨k, hk1, hk2, h1, h2⟩
    · exact ⟨x, hmem, MinChain.refl⟩
    · obtain ⟨a, ha, hchain⟩ := ih k hk1 (by omega) h1
      have hkx : MinChain adj k x :=
        climb_to adj r x hxr (x - k) k hk1 h1 h2 (Nat.le_refl _)
      exact ⟨a, ha, MinChain_trans adj a k x hchain hkx⟩

/-- The pattern of row `r` is exactly the set of columns reachable from
the row's strictly-lower adjacency along minimal-fill-parent chains. -/
lemma rowPattern_iff (adj : Nat → List Nat) (r : Nat)
    (Hadjr : ∀ c ∈ adj r, c < r) (x : Nat) (hxr : x < r) :
    Lnz adj r x ↔ ∃ a ∈ adj r, MinChain adj a x := by
  constructor
  · exact pattern_reach adj r x hxr
  · rintro ⟨a, ha, hchain⟩
    exact MinChain_pattern adj r a ha (Hadjr a ha) x hchain hxr

end Catamari

namespace Catamari

section EFInvariants

open Classical

/-- The inner (per-row) invariant during row `r`, relating the current
state to the state `base` at the start of the row through the set `M` of
columns marked so far. -/
structure RowInv (n r : Nat) (adj : Nat → List Nat) (base st : EFState)
    (M : Nat → Prop) : Prop where
  len_par : st.parents.length = n
  len_deg : st.degrees.length = n
  len_flags : st.pattern_flags.length = n
  sub : ∀ c, M c → c < r ∧ Lnz adj r c
  flag_r : r < n → nget st.pattern_flags r = (r : Int)
  flag_mem : ∀ j, j < r → (nget st.pattern_flags j = (r : Int) ↔ M j)
  flag_out : ∀ j, j < n → j ≠ r → ¬ M j →
    nget st.pattern_flags j = nget base.pattern_flags j
  par_mem : ∀ j, j < n → M j →
    (nget base.parents j = -1 ∧ nget st.parents j = (r : Int)) ∨
    (nget base.parents j ≠ -1 ∧ nget st.parents j = nget base.parents j)
  par_out : ∀ j, j < n → ¬ M j → nget st.parents j = nget base.parents j
  deg_mem : ∀ j, j < n → M j → nget st.degrees j = nget base.degrees j + 1
  deg_out : ∀ j, j < n → ¬ M j → nget st.degrees j = nget base.degrees j

lemma chain_absorb (n r : Nat) (adj : Nat → List Nat) (base st : EFState)
    (M : Nat → Prop) (hInv : RowInv n r adj base st M)
    (hclosed : ∀ x, M x → ∀ p, IsMinFill adj x p → M p ∨ p = r)
    (c : Nat) (hc : M c) :
    ∀ x, MinChain adj c x → x < r → M x := by
  intro x h
  induction h with
  | refl => intro _; exact hc
  | step y z hchain hstep ih =>
    intro hzr
    have hy : M y := ih (by have := hstep.1; omega)
    rcases hclosed y hy z hstep with h | h
    · exact h
    · omega

lemma walkUp_succ (row fuel : Nat) (st : EFState) (c : Nat) :
    walkUp row (fuel + 1) st c =
      if nget st.pattern_flags c ≠ (row : Int) then
        walkUp row fuel
          (if nget st.parents c = -1 then
            { parents := nset st.parents c (row : Int),
              degrees := nset st.degrees c (nget st.degrees c + 1),
              pattern_flags := nset st.pattern_flags c (row : Int) }
          else
            { parents := st.parents,
              degrees := nset st.degrees c (nget st.degrees c + 1),
              pattern_flags := nset st.pattern_flags c (row : Int) })
          (nget (if nget st.parents c = -1 then
            ({ parents := nset st.parents c (row : Int),
               degrees := nset st.degrees c (nget st.degrees c + 1),
               pattern_flags :=
                 nset st.pattern_flags c (row : Int) } : EFState)
          else
            { parents := st.parents,
              degrees := nset st.degrees c (nget st.degrees c + 1),
              pattern_flags :=
                nset st.pattern_flags c (row : Int) }).parents c).toNat
      else st := rfl

lemma RowInv_mark_set (n r : Nat) (adj : Nat → List Nat)
    (base st : EFState) (M : Nat → Prop) (c : Nat) (hrn : r < n)
    (hInv : RowInv n r adj base st M) (hc : c < r) (hLnz : Lnz adj r c)
    (hM : ¬ M c) (hpar : nget base.parents c = -1) :
    RowInv n r adj base
      { parents := nset st.parents c (r : Int),
        degrees := nset st.degrees c (nget st.degrees c + 1),
        pattern_flags := nset st.pattern_flags c (r : Int) }
      (fun x => M x ∨ x = c) := by
  have hcn : c < n := by omega
  refine ⟨?_, ?_, ?_, ?_, ?_, ?_, ?_, ?_, ?_, ?_, ?_⟩
  · rw [nset_length]; exact hInv.len_par
  · rw [nset_length]; exact hInv.len_deg
  · rw [nset_length]; exact hInv.len_flags
  · intro x hx
    rcases hx with hx | rfl
    · exact hInv.sub x hx
    · exact ⟨hc, hLnz⟩
  · intro hrn'
    show nget (nset st.pattern_flags c (r : Int)) r = (r : Int)
    rw [nget_nset_ne _ _ _ _ (by omega)]
    exact hInv.flag_r hrn'
  · intro j hj
    show nget (nset st.pattern_flags c (r : Int)) j = (r : Int) ↔ _
    by_cases hjc : j = c
    · subst hjc
      rw [nget_nset_self _ _ _ (by rw [hInv.len_flags]; omega)]
      simp
    · rw [nget_nset_ne _ _ _ _ (Ne.symm hjc)]
      rw [hInv.flag_mem j hj]
      constructor
      · intro h; exact Or.inl h
      · intro h
        rcases h with h | h
        · exact h
        · exact absurd h hjc
  · intro j hjn hjr hMj
    push_neg at hMj
    show nget (nset st.pattern_flags c (r : Int)) j = _
    rw [nget_nset_ne _ _ _ _ (fun hcj => hMj.2 hcj.symm)]
    exact hInv.flag_out j hjn hjr hMj.1
  · intro j hjn hMj
    rcases hMj with hMj | rfl
    · have hjc : j ≠ c := fun h => hM (h ▸ hMj)
      show (nget base.parents j = -1 ∧
          nget (nset st.parents c (r : Int)) j = (r : Int)) ∨ _
      rw [nget_nset_ne _ _ _ _ (Ne.symm hjc)]
      exact hInv.par_mem j hjn hMj
    · left
      refine ⟨hpar, ?_⟩
      show nget (nset st.parents j (r : Int)) j = (r : Int)
      exact nget_nset_self _ _ _ (by rw [hInv.len_par]; omega)
  · intro j hjn hMj
    push_neg at hMj
    show nget (nset st.parents c (r : Int)) j = _
    rw [nget_nset_ne _ _ _ _ (fun hcj => hMj.2 hcj.symm)]
    exact hInv.par_out j hjn hMj.1
  · intro j hjn hMj
    rcases hMj with hMj | rfl
    · have hjc : j ≠ c := fun h => hM (h ▸ hMj)
      show nget (nset st.degrees c _) j = _
      rw [nget_nset_ne _ _ _ _ (Ne.symm hjc)]
      exact hInv.deg_mem j hjn hMj
    · show nget (nset st.degrees j _) j = _
      rw [nget_nset_self _ _ _ (by rw [hInv.len_deg]; omega)]
      rw [hInv.deg_out j hjn hM]
  · intro j hjn hMj
    push_neg at hMj
    show nget (nset st.degrees c _) j = _
    rw [nget_nset_ne _ _ _ _ (fun hcj => hMj.2 hcj.symm)]
    exact hInv.deg_out j hjn hMj.1

lemma RowInv_mark_keep (n r : Nat) (adj : Nat → List Nat)
    (base st : EFState) (M : Nat → Prop) (c : Nat) (hrn : r < n)
    (hInv : RowInv n r adj base st M) (hc : c < r) (hLnz : Lnz adj r c)
    (hM : ¬ M c) (hpar : nget base.parents c ≠ -1) :
    RowInv n r adj base
      { parents := st.parents,
        degrees := nset st.degrees c (nget st.degrees c + 1),
        pattern_flags := nset st.pattern_flags c (r : Int) }
      (fun x => M x ∨ x = c) := by
  have hcn : c < n := by omega
  refine ⟨?_, ?_, ?_, ?_, ?_, ?_, ?_, ?_, ?_, ?_, ?_⟩
  · exact hInv.len_par
  · rw [nset_length]; exact hInv.len_deg
  · rw [nset_length]; exact hInv.len_flags
  · intro x hx
    rcases hx with hx | rfl
    · exact hInv.sub x hx
    · exact ⟨hc, hLnz⟩
  · intro hrn'
    show nget (nset st.pattern_flags c (r : Int)) r = (r : Int)
    rw [nget_nset_ne _ _ _ _ (by omega)]
    exact hInv.flag_r hrn'
  · intro j hj
    show nget (nset st.pattern_flags c (r : Int)) j = (r : Int) ↔ _
    by_cases hjc : j = c
    · subst hjc
      rw [nget_nset_self _ _ _ (by rw [hInv.len_flags]; omega)]
      simp
    · rw [nget_nset_ne _ _ _ _ (Ne.symm hjc)]
      rw [hInv.flag_mem j hj]
      constructor
      · intro h; exact Or.inl h
      · intro h
        rcases h with h | h
        · exact h
        · exact absurd h hjc
  · intro j hjn hjr hMj
    push_neg at hMj
    show nget (nset st.pattern_flags c (r : Int)) j = _
    rw [nget_nset_ne _ _ _ _ (fun hcj => hMj.2 hcj.symm)]
    exact hInv.flag_out j hjn hjr hMj.1
  · intro j hjn hMj
    rcases hMj with hMj | rfl
    · exact hInv.par_mem j hjn hMj
    · right
      exact ⟨hpar, hInv.par_out j hjn hM⟩
  · intro j hjn hMj
    push_neg at hMj
    exact hInv.par_out j hjn hMj.1
  · intro j hjn hMj
    rcases hMj with hMj | rfl
    · have hjc : j ≠ c := fun h => hM (h ▸ hMj)
      show nget (nset st.degrees c _) j = _
      rw [nget_nset_ne _ _ _ _ (Ne.symm hjc)]
      exact hInv.deg_mem j hjn hMj
    · show nget (nset st.degrees j _) j = _
      rw [nget_nset_self _ _ _ (by rw [hInv.len_deg]; omega)]
      rw [hInv.deg_out j hjn hM]
  · intro j hjn hMj
    push_neg at hMj
    show nget (nset st.degrees c _) j = _
    rw [nget_nset_ne _ _ _ _ (fun hcj => hMj.2 hcj.symm)]
    exact hInv.deg_out j hjn hMj.1

end EFInvariants

end Catamari

namespace Catamari

lemma walkUp_stop (row fuel : Nat) (st : EFState) (c : Nat)
    (hguard : ¬ nget st.pattern_flags c ≠ (row : Int)) :
    walkUp row (fuel + 1) st c = st := by
  rw [walkUp_succ, if_neg hguard]

lemma walkUp_step_set (row fuel : Nat) (st : EFState) (c : Nat)
    (hguard : nget st.pattern_flags c ≠ (row : Int))
    (hpar : nget st.parents c = -1) :
    walkUp row (fuel + 1) st c = walkUp row fuel
      { parents := nset st.parents c (row : Int),
        degrees := nset st.degrees c (nget st.degrees c + 1),
        pattern_flags := nset st.pattern_flags c (row : Int) }
      ((nget (nset st.parents c (row : Int)) c).toNat) := by
  rw [walkUp_succ, if_pos hguard, if_pos hpar]

lemma walkUp_step_keep (row fuel : Nat) (st : EFState) (c : Nat)
    (hguard : nget st.pattern_flags c ≠ (row : Int))
    (hpar : ¬ nget st.parents c = -1) :
    walkUp row (fuel + 1) st c = walkUp row fuel
      { parents := st.parents,
        degrees := nset st.degrees c (nget st.degrees c + 1),
        pattern_flags := nset st.pattern_flags c (row : Int) }
      ((nget st.parents c).toNat) := by
  rw [walkUp_succ, if_pos hguard, if_neg hpar]

lemma walkUp_spec (n r : Nat) (adj : Nat → List Nat) (base : EFState)
    (hrn : r < n) (hbase : StInv n adj r base) :
    ∀ fuel (st : EFState) (M : Nat → Prop) (c : Nat),
      RowInv n r adj base st M →
      (∀ x, M x → ∀ p, IsMinFill adj x p → M p ∨ p = r ∨ p = c) →
      (c = r ∨ (c < r ∧ Lnz adj r c)) →
      r + 1 - c ≤ fuel →
      ∃ M', RowInv n r adj base (walkUp r fuel st c) M' ∧
        (∀ x, M' x → ∀ p, IsMinFill adj x p → M' p ∨ p = r) ∧
        (∀ x, M' x ↔ (M x ∨ (MinChain adj c x ∧ x < r))) := by
  intro fuel
  induction fuel with
  | zero =>
    intro st M c _ _ hcr hfuel
    exfalso
    rcases hcr with rfl | ⟨h, _⟩ <;> omega
  | succ fuel ih =>
    intro st M c hInv hfront hcr hfuel
    rcases hcr with hceq | ⟨hcr', hLnz⟩
    · rw [hceq] at hfront ⊢
      rw [walkUp_stop r fuel st r (fun hne => hne (hInv.flag_r hrn))]
      refine ⟨M, hInv, ?_, ?_⟩
      · intro x hx p hp
        rcases hfront x hx p hp with h | h | h
        · exact Or.inl h
        · exact Or.inr h
        · exact Or.inr h
      · intro x
        constructor
        · intro h
          exact Or.inl h
        · intro h
          rcases h with h | ⟨hchain, hxr⟩
          · exact h
          · exfalso
            have := MinChain_le adj r x hchain
            omega
    · by_cases hMc : M c
      · rw [walkUp_stop r fuel st c
          (fun hne => hne ((hInv.flag_mem c hcr').mpr hMc))]
        have hclosed : ∀ x, M x → ∀ p, IsMinFill adj x p →
            M p ∨ p = r := by
          intro x hx p hp
          rcases hfront x hx p hp with h | h | rfl
          · exact Or.inl h
          · exact Or.inr h
          · exact Or.inl hMc
        refine ⟨M, hInv, hclosed, ?_⟩
        intro x
        constructor
        · intro h
          exact Or.inl h
        · intro h
          rcases h with h | ⟨hchain, hxr⟩
          · exact h
          · exact chain_absorb n r adj base st M hInv hclosed c hMc x
              hchain hxr
      · have hguard : nget st.pattern_flags c ≠ (r : Int) :=
          fun hfl => hMc ((hInv.flag_mem c hcr').mp hfl)
        have hstc : nget st.parents c = nget base.parents c :=
          hInv.par_out c (by omega) hMc
        rcases hbase.par c (by omega) with ⟨hbpar, hnofill⟩ |
          ⟨i₀, hi₀r, hbpar, hmin⟩
        · -- first fill row of column c is r itself
          have hparc : nget st.parents c = -1 := by rw [hstc]; exact hbpar
          rw [walkUp_step_set r fuel st c hguard hparc]
          have hlen : c < st.parents.length := by
            rw [hInv.len_par]; omega
          rw [show (nget (nset st.parents c (r : Int)) c).toNat = r by
            rw [nget_nset_self _ _ _ hlen]; exact Int.toNat_natCast r]
          have hminr : IsMinFill adj c r := ⟨hcr', hLnz, hnofill⟩
          have hInv1 := RowInv_mark_set n r adj base st M c hrn hInv hcr'
            hLnz hMc hbpar
          have hfront1 : ∀ x, (M x ∨ x = c) → ∀ p, IsMinFill adj x p →
              (M p ∨ p = c) ∨ p = r ∨ p = r := by
            intro x hx p hp
            rcases hx with hx | rfl
            · rcases hfront x hx p hp with h | h | rfl
              · exact Or.inl (Or.inl h)
              · exact Or.inr (Or.inl h)
              · exact Or.inl (Or.inr rfl)
            · have hpr : p = r := IsMinFill_unique adj _ p r hp hminr
              exact Or.inr (Or.inl hpr)
          obtain ⟨M', hInv', hclosed', hchar'⟩ := ih _ _ r hInv1 hfront1
            (Or.inl rfl) (by omega)
          refine ⟨M', hInv', hclosed', ?_⟩
          intro x
          rw [hchar' x]
          constructor
          · intro h
            rcases h with (h | rfl) | ⟨hchain, hxr⟩
            · exact Or.inl h
            · exact Or.inr ⟨MinChain.refl, hcr'⟩
            · exfalso
              have := MinChain_le adj r x hchain
              omega
          · intro h
            rcases h with h | ⟨hchain, hxr⟩
            · exact Or.inl (Or.inl h)
            · rcases MinChain_through adj c r hminr x hchain with rfl | h2
              · exact Or.inl (Or.inr rfl)
              · exfalso
                have := MinChain_le adj r x h2
                omega
        · -- column c already has its minimal fill parent i₀ < r
          have hparc : ¬ nget st.parents c = -1 := by
            rw [hstc, hbpar]
            intro h
            omega
          rw [walkUp_step_keep r fuel st c hguard hparc]
          rw [show (nget st.parents c).toNat = i₀ by
            rw [hstc, hbpar]; exact Int.toNat_natCast i₀]
          have hci₀ : c < i₀ := hmin.1
          have hInv1 := RowInv_mark_keep n r adj base st M c hrn hInv hcr'
            hLnz hMc (by rw [hbpar]; intro h; omega)
          have hfront1 : ∀ x, (M x ∨ x = c) → ∀ p, IsMinFill adj x p →
              (M p ∨ p = c) ∨ p = r ∨ p = i₀ := by
            intro x hx p hp
            rcases hx with hx | rfl
            · rcases hfront x hx p hp with h | h | rfl
              · exact Or.inl (Or.inl h)
              · exact Or.inr (Or.inl h)
              · exact Or.inl (Or.inr rfl)
            · have hpi : p = i₀ := IsMinFill_unique adj _ p i₀ hp hmin
              exact Or.inr (Or.inr hpi)
          have hLnzi₀ : Lnz adj r i₀ :=
            Lnz_climb adj r c i₀ hcr' hLnz hmin hi₀r
          obtain ⟨M', hInv', hclosed', hchar'⟩ := ih _ _ i₀ hInv1 hfront1
            (Or.inr ⟨hi₀r, hLnzi₀⟩) (by omega)
          refine ⟨M', hInv', hclosed', ?_⟩
          intro x
          rw [hchar' x]
          constructor
          · intro h
            rcases h with (h | rfl) | ⟨hchain, hxr⟩
            · exact Or.inl h
            · exact Or.inr ⟨MinChain.refl, hcr'⟩
            · refine Or.inr ⟨?_, hxr⟩
              exact MinChain_trans adj c i₀ x
                (MinChain.step _ _ MinChain.refl hmin) hchain
          · intro h
            rcases h with h | ⟨hchain, hxr⟩
            · exact Or.inl (Or.inl h)
            · rcases MinChain_through adj c i₀ hmin x hchain with rfl | h2
              · exact Or.inl (Or.inr rfl)
              · exact Or.inr ⟨h2, hxr⟩

end Catamari

namespace Catamari

section EFRowLemmas

open Classical

lemma RowInv_init (n r : Nat) (adj : Nat → List Nat) (base : EFState)
    (hrn : r < n) (hbase : StInv n adj r base) :
    RowInv n r adj base
      { parents := base.parents, degrees := base.degrees,
        pattern_flags := nset base.pattern_flags r (r : Int) }
      (fun _ => False) := by
  refine ⟨?_, ?_, ?_, ?_, ?_, ?_, ?_, ?_, ?_, ?_, ?_⟩
  · exact hbase.len_par
  · exact hbase.len_deg
  · rw [nset_length]; exact hbase.len_flags
  · intro c hc; exact absurd hc (by intro h; exact h)
  · intro _
    show nget (nset base.pattern_flags r (r : Int)) r = (r : Int)
    exact nget_nset_self _ _ _ (by rw [hbase.len_flags]; omega)
  · intro j hj
    show nget (nset base.pattern_flags r (r : Int)) j = (r : Int) ↔ False
    rw [nget_nset_ne _ _ _ _ (by omega)]
    constructor
    · intro h
      rcases hbase.flags j (by omega) with h' | h'
      · omega
      · rw [h'] at h
        omega
    · intro h; exact absurd h (by intro h; exact h)
  · intro j _ hjr _
    show nget (nset base.pattern_flags r (r : Int)) j = _
    rw [nget_nset_ne _ _ _ _ (fun h => hjr h.symm)]
  · intro j _ hj; exact absurd hj (by intro h; exact h)
  · intro j _ _; rfl
  · intro j _ hj; exact absurd hj (by intro h; exact h)
  · intro j _ _; rfl

lemma processFold_spec (n r : Nat) (adj : Nat → List Nat)
    (base : EFState) (hrn : r < n) (hbase : StInv n adj r base)
    (Hadjr : ∀ c ∈ adj r, c < r) :
    ∀ (l : List Nat), (∀ a ∈ l, a ∈ adj r) →
      ∀ (st : EFState) (M : Nat → Prop),
      RowInv n r adj base st M →
      (∀ x, M x → ∀ p, IsMinFill adj x p → M p ∨ p = r) →
      ∃ M', RowInv n r adj base
          (l.foldl (fun s c => walkUp r (r + 1) s c) st) M' ∧
        (∀ x, M' x → ∀ p, IsMinFill adj x p → M' p ∨ p = r) ∧
        (∀ x, M' x ↔ (M x ∨ ∃ a ∈ l, MinChain adj a x ∧ x < r)) := by
  intro l
  induction l with
  | nil =>
    intro _ st M hInv hclosed
    refine ⟨M, hInv, hclosed, ?_⟩
    intro x
    simp
  | cons a l ih =>
    intro hsub st M hInv hclosed
    have ha : a ∈ adj r := hsub a (List.mem_cons_self a l)
    have har : a < r := Hadjr a ha
    have hLa : Lnz adj r a := Lnz_of_mem adj r a ha
    obtain ⟨M₁, hInv₁, hclosed₁, hchar₁⟩ := walkUp_spec n r adj base hrn
      hbase (r + 1) st M a hInv
      (fun x hx p hp => by
        rcases hclosed x hx p hp with h | h
        · exact Or.inl h
        · exact Or.inr (Or.inl h))
      (Or.inr ⟨har, hLa⟩) (by omega)
    rw [List.foldl_cons]
    obtain ⟨M', hInv', hclosed', hchar'⟩ := ih
      (fun b hb => hsub b (List.mem_cons_of_mem a hb)) _ M₁ hInv₁ hclosed₁
    refine ⟨M', hInv', hclosed', ?_⟩
    intro x
    rw [hchar' x]
    constructor
    · intro h
      rcases h with h | ⟨b, hb, hchain, hxr⟩
      · rcases (hchar₁ x).mp h with h | ⟨hchain, hxr⟩
        · exact Or.inl h
        · exact Or.inr ⟨a, List.mem_cons_self a l, hchain, hxr⟩
      · exact Or.inr ⟨b, List.mem_cons_of_mem a hb, hchain, hxr⟩
    · intro h
      rcases h with h | ⟨b, hb, hchain, hxr⟩
      · exact Or.inl ((hchar₁ x).mpr (Or.inl h))
      · rcases List.mem_cons.mp hb with rfl | hb'
        · exact Or.inl ((hchar₁ x).mpr (Or.inr ⟨hchain, hxr⟩))
        · exact Or.inr ⟨b, hb', hchain, hxr⟩

lemma processRow_spec (n r : Nat) (adj : Nat → List Nat)
    (base : EFState) (hrn : r < n) (hbase : StInv n adj r base)
    (Hadjr : ∀ c ∈ adj r, c < r) :
    StInv n adj (r + 1) (processRow adj r base) := by
  obtain ⟨M, hInv, hclosed, hchar⟩ := processFold_spec n r adj base hrn
    hbase Hadjr (adj r) (fun a ha => ha) _ (fun _ => False)
    (RowInv_init n r adj base hrn hbase)
    (fun x hx => absurd hx (by intro h; exact h))
  have hpat : ∀ x, M x ↔ (x < r ∧ Lnz adj r x) := by
    intro x
    rw [hchar x]
    constructor
    · intro h
      rcases h with h | ⟨a, ha, hchain, hxr⟩
      · exact absurd h (by intro h; exact h)
      · exact ⟨hxr, (rowPattern_iff adj r Hadjr x hxr).mpr ⟨a, ha, hchain⟩⟩
    · intro ⟨hxr, hLnz⟩
      obtain ⟨a, ha, hchain⟩ := (rowPattern_iff adj r Hadjr x hxr).mp hLnz
      exact Or.inr ⟨a, ha, hchain, hxr⟩
  show StInv n adj (r + 1)
    ((adj r).foldl (fun s c => walkUp r (r + 1) s c)
      { parents := base.parents, degrees := base.degrees,
        pattern_flags := nset base.pattern_flags r (r : Int) })
  refine ⟨hInv.len_par, hInv.len_deg, hInv.len_flags, ?_, ?_, ?_⟩
  · intro j hjn
    by_cases hMj : M j
    · obtain ⟨hjr, hLnz⟩ := (hpat j).mp hMj
      rcases hInv.par_mem j hjn hMj with ⟨hb1, hs1⟩ | ⟨hb2, hs2⟩
      · right
        refine ⟨r, by omega, hs1, hjr, hLnz, ?_⟩
        rcases hbase.par j hjn with ⟨_, hnofill⟩ | ⟨i₀, _, hbeq, _⟩
        · exact hnofill
        · rw [hbeq] at hb1
          exfalso
          omega
      · rcases hbase.par j hjn with ⟨hbeq, _⟩ | ⟨i₀, hi₀r, hbeq, hmin⟩
        · exact absurd hbeq hb2
        · right
          exact ⟨i₀, by omega, by rw [hs2]; exact hbeq, hmin⟩
    · rw [hInv.par_out j hjn hMj]
      rcases hbase.par j hjn with ⟨hbeq, hnofill⟩ | ⟨i₀, hi₀r, hbeq, hmin⟩
      · left
        refine ⟨hbeq, ?_⟩
        intro i hji hir
        rcases Nat.lt_or_ge i r with h | h
        · exact hnofill i hji h
        · have hir' : i = r := by omega
          subst hir'
          intro hLnz
          exact hMj ((hpat j).mpr ⟨hji, hLnz⟩)
      · exact Or.inr ⟨i₀, by omega, hbeq, hmin⟩
  · intro j hjn
    rw [Finset.range_succ, Finset.filter_insert]
    by_cases hMj : M j
    · obtain ⟨hjr, hLnz⟩ := (hpat j).mp hMj
      rw [if_pos ⟨hjr, hLnz⟩, Finset.card_insert_of_not_mem (by
        intro hmem
        have := Finset.mem_range.mp (Finset.mem_of_mem_filter r hmem)
        omega)]
      rw [hInv.deg_mem j hjn hMj, hbase.deg j hjn]
      push_cast
      ring
    · rw [if_neg (by
        intro ⟨hjr, hLnz⟩
        exact hMj ((hpat j).mpr ⟨hjr, hLnz⟩))]
      rw [hInv.deg_out j hjn hMj, hbase.deg j hjn]
  · intro j hjn
    by_cases hjr : j = r
    · subst hjr
      left
      rw [hInv.flag_r hrn]
      omega
    · by_cases hMj : M j
      · have hjltr : j < r := ((hpat j).mp hMj).1
        left
        rw [(hInv.flag_mem j hjltr).mpr hMj]
        omega
      · rw [hInv.flag_out j hjn hjr hMj]
        rcases hbase.flags j hjn with h | h
        · left; omega
        · right; exact h

end EFRowLemmas

end Catamari

namespace Catamari

section EFMain

open Classical

lemma EF_fold_invariant (n : Nat) (adj : Nat → List Nat)
    (Hadj : ∀ r, r < n → ∀ c ∈ adj r, c < r) :
    ∀ r, r ≤ n → StInv n adj r
      ((List.range r).foldl (fun st row => processRow adj row st)
        { parents := List.replicate n (-1),
          degrees := List.replicate n 0,
          pattern_flags := List.replicate n 0 }) := by
  intro r
  induction r with
  | zero =>
    intro _
    rw [List.range_zero, List.foldl_nil]
    refine ⟨List.length_replicate n (-1), List.length_replicate n 0,
      List.length_replicate n 0, ?_, ?_, ?_⟩
    · intro j hj
      left
      refine ⟨?_, ?_⟩
      · show nget (List.replicate n (-1)) j = -1
        exact nget_replicate n (-1) j hj
      · intro i _ hi
        exact absurd hi (by omega)
    · intro j hj
      show nget (List.replicate n 0) j = _
      rw [nget_replicate n 0 j hj]
      simp
    · intro j hj
      right
      show nget (List.replicate n 0) j = 0
      exact nget_replicate n 0 j hj
  | succ r ih =>
    intro hrn
    rw [List.range_succ, List.foldl_append, List.foldl_cons, List.foldl_nil]
    exact processRow_spec n r adj _ (by omega) (ih (by omega))
      (Hadj r (by omega))

lemma EF_invariant (n : Nat) (adj : Nat → List Nat)
    (Hadj : ∀ r, r < n → ∀ c ∈ adj r, c < r) :
    StInv n adj n (EliminationForestAndDegrees n adj) :=
  EF_fold_invariant n adj Hadj n (Nat.le_refl n)

lemma self_mem_pathList (parents : List Int) :
    ∀ d j, j ∈ pathList parents d j := by
  intro d j
  cases d with
  | zero => exact List.mem_singleton.mpr rfl
  | succ d =>
    show j ∈ j :: _
    exact List.mem_cons_self _ _

lemma path_reach (n : Nat) (adj : Nat → List Nat) (st : EFState)
    (hInv : StInv n adj n st) :
    ∀ d i j, j < i → i < n → Lnz adj i j → i - j ≤ d →
      i ∈ pathList st.parents d j := by
  intro d
  induction d with
  | zero =>
    intro i j hji _ _ hd
    exact absurd hd (by omega)
  | succ d ih =>
    intro i j hji hin hLnz hd
    rcases hInv.par j (by omega) with ⟨_, hnofill⟩ |
      ⟨i₀, hi₀n, hpar, hmin⟩
    · exact absurd hLnz (hnofill i hji hin)
    · show i ∈ j :: _
      rw [if_neg (by rw [hpar]; intro h; omega)]
      have hi₀le : i₀ ≤ i := by
        by_contra hc
        push_neg at hc
        exact hmin.2.2 i hji hc hLnz
      rw [show (nget st.parents j).toNat = i₀ by
        rw [hpar]; exact Int.toNat_natCast i₀]
      rcases Nat.eq_or_lt_of_le hi₀le with rfl | hi₀lt
      · exact List.mem_cons_of_mem _ (self_mem_pathList st.parents d i₀)
      · have hLnz' : Lnz adj i i₀ :=
          Lnz_climb adj i j i₀ hji hLnz hmin hi₀lt
        have hji₀ : i₀ < i := hi₀lt
        exact List.mem_cons_of_mem _ (ih i i₀ hji₀ hin hLnz' (by
          have := hmin.1
          omega))

end EFMain

open Classical in
/-- C5: `EliminationForestAndDegrees` computes, for every column `j` of
the (permuted) matrix, `parents[j]` equal to the smallest row `i > j`
whose column `j` is structurally nonzero after fill (`-1` when no such
row exists below `n`), and `degrees[j]` equal to the number of
subdiagonal structural nonzeros of column `j` of `L`; moreover, for
every strictly-lower entry `(i, j)` of the input, `i` lies on the path
from `j` towards its root in the computed forest.  `adj r` lists the
strictly-lower columns of the permuted row `r`, and the fill relation
`Lnz` is the spec's recursive definition. -/
theorem claim_C5_elimination_forest_and_degrees (n : Nat)
    (adj : Nat → List Nat) (Hadj : ∀ r, r < n → ∀ c ∈ adj r, c < r) :
    (∀ j, j < n →
      ((nget (EliminationForestAndDegrees n adj).parents j = -1 ∧
        ∀ i, j < i → i < n → ¬ Lnz adj i j) ∨
      (∃ i₀ : Nat, i₀ < n ∧
        nget (EliminationForestAndDegrees n adj).parents j = (i₀ : Int) ∧
        IsMinFill adj j i₀))) ∧
    (∀ j, j < n →
      nget (EliminationForestAndDegrees n adj).degrees j =
        (((Finset.range n).filter
          (fun i => j < i ∧ Lnz adj i j)).card : Int)) ∧
    (∀ i, i < n → ∀ j ∈ adj i,
      i ∈ pathList (EliminationForestAndDegrees n adj).parents n j) := by
  have hInv := EF_invariant n adj Hadj
  refine ⟨hInv.par, hInv.deg, ?_⟩
  intro i hin j hj
  have hji : j < i := Hadj i hin j hj
  exact path_reach n adj _ hInv n i j hji hin (Lnz_of_mem adj i j hj)
    (by omega)

open Classical in
/-- Witness for C5: the strict-lower-adjacency hypothesis holds for the
two-row fixture, and the forest/degree/path conclusions follow. -/
theorem claim_C5_witness :
    (∀ r, r < 2 → ∀ c ∈ exampleAdjC5 r, c < r) ∧
    ((∀ j, j < 2 →
      ((nget (EliminationForestAndDegrees 2 exampleAdjC5).parents j = -1 ∧
        ∀ i, j < i → i < 2 → ¬ Lnz exampleAdjC5 i j) ∨
      (∃ i₀ : Nat, i₀ < 2 ∧
        nget (EliminationForestAndDegrees 2 exampleAdjC5).parents j =
          (i₀ : Int) ∧
        IsMinFill exampleAdjC5 j i₀))) ∧
    (∀ j, j < 2 →
      nget (EliminationForestAndDegrees 2 exampleAdjC5).degrees j =
        (((Finset.range 2).filter
          (fun i => j < i ∧ Lnz exampleAdjC5 i j)).card : Int)) ∧
    (∀ i, i < 2 → ∀ j ∈ exampleAdjC5 i,
      i ∈ pathList (EliminationForestAndDegrees 2 exampleAdjC5).parents 2
        j)) := by
  have hadj : ∀ r, r < 2 → ∀ c ∈ exampleAdjC5 r, c < r := by
    intro r _ c hc
    rcases r with _ | _ | r
    · exact absurd hc (by simp [exampleAdjC5])
    · have hc0 : c = 0 := by simpa [exampleAdjC5] using hc
      omega
    · exact absurd hc (by simp [exampleAdjC5])
  exact ⟨hadj, claim_C5_elimination_forest_and_degrees 2 exampleAdjC5 hadj⟩

end Catamari
